import Mathlib

/-!
Verification of `openforcefield/typing/engines/smirnoff/parameters.py`
(the SMIRNOFF parameter-typing and force-term-assignment engine)
via a shallow embedding in Lean 4.

Conventions used throughout:

* Python values appearing in the modelled fragments are embedded as `PyVal`.
* Python dicts (`kwargs`, `smirnoff_data`, serialized dicts) are embedded as
  insertion-ordered association lists (`KVList`) with Python-dict semantics:
  assignment updates the value in place if the key is present and appends a
  new entry otherwise, deletion removes the key, and iteration follows
  insertion order.
* Exceptions are embedded as `Except PErr` results, or as an `Option PErr`
  component when the source performs side effects before raising.
* External collaborators (the chemistry toolkit, the unit system, the OpenMM
  object model) are opaque collaborators per the design document; where their
  behaviour matters it is passed in as a function argument.
* Python's `str(index)` used to build suffix-numbered keys such as `k2` is
  embedded as `natStr`, a decimal renderer on `Nat`.
-/

/-- Embedded Python scalar values (the fragment used by the modelled code). -/
inductive PyScalar where
  | noneV : PyScalar
  | int (n : ℤ) : PyScalar
  | rat (q : ℚ) : PyScalar
  | str (s : String) : PyScalar
  deriving Repr, DecidableEq

/-- Embedded Python values: scalars, or flat sequences of scalars.  SMIRNOFF
attribute data in the modelled fragments is scalars and flat sequences
(indexed attributes); nested sequences do not occur. -/
inductive PyVal where
  | base (b : PyScalar) : PyVal
  | list (xs : List PyScalar) : PyVal
  deriving Repr, DecidableEq

/-- Shorthand constructors mirroring Python literals. -/
def PyVal.noneV : PyVal := .base .noneV

def PyVal.int (n : ℤ) : PyVal := .base (.int n)

def PyVal.rat (q : ℚ) : PyVal := .base (.rat q)

def PyVal.str (s : String) : PyVal := .base (.str s)

/-- `l.append(v)` for a Python list value.  Only scalar elements occur in the
modelled data; on other shapes the model leaves the value unchanged. -/
def pyAppend (l v : PyVal) : PyVal :=
  match l, v with
  | .list xs, .base s => .list (xs ++ [s])
  | l, _ => l

/-- Embedded Python exceptions raised by the modelled code. -/
inductive PErr where
  | typeErr (msg : String)
  | specErr (msg : String)
  | attrErr (name : String)
  | valueErr (msg : String)
  | zeroDivErr
  | notImplErr (msg : String)
  | exc (msg : String)
  | versionErr (msg : String)
  deriving Repr, DecidableEq

/-- Decidable equality of embedded results, used to evaluate the model at
concrete inputs. -/
instance {ε α : Type} [DecidableEq ε] [DecidableEq α] : DecidableEq (Except ε α) := fun a b =>
  match a, b with
  | .ok x, .ok y =>
    if h : x = y then .isTrue (by rw [h]) else .isFalse (fun hh => h (Except.ok.inj hh))
  | .error e, .error f =>
    if h : e = f then .isTrue (by rw [h]) else .isFalse (fun hh => h (Except.error.inj hh))
  | .ok _, .error _ => .isFalse (fun hh => Except.noConfusion hh)
  | .error _, .ok _ => .isFalse (fun hh => Except.noConfusion hh)

/-- A Python dict, as an insertion-ordered association list. -/
abbrev KVList := List (String × PyVal)

/-- `key in d` for a Python dict. -/
def hasKey : KVList → String → Bool
  | [], _ => false
  | kv :: rest, k => kv.1 = k || hasKey rest k

/-- `d[key]` for a Python dict; callers in the model only use it when the key
is present, mirroring guarded access in the source. -/
def getVal : KVList → String → PyVal
  | [], _ => .noneV
  | kv :: rest, k => if kv.1 = k then kv.2 else getVal rest k

/-- `del d[key]` for a Python dict. -/
def eraseKey : KVList → String → KVList
  | [], _ => []
  | kv :: rest, k => if kv.1 = k then rest else kv :: eraseKey rest k

/-- `d[key] = v` for a Python dict: update in place when present, else append
at the end (Python insertion order). -/
def setVal : KVList → String → PyVal → KVList
  | [], k, v => [(k, v)]
  | kv :: rest, k, v => if kv.1 = k then (k, v) :: rest else kv :: setVal rest k v

/-- Decimal digit list of `n` (most significant first), with explicit fuel. -/
def toDec (fuel n : Nat) : List Char :=
  match fuel with
  | 0 => []
  | fuel + 1 =>
    if n < 10 then [Nat.digitChar n]
    else toDec fuel (n / 10) ++ [Nat.digitChar (n % 10)]

/-- Python's `str(n)` for a natural number. -/
def natStr (n : Nat) : String :=
  ⟨toDec (n + 1) n⟩

theorem toDec_fuel_irrel : ∀ n f₁ f₂, n < f₁ → n < f₂ → toDec f₁ n = toDec f₂ n := by
  intro n
  induction n using Nat.strong_induction_on with
  | _ n ih =>
    intro f₁ f₂ h₁ h₂
    match f₁, f₂ with
    | g₁ + 1, g₂ + 1 =>
      simp only [toDec]
      by_cases hn : n < 10
      · simp [hn]
      · simp only [hn, if_false]
        have hd : n / 10 < n := Nat.div_lt_self (by omega) (by omega)
        rw [ih (n / 10) hd g₁ g₂ (by omega) (by omega)]

theorem toDec_ne_nil : ∀ n f, n < f → toDec f n ≠ [] := by
  intro n f h
  match f with
  | g + 1 =>
    simp only [toDec]
    by_cases hn : n < 10
    · simp [hn]
    · simp [hn]

theorem toDec_all_digits : ∀ n f, n < f → ∀ c ∈ toDec f n, c.isDigit = true := by
  have digitCharDigit : ∀ d, d < 10 → (Nat.digitChar d).isDigit = true := by decide
  intro n
  induction n using Nat.strong_induction_on with
  | _ n ih =>
    intro f h c hc
    match f with
    | g + 1 =>
      simp only [toDec] at hc
      by_cases hn : n < 10
      · simp [hn] at hc
        subst hc
        exact digitCharDigit n hn
      · simp only [hn, if_false, List.mem_append, List.mem_singleton] at hc
        rcases hc with hc | hc
        · have hd : n / 10 < n := Nat.div_lt_self (by omega) (by omega)
          exact ih (n / 10) hd g (by omega) c hc
        · subst hc
          exact digitCharDigit (n % 10) (Nat.mod_lt _ (by omega))

theorem natStr_data (n : Nat) : (natStr n).data = toDec (n + 1) n := rfl

theorem natStr_ne_empty (n : Nat) : (natStr n).data ≠ [] :=
  toDec_ne_nil n (n + 1) (Nat.lt_succ_self n)

theorem natStr_all_digits (n : Nat) : ∀ c ∈ (natStr n).data, c.isDigit = true :=
  toDec_all_digits n (n + 1) (Nat.lt_succ_self n)

theorem toDec_inj : ∀ m n f₁ f₂, m < f₁ → n < f₂ → toDec f₁ m = toDec f₂ n → m = n := by
  have digitCharInj : ∀ a, a < 10 → ∀ b, b < 10 → Nat.digitChar a = Nat.digitChar b → a = b := by
    decide
  intro m
  induction m using Nat.strong_induction_on with
  | _ m ih =>
    intro n f₁ f₂ h₁ h₂ heq
    match f₁, f₂ with
    | g₁ + 1, g₂ + 1 =>
      simp only [toDec] at heq
      by_cases hm : m < 10 <;> by_cases hn : n < 10
      · simp [hm, hn] at heq
        exact digitCharInj m hm n hn heq
      · exfalso
        simp only [hm, hn, if_true, if_false] at heq
        have hlen : ([Nat.digitChar m]).length = (toDec g₂ (n / 10) ++ [Nat.digitChar (n % 10)]).length := by
          rw [heq]
        simp only [List.length_append, List.length_singleton] at hlen
        have hne : toDec g₂ (n / 10) ≠ [] :=
          toDec_ne_nil (n / 10) g₂ (by
            have hlt : n / 10 < n := Nat.div_lt_self (by omega) (by omega)
            omega)
        have hpos : (toDec g₂ (n / 10)).length ≠ 0 := by
          simpa [List.length_eq_zero] using hne
        omega
      · exfalso
        simp only [hm, hn, if_true, if_false] at heq
        have hlen : (toDec g₁ (m / 10) ++ [Nat.digitChar (m % 10)]).length = ([Nat.digitChar n]).length := by
          rw [heq]
        simp only [List.length_append, List.length_singleton] at hlen
        have hne : toDec g₁ (m / 10) ≠ [] :=
          toDec_ne_nil (m / 10) g₁ (by
            have hlt : m / 10 < m := Nat.div_lt_self (by omega) (by omega)
            omega)
        have hpos : (toDec g₁ (m / 10)).length ≠ 0 := by
          simpa [List.length_eq_zero] using hne
        omega
      · simp only [hm, hn, if_false] at heq
        have hmd : m / 10 < m := Nat.div_lt_self (by omega) (by omega)
        have hnd : n / 10 < n := Nat.div_lt_self (by omega) (by omega)
        have h2 := heq
        apply_fun List.reverse at h2
        simp only [List.reverse_append, List.reverse_singleton, List.singleton_append,
          List.cons.injEq] at h2
        obtain ⟨hlast, hrev⟩ := h2
        have hmod : m % 10 = n % 10 :=
          digitCharInj _ (Nat.mod_lt _ (by omega)) _ (Nat.mod_lt _ (by omega)) hlast
        have hpre : toDec g₁ (m / 10) = toDec g₂ (n / 10) := by
          have := congrArg List.reverse hrev
          simpa using this
        have hdiv : m / 10 = n / 10 :=
          ih (m / 10) hmd (n / 10) g₁ g₂ (by omega) (by omega) hpre
        omega

theorem natStr_inj {m n : Nat} (h : natStr m = natStr n) : m = n := by
  have : toDec (m + 1) m = toDec (n + 1) n := congrArg String.data h
  exact toDec_inj m n (m + 1) (n + 1) (Nat.lt_succ_self m) (Nat.lt_succ_self n) this

/-! ## Generic dict operations for match dictionaries -/

/-- Generic dict membership test (`key in d`). -/
def dictHasKey {κ ν : Type} [DecidableEq κ] : List (κ × ν) → κ → Bool
  | [], _ => false
  | kv :: rest, k => kv.1 = k || dictHasKey rest k

/-- Generic dict lookup (`d.get(key)`). -/
def dictGet {κ ν : Type} [DecidableEq κ] : List (κ × ν) → κ → Option ν
  | [], _ => none
  | kv :: rest, k => if kv.1 = k then some kv.2 else dictGet rest k

/-- Generic dict assignment (`d[key] = v`): update in place when the key is
present, else append at the end (Python insertion order). -/
def dictSet {κ ν : Type} [DecidableEq κ] : List (κ × ν) → κ → ν → List (κ × ν)
  | [], k, v => [(k, v)]
  | kv :: rest, k, v => if kv.1 = k then (k, v) :: rest else kv :: dictSet rest k v

theorem dictGet_set_self {κ ν : Type} [DecidableEq κ] (d : List (κ × ν)) (k : κ) (v : ν) :
    dictGet (dictSet d k v) k = some v := by
  induction d with
  | nil => simp [dictSet, dictGet]
  | cons kv rest ih =>
    by_cases h : kv.1 = k <;> simp [dictSet, dictGet, h, ih]

theorem dictGet_set_other {κ ν : Type} [DecidableEq κ] (d : List (κ × ν)) (k k' : κ) (v : ν)
    (h : k' ≠ k) : dictGet (dictSet d k v) k' = dictGet d k' := by
  induction d with
  | nil => simp [dictSet, dictGet, Ne.symm h]
  | cons kv rest ih =>
    by_cases hk : kv.1 = k
    · simp only [dictSet, if_pos hk, dictGet]
      rw [if_neg (Ne.symm h), if_neg (by rw [hk]; exact Ne.symm h)]
    · by_cases hk' : kv.1 = k' <;> simp [dictSet, dictGet, hk, hk', ih, h, Ne.symm h]

theorem mem_dictSet {κ ν : Type} [DecidableEq κ] (d : List (κ × ν)) (k : κ) (v : ν) (kv : κ × ν)
    (h : kv ∈ dictSet d k v) : kv = (k, v) ∨ kv ∈ d := by
  induction d with
  | nil => simpa [dictSet] using h
  | cons hd rest ih =>
    by_cases hk : hd.1 = k
    · simp only [dictSet, if_pos hk, List.mem_cons] at h
      rcases h with h | h
      · exact Or.inl h
      · exact Or.inr (List.mem_cons_of_mem _ h)
    · simp only [dictSet, if_neg hk, List.mem_cons] at h
      rcases h with h | h
      · exact Or.inr (h ▸ List.mem_cons_self _ _)
      · rcases ih h with h' | h'
        · exact Or.inl h'
        · exact Or.inr (List.mem_cons_of_mem _ h')

theorem dictHasKey_set {κ ν : Type} [DecidableEq κ] (d : List (κ × ν)) (k k' : κ) (v : ν) :
    dictHasKey (dictSet d k v) k' = (k = k' || dictHasKey d k') := by
  induction d with
  | nil => simp [dictSet, dictHasKey]
  | cons hd rest ih =>
    by_cases hk : hd.1 = k
    · simp only [dictSet, if_pos hk, dictHasKey, hk]
      cases em (k = k') with
      | inl he => simp [he]
      | inr he => simp [he]
    · simp only [dictSet, if_neg hk, dictHasKey, ih]
      cases em (hd.1 = k') with
      | inl he => simp [he]
      | inr he =>
        simp only [he, decide_False, Bool.false_or]

/-! ## Canonical atom-index tuples and `ParameterHandler._find_matches` -/

/-- Lexicographic comparison of atom-index tuples. -/
def listLe : List Nat → List Nat → Bool
  | [], _ => true
  | _ :: _, [] => false
  | a :: as, b :: bs => if a < b then true else if b < a then false else listLe as bs

/-- Modelled from the spec: the canonical-key transform of the `ValenceDict`
match dictionary (`openforcefield.topology`, not part of this file).  Atom
index tuples of bonds, angles and proper torsions are undirected, so a tuple
and its reversal map to the same canonical key; we canonicalize to the
lexicographically smaller of the tuple and its reversal. -/
def canonKey (t : List Nat) : List Nat :=
  if listLe t t.reverse then t else t.reverse

theorem listLe_total : ∀ a b, listLe a b = false → listLe b a = true := by
  intro a
  induction a with
  | nil => intro b h; simp [listLe] at h
  | cons x xs ih =>
    intro b h
    cases b with
    | nil => simp [listLe]
    | cons y ys =>
      simp only [listLe] at h ⊢
      by_cases hxy : x < y
      · simp [hxy] at h
      · by_cases hyx : y < x
        · simp [hyx, Nat.lt_asymm hyx]
        · simp only [hxy, if_false, hyx] at h
          simp only [hyx, if_false, hxy]
          exact ih ys h

theorem listLe_antisymm : ∀ a b, listLe a b = true → listLe b a = true → a = b := by
  intro a
  induction a with
  | nil =>
    intro b _ h
    cases b with
    | nil => rfl
    | cons y ys => simp [listLe] at h
  | cons x xs ih =>
    intro b h₁ h₂
    cases b with
    | nil => simp [listLe] at h₁
    | cons y ys =>
      simp only [listLe] at h₁ h₂
      by_cases hxy : x < y
      · simp [hxy, Nat.lt_asymm hxy] at h₂
      · by_cases hyx : y < x
        · simp [hxy, hyx] at h₁
        · have hxy' : x = y := by omega
          subst hxy'
          rw [if_neg hxy, if_neg hxy] at h₁ h₂
          rw [ih ys h₁ h₂]

/-- A tuple and its reversal share a canonical key (the property the design
document specifies for the `ValenceDict` key transform). -/
theorem canonKey_reverse (t : List Nat) : canonKey t.reverse = canonKey t := by
  unfold canonKey
  rw [List.reverse_reverse]
  by_cases h₁ : listLe t t.reverse = true
  · by_cases h₂ : listLe t.reverse t = true
    · simp [h₁, h₂, listLe_antisymm _ _ h₂ h₁]
    · simp only [h₁, if_true]
      rw [if_neg (by simpa using h₂)]
  · have h₂ := listLe_total _ _ (by simpa using h₁)
    simp [h₁, h₂]

/-- A parameter record as seen by the matching engine: its SMIRKS pattern
plus an identifier distinguishing it from other records. -/
structure PRec where
  smirks : String
  ident : String
  deriving Repr, DecidableEq

/-- One `ParameterHandler._Match`: the matched parameter type paired with the
environment match (represented by its topology atom indices). -/
structure HMatch where
  parameterType : PRec
  topologyAtomIndices : List Nat
  deriving Repr, DecidableEq

/-- The inner loop of `ParameterHandler._find_matches`: the plain dict
`matches_for_this_type` for one parameter type, keyed by the raw topology
atom indices returned by the external pattern-matching capability `env`. -/
def matchesForType (env : String → List (List Nat)) (p : PRec) : List (List Nat × HMatch) :=
  (env p.smirks).foldl (fun acc tai => dictSet acc tai ⟨p, tai⟩) []

/-- `ParameterHandler._find_matches` (with the `ValenceDict` match dict):
iterate the parameter list in declaration order; for each parameter type
collect its environment matches into a plain dict, then merge that dict into
the canonical-keyed running dict (`matches.update(matches_for_this_type)`),
a later entry overwriting an earlier entry with the same canonical key. -/
def findMatches (env : String → List (List Nat)) (params : List PRec) :
    List (List Nat × HMatch) :=
  params.foldl
    (fun running p =>
      (matchesForType env p).foldl (fun acc kv => dictSet acc (canonKey kv.1) kv.2) running)
    []

theorem dictHasKey_mono {κ ν : Type} [DecidableEq κ] (d : List (κ × ν)) (k k' : κ) (v : ν)
    (h : dictHasKey d k' = true) : dictHasKey (dictSet d k v) k' = true := by
  rw [dictHasKey_set, h, Bool.or_true]

theorem dictHasKey_exists_mem {κ ν : Type} [DecidableEq κ] (d : List (κ × ν)) (k : κ)
    (h : dictHasKey d k = true) : ∃ kv ∈ d, kv.1 = k := by
  induction d with
  | nil => simp [dictHasKey] at h
  | cons kv rest ih =>
    simp only [dictHasKey, Bool.or_eq_true, decide_eq_true_eq] at h
    rcases h with h | h
    · exact ⟨kv, List.mem_cons_self _ _, h⟩
    · obtain ⟨kv', hmem, hk⟩ := ih h
      exact ⟨kv', List.mem_cons_of_mem _ hmem, hk⟩

/-- The result of merging a plain match dict into the canonical running dict:
at key `c`, the last merged entry whose raw key canonicalizes to `c` wins;
if there is none, the running dict is unchanged at `c`. -/
theorem mergeType_get (l : List (List Nat × HMatch)) (d : List (List Nat × HMatch))
    (c : List Nat) :
    dictGet (l.foldl (fun acc kv => dictSet acc (canonKey kv.1) kv.2) d) c =
      match (l.filter (fun kv => decide (canonKey kv.1 = c))).getLast? with
      | some kv => some kv.2
      | none => dictGet d c := by
  induction l generalizing d with
  | nil => rfl
  | cons kv rest ih =>
    rw [List.foldl_cons, ih]
    rcases hrest : rest.filter (fun kv => decide (canonKey kv.1 = c)) with _ | ⟨r, rs⟩
    · rw [hrest]
      by_cases hc : canonKey kv.1 = c
      · simp only [List.filter_cons, hc, decide_True, if_true, hrest,
          List.getLast?_singleton, List.getLast?_nil]
        exact dictGet_set_self d c kv.2
      · simp only [List.filter_cons, hc, decide_False, Bool.false_eq_true, if_false, hrest,
          List.getLast?_nil]
        exact dictGet_set_other d (canonKey kv.1) c kv.2 (Ne.symm hc)
    · rw [hrest]
      by_cases hc : canonKey kv.1 = c
      · simp only [List.filter_cons, hc, decide_True, if_true, hrest, List.getLast?_cons_cons]
        cases hl : (r :: rs).getLast? with
        | none => exact absurd (List.getLast?_eq_none_iff.mp hl) (List.cons_ne_nil r rs)
        | some l => simp [hl]
      · simp only [List.filter_cons, hc, decide_False, Bool.false_eq_true, if_false, hrest]
        cases hl : (r :: rs).getLast? with
        | none => exact absurd (List.getLast?_eq_none_iff.mp hl) (List.cons_ne_nil r rs)
        | some l => simp [hl]

theorem mem_matchesForType_aux (p : PRec) (tais : List (List Nat))
    (acc : List (List Nat × HMatch)) (kv : List Nat × HMatch)
    (h : kv ∈ tais.foldl (fun a t => dictSet a t ⟨p, t⟩) acc) :
    kv ∈ acc ∨ ∃ t ∈ tais, kv = (t, ⟨p, t⟩) := by
  induction tais generalizing acc with
  | nil => exact Or.inl h
  | cons t rest ih =>
    rw [List.foldl_cons] at h
    rcases ih (dictSet acc t ⟨p, t⟩) h with h' | h'
    · rcases mem_dictSet acc t ⟨p, t⟩ kv h' with h'' | h''
      · exact Or.inr ⟨t, List.mem_cons_self _ _, h''⟩
      · exact Or.inl h''
    · obtain ⟨t', hmem, heq⟩ := h'
      exact Or.inr ⟨t', List.mem_cons_of_mem _ hmem, heq⟩

/-- Every entry of `matches_for_this_type` pairs the parameter type `p` with
one of its own environment matches, keyed by that match's raw atom indices. -/
theorem mem_matchesForType (env : String → List (List Nat)) (p : PRec)
    (kv : List Nat × HMatch) (h : kv ∈ matchesForType env p) :
    kv.2 = ⟨p, kv.1⟩ ∧ kv.1 ∈ env p.smirks := by
  rcases mem_matchesForType_aux p (env p.smirks) [] kv h with h' | h'
  · simp at h'
  · obtain ⟨t, hmem, heq⟩ := h'
    rw [heq]
    exact ⟨rfl, hmem⟩

theorem hasKey_matchesForType_aux (p : PRec) (tais : List (List Nat))
    (acc : List (List Nat × HMatch)) (t : List Nat) :
    t ∈ tais ∨ dictHasKey acc t = true →
      dictHasKey (tais.foldl (fun a t' => dictSet a t' ⟨p, t'⟩) acc) t = true := by
  induction tais generalizing acc with
  | nil =>
    intro h
    rcases h with h | h
    · simp at h
    · exact h
  | cons hd rest ih =>
    intro h
    rw [List.foldl_cons]
    rcases h with h | h
    · rcases List.mem_cons.mp h with h' | h'
      · exact ih _ (Or.inr (by rw [h', dictHasKey_set]; simp))
      · exact ih _ (Or.inl h')
    · exact ih _ (Or.inr (dictHasKey_mono _ _ _ _ h))

/-- Every raw environment match of `p` ends up as a key of
`matches_for_this_type`. -/
theorem hasKey_matchesForType (env : String → List (List Nat)) (p : PRec) (t : List Nat)
    (h : t ∈ env p.smirks) : dictHasKey (matchesForType env p) t = true :=
  hasKey_matchesForType_aux p (env p.smirks) [] t (Or.inl h)

/-- C1: in `ParameterHandler._find_matches`, matches are inserted in
declaration order of the parameter list and a later record's entry overwrites
an earlier record's entry on canonical-key collision: whenever the
last-declared record produces an environment match for canonical tuple `c`,
the returned match for `c` is that record's match, regardless of the earlier
records `ps`. -/
theorem findMatches_later_record_wins (env : String → List (List Nat)) (ps : List PRec)
    (r : PRec) (c : List Nat) (h : ∃ tai ∈ env r.smirks, canonKey tai = c) :
    ∃ tai, dictGet (findMatches env (ps ++ [r])) c = some ⟨r, tai⟩ ∧
      tai ∈ env r.smirks ∧ canonKey tai = c := by
  obtain ⟨tai₀, hmem₀, hc₀⟩ := h
  have hsplit : findMatches env (ps ++ [r]) =
      (matchesForType env r).foldl (fun acc kv => dictSet acc (canonKey kv.1) kv.2)
        (findMatches env ps) := by
    unfold findMatches
    rw [List.foldl_append, List.foldl_cons, List.foldl_nil]
  rw [hsplit, mergeType_get]
  have hkey : dictHasKey (matchesForType env r) tai₀ = true :=
    hasKey_matchesForType env r tai₀ hmem₀
  obtain ⟨kv₀, hkv₀mem, hkv₀key⟩ := dictHasKey_exists_mem _ _ hkey
  have hfilter_ne : (matchesForType env r).filter (fun kv => decide (canonKey kv.1 = c)) ≠ [] := by
    intro hnil
    have : kv₀ ∈ (matchesForType env r).filter (fun kv => decide (canonKey kv.1 = c)) := by
      rw [List.mem_filter]
      exact ⟨hkv₀mem, by rw [hkv₀key, hc₀]; simp⟩
    rw [hnil] at this
    simp at this
  rcases hlast : ((matchesForType env r).filter (fun kv => decide (canonKey kv.1 = c))).getLast?
    with _ | ⟨last⟩
  · exact absurd (List.getLast?_eq_none_iff.mp hlast) hfilter_ne
  · have hlastmem : last ∈ (matchesForType env r).filter (fun kv => decide (canonKey kv.1 = c)) := by
      obtain ⟨hne', heq⟩ := List.mem_getLast?_eq_getLast (Option.mem_def.mpr hlast)
      rw [heq]
      exact List.getLast_mem hne'
    rw [List.mem_filter] at hlastmem
    obtain ⟨hlastmem, hlastc⟩ := hlastmem
    obtain ⟨hval, htai⟩ := mem_matchesForType env r last hlastmem
    refine ⟨last.1, ?_, htai, by simpa using hlastc⟩
    rw [hlast]
    simp [hval]

/-- Concrete record collection: a generic bond record declared first. -/
def c1Rec1 : PRec := ⟨"[*:1]~[*:2]", "b1"⟩

/-- Concrete record collection: a more specific bond record declared later. -/
def c1Rec2 : PRec := ⟨"[#6:1]-[#6:2]", "b2"⟩

/-- A concrete pattern-matching capability: both patterns match the bond
between atoms 0 and 1, the later record matching it in reversed order. -/
def c1Env : String → List (List Nat) :=
  fun s =>
    if s = "[*:1]~[*:2]" then [[0, 1]]
    else if s = "[#6:1]-[#6:2]" then [[1, 0]] else []

/-- Witness for C1 at a concrete two-record collection. -/
theorem findMatches_later_record_wins_witness :
    ∃ tai, dictGet (findMatches c1Env ([c1Rec1] ++ [c1Rec2])) [0, 1] = some ⟨c1Rec2, tai⟩ ∧
      tai ∈ c1Env c1Rec2.smirks ∧ canonKey tai = [0, 1] :=
  findMatches_later_record_wins c1Env [c1Rec1] c1Rec2 [0, 1] ⟨[1, 0], by decide, by decide⟩

/-! ## `ParameterHandler._check_all_valence_terms_assigned` -/

/-- The payload of the single aggregated exception raised by
`ParameterHandler._check_all_valence_terms_assigned`: the error message is
formatted from exactly these pieces — the handler class name (`cls.__name__`)
and the two enumerated collections of offending terms. -/
structure ValenceError where
  handler : String
  unassigned : List (List Nat)
  notFound : List (List Nat)
  deriving Repr, DecidableEq

/-- The canonical key set of `valence_terms_dict`: each topological valence
term is inserted under its canonical atom-index key, duplicates collapsing
onto the existing key. -/
def canonTermKeys (valenceTerms : List (List Nat)) : List (List Nat) :=
  valenceTerms.foldl (fun a t => if canonKey t ∈ a then a else a ++ [canonKey t]) []

/-- `ParameterHandler._check_all_valence_terms_assigned`.

`assignedKeys` are the keys of the `ValenceDict` of matches (already
canonical and duplicate-free); `valenceTerms` are the topology's intrinsic
valence terms as raw atom-index tuples.  The source first returns
immediately when the two collections have the same *length*; otherwise it
canonicalizes the valence terms, takes the two set differences, and raises
one aggregated exception carrying the handler class name and both
enumerations whenever either difference is nonempty (Python's unordered sets
are modelled as order-preserving filters). -/
def checkAllValenceTermsAssigned (clsName : String) (assignedKeys valenceTerms : List (List Nat)) :
    Option ValenceError :=
  if assignedKeys.length = valenceTerms.length then none
  else
    if (canonTermKeys valenceTerms).filter (fun k => decide (k ∉ assignedKeys)) = [] ∧
        assignedKeys.filter (fun k => decide (k ∉ canonTermKeys valenceTerms)) = [] then none
    else
      some ⟨clsName,
        (canonTermKeys valenceTerms).filter (fun k => decide (k ∉ assignedKeys)),
        assignedKeys.filter (fun k => decide (k ∉ canonTermKeys valenceTerms))⟩

theorem mem_canonTermKeys_fold : ∀ (ts acc : List (List Nat)) (k : List Nat),
    k ∈ ts.foldl (fun a t => if canonKey t ∈ a then a else a ++ [canonKey t]) acc ↔
      k ∈ acc ∨ ∃ t ∈ ts, canonKey t = k := by
  intro ts
  induction ts with
  | nil => intro acc k; simp
  | cons t rest ih =>
    intro acc k
    rw [List.foldl_cons, ih]
    by_cases hmem : canonKey t ∈ acc
    · simp only [hmem, if_true]
      constructor
      · rintro (h | ⟨t', ht', hc⟩)
        · exact Or.inl h
        · exact Or.inr ⟨t', List.mem_cons_of_mem _ ht', hc⟩
      · rintro (h | ⟨t', ht', hc⟩)
        · exact Or.inl h
        · rcases List.mem_cons.mp ht' with rfl | ht''
          · exact Or.inl (hc ▸ hmem)
          · exact Or.inr ⟨t', ht'', hc⟩
    · simp only [hmem, if_false, List.mem_append, List.mem_singleton]
      constructor
      · rintro ((h | h) | ⟨t', ht', hc⟩)
        · exact Or.inl h
        · exact Or.inr ⟨t, List.mem_cons_self _ _, h.symm⟩
        · exact Or.inr ⟨t', List.mem_cons_of_mem _ ht', hc⟩
      · rintro (h | ⟨t', ht', hc⟩)
        · exact Or.inl (Or.inl h)
        · rcases List.mem_cons.mp ht' with rfl | ht''
          · exact Or.inl (Or.inr hc.symm)
          · exact Or.inr ⟨t', ht'', hc⟩

theorem mem_canonTermKeys (ts : List (List Nat)) (k : List Nat) :
    k ∈ canonTermKeys ts ↔ ∃ t ∈ ts, canonKey t = k := by
  rw [canonTermKeys, mem_canonTermKeys_fold]
  simp

/-- C2 counterexample: with one assigned term `(0,1)` and one topological
term `(1,2)` the two collections mismatch in both directions, yet the audit
returns without raising because the early length-equality test passes. -/
theorem checkAllValence_equal_count_counterexample :
    checkAllValenceTermsAssigned "BondHandler" [[0, 1]] [[1, 2]] = none ∧
      canonKey [1, 2] ∉ [[0, 1]] := by decide

/-- C2 (amended): `_check_all_valence_terms_assigned` returns silently
whenever the match count equals the topological term count, even if the sets
differ; when the counts differ, a topological term whose canonical key is
unmatched, or a matched key that belongs to no topological term, makes it
raise a single aggregated exception that names the handler class and
enumerates that term among the missing (resp. extraneous) ones. -/
theorem checkAllValenceTermsAssigned_spec (cls : String)
    (assigned valence : List (List Nat)) :
    (assigned.length = valence.length →
      checkAllValenceTermsAssigned cls assigned valence = none) ∧
    (assigned.length ≠ valence.length →
      ∀ t ∈ valence, canonKey t ∉ assigned →
        ∃ e, checkAllValenceTermsAssigned cls assigned valence = some e ∧
          e.handler = cls ∧ canonKey t ∈ e.unassigned) ∧
    (assigned.length ≠ valence.length →
      ∀ k ∈ assigned, (∀ t ∈ valence, canonKey t ≠ k) →
        ∃ e, checkAllValenceTermsAssigned cls assigned valence = some e ∧
          e.handler = cls ∧ k ∈ e.notFound) := by
  refine ⟨fun hlen => ?_, fun hlen t ht hmiss => ?_, fun hlen k hk hnone => ?_⟩
  · rw [checkAllValenceTermsAssigned, if_pos hlen]
  · have hkmem : canonKey t ∈ canonTermKeys valence :=
      (mem_canonTermKeys valence (canonKey t)).mpr ⟨t, ht, rfl⟩
    have hfil : canonKey t ∈
        (canonTermKeys valence).filter (fun k => decide (k ∉ assigned)) := by
      rw [List.mem_filter]
      exact ⟨hkmem, by simpa using hmiss⟩
    have hne : (canonTermKeys valence).filter (fun k => decide (k ∉ assigned)) ≠ [] := by
      intro hnil
      rw [hnil] at hfil
      simp at hfil
    rw [checkAllValenceTermsAssigned, if_neg hlen, if_neg (by tauto)]
    exact ⟨_, rfl, rfl, hfil⟩
  · have hknot : k ∉ canonTermKeys valence := by
      intro hmem
      obtain ⟨t, ht, hc⟩ := (mem_canonTermKeys valence k).mp hmem
      exact hnone t ht hc
    have hfil : k ∈ assigned.filter (fun k => decide (k ∉ canonTermKeys valence)) := by
      rw [List.mem_filter]
      exact ⟨hk, by simpa using hknot⟩
    have hne : assigned.filter (fun k => decide (k ∉ canonTermKeys valence)) ≠ [] := by
      intro hnil
      rw [hnil] at hfil
      simp at hfil
    rw [checkAllValenceTermsAssigned, if_neg hlen, if_neg (by tauto)]
    exact ⟨_, rfl, rfl, hfil⟩

/-- Witness for the amended C2 at concrete collections with differing counts. -/
theorem checkAllValenceTermsAssigned_spec_witness :
    ∃ e, checkAllValenceTermsAssigned "AngleHandler" [[0, 1, 2]] [[3, 4, 5], [5, 4, 3]] = some e ∧
      e.handler = "AngleHandler" ∧ canonKey [3, 4, 5] ∈ e.unassigned :=
  (checkAllValenceTermsAssigned_spec "AngleHandler" [[0, 1, 2]] [[3, 4, 5], [5, 4, 3]]).2.1
    (by decide) [3, 4, 5] (by decide) (by decide)

/-! ## `ParameterAttribute._call_converter` -/

/-- A custom converter attached to a `ParameterAttribute`, embedded by the
observable behaviour of the two call shapes the framework uses:
`converter(value)` and `converter(instance, descriptor, value)`.  A free
function of the value answers the one-argument shape and raises an arity
`TypeError` for the three-argument shape; a bound function of
`(instance, descriptor, value)` does the opposite. -/
structure PyConverter (Inst Attr : Type) where
  callOne : PyVal → Except PErr PyVal
  callThree : Inst → Attr → PyVal → Except PErr PyVal

/-- `ParameterAttribute._call_converter`: try the static shape first; when
that call raises a `TypeError` — whatever its origin — retry with the
instance shape; re-raise any other exception. -/
def callConverter {Inst Attr : Type} (conv : Option (PyConverter Inst Attr)) (inst : Inst)
    (attr : Attr) (value : PyVal) : Except PErr PyVal :=
  match conv with
  | none => .ok value
  | some c =>
    match c.callOne value with
    | .ok r => .ok r
    | .error (.typeErr _) => c.callThree inst attr value
    | .error e => .error e

/-- A free-function converter that rejects this value with its own
`TypeError` (as `float` does for a non-numeric object).  Calling a
one-parameter function with three arguments raises Python's arity
`TypeError`. -/
def staticRejectingConverter : PyConverter Unit Unit where
  callOne := fun _ => .error (.typeErr "could not convert value to float")
  callThree := fun _ _ _ => .error (.typeErr "takes 1 positional argument but 3 were given")

/-- C8 counterexample: when a free-function converter itself raises a
`TypeError`, `_call_converter` does not re-raise that failure unchanged: it
retries with the three-argument shape and the caller sees the arity error
of the retry instead. -/
theorem callConverter_masks_static_typeError :
    staticRejectingConverter.callOne (PyVal.int 3) =
        .error (.typeErr "could not convert value to float") ∧
      callConverter (some staticRejectingConverter) () () (PyVal.int 3) =
        .error (.typeErr "takes 1 positional argument but 3 were given") ∧
      callConverter (some staticRejectingConverter) () () (PyVal.int 3) ≠
        .error (.typeErr "could not convert value to float") := by
  refine ⟨rfl, rfl, ?_⟩
  intro h
  rw [show callConverter (some staticRejectingConverter) () () (PyVal.int 3) =
      .error (.typeErr "takes 1 positional argument but 3 were given") from rfl] at h
  injection h with h'
  injection h' with h''
  exact absurd h'' (by decide)

/-- C8 (amended): `_call_converter` dispatches by trial, not by signature
inspection: the one-argument shape is tried first and its successful result
returned; a failure other than `TypeError` is re-raised unchanged; any
`TypeError` from the one-argument call — the arity error of a bound
converter, but equally a free converter's own `TypeError` — triggers the
three-argument call, whose outcome (success or its own exception) is what
the caller sees; with no converter the value passes through. -/
theorem callConverter_dispatch {Inst Attr : Type} (conv : PyConverter Inst Attr)
    (inst : Inst) (attr : Attr) (value : PyVal) :
    (∀ r, conv.callOne value = .ok r → callConverter (some conv) inst attr value = .ok r) ∧
    (∀ e, conv.callOne value = .error e → (∀ m, e ≠ .typeErr m) →
      callConverter (some conv) inst attr value = .error e) ∧
    (∀ m, conv.callOne value = .error (.typeErr m) →
      callConverter (some conv) inst attr value = conv.callThree inst attr value) ∧
    callConverter (none : Option (PyConverter Inst Attr)) inst attr value = .ok value := by
  refine ⟨fun r hr => ?_, fun e he hne => ?_, fun m hm => ?_, rfl⟩
  · simp [callConverter, hr]
  · rw [callConverter, he]
    cases e with
    | typeErr m => exact absurd rfl (hne m)
    | specErr m => rfl
    | attrErr n => rfl
    | valueErr m => rfl
    | zeroDivErr => rfl
    | notImplErr m => rfl
    | exc m => rfl
    | versionErr m => rfl
  · rw [callConverter, hm]

/-- An instance-style converter (bound function of instance, descriptor and
value) that rejects string input with its own `TypeError`, as in the
`attr_int_to_float` doctest of the source. -/
def instanceRejectingConverter : PyConverter Unit Unit where
  callOne := fun _ => .error (.typeErr "missing 2 required positional arguments")
  callThree := fun _ _ v =>
    match v with
    | .base (.int n) => .ok (.base (.rat (n : ℚ)))
    | _ => .error (.typeErr "cannot convert value to float")

/-- Witness for the amended C8: an instance converter is reached through the
`TypeError` retry and converts the value. -/
theorem callConverter_dispatch_witness :
    callConverter (some instanceRejectingConverter) () () (PyVal.int 3) =
      instanceRejectingConverter.callThree () () (PyVal.int 3) :=
  (callConverter_dispatch instanceRejectingConverter () () (PyVal.int 3)).2.2.1
    "missing 2 required positional arguments" rfl

/-! ## The `_ParameterAttributeInitializer` record framework -/

/-- A `ParameterAttribute` (or `IndexedParameterAttribute`) descriptor as
declared on a parameter type: its name, its default (`none` embeds the
`UNDEFINED` sentinel, so the attribute is required), whether it is indexed,
and its value pipeline `conv` — the composition of `_validate_units` (the
opaque external unit system) and the custom converter, which the modelled
claims treat as one opaque conversion.  For an indexed attribute the
pipeline is applied to each element of the sequence (the `ValidatedList`
construction). -/
structure AttrSpec where
  name : String
  dflt : Option PyVal
  indexed : Bool
  conv : PyVal → Except PErr PyVal

/-- The declared attribute names, in declaration order. -/
def attrNames (attrs : List AttrSpec) : List String :=
  attrs.map (fun a => a.name)

/-- The indexed attribute names, in declaration order
(`_get_indexed_parameter_attributes`). -/
def indexedNames (attrs : List AttrSpec) : List String :=
  (attrs.filter (fun a => a.indexed)).map (fun a => a.name)

/-- The required attribute names (`_get_required_parameter_attributes`:
descriptors whose default is `UNDEFINED`). -/
def requiredNames (attrs : List AttrSpec) : List String :=
  (attrs.filter (fun a => a.dflt.isNone)).map (fun a => a.name)

/-- Element-wise application of an attribute's pipeline, as performed by the
`ValidatedList` wrapper of an `IndexedParameterAttribute` (the modelled
converters return scalars on scalar input). -/
def convertElems (conv : PyVal → Except PErr PyVal) : List PyScalar → Except PErr (List PyScalar)
  | [] => .ok []
  | s :: rest =>
    match conv (.base s) with
    | .error e => .error e
    | .ok (.list _) => .error (.typeErr "nested sequences are outside the modelled fragment")
    | .ok (.base s') =>
      match convertElems conv rest with
      | .error e => .error e
      | .ok rest' => .ok (s' :: rest')

/-- `ParameterAttribute._convert_and_validate` (and the
`IndexedParameterAttribute` override): a value equal to a defined default is
stored as-is, bypassing all checks; otherwise the unit/converter pipeline
runs — on the value itself for a plain attribute, element-wise for an
indexed attribute (whose value must be a sequence). -/
def attrConvert (a : AttrSpec) (v : PyVal) : Except PErr PyVal :=
  if a.dflt = some v then .ok v
  else if a.indexed then
    match v with
    | .list xs => (convertElems a.conv xs).map .list
    | .base _ => .error (.typeErr "indexed attribute value is not a sequence")
  else a.conv v

/-- The state of a `ParameterType` (or any `_ParameterAttributeInitializer`):
the values stored by the descriptors, and the cosmetic attributes with their
values, in registration order (`_cosmetic_attribs` plus the `_`-prefixed
instance attributes). -/
structure RecState where
  vals : KVList
  cosmetic : KVList
  deriving Repr, DecidableEq

/-- Descriptor assignment `setattr(self, key, val)` for a declared
attribute: convert and validate, then store. -/
def recSetAttr (attrs : List AttrSpec) (st : RecState) (name : String) (v : PyVal) :
    Except PErr RecState :=
  match attrs.find? (fun a => a.name = name) with
  | some a => (attrConvert a v).map (fun v' => ⟨setVal st.vals name v', st.cosmetic⟩)
  | none => .error (.attrErr name)

/-- Descriptor read `getattr(self, name)`: the stored value, else the
default, else an `AttributeError` for an unset required attribute. -/
def recGetAttr (attrs : List AttrSpec) (st : RecState) (name : String) : Except PErr PyVal :=
  if hasKey st.vals name then .ok (getVal st.vals name)
  else
    match attrs.find? (fun a => a.name = name) with
    | some a =>
      match a.dflt with
      | some d => .ok d
      | none => .error (.attrErr name)
    | none => .error (.attrErr name)

/-- The inner `while` loop of `_ParameterAttributeInitializer.__init__` for
one indexed attribute `base`: while `base + str(index)` is a key, stack its
value onto the list under `base` (failing if `base` itself was also given),
delete the suffixed key, and continue with `index + 1`.  The loop shrinks
the number of non-`base` keys at each step, so the explicit fuel used by the
callers (`d.length + 2`) always suffices; exhausted fuel is an explicit
error so that no behaviour is silently approximated. -/
def foldIndexedLoop (base : String) : Nat → Nat → KVList → Except PErr KVList
  | 0, _, _ => .error (.exc "insufficient fuel")
  | fuel + 1, index, d =>
    let keyI := base ++ natStr index
    if hasKey d keyI then
      if index = 1 ∧ hasKey d base then
        .error (.typeErr ("The attribute has been specified with and without index: " ++ keyI))
      else
        let d1 := if index = 1 then setVal d base (.list []) else d
        let d2 := setVal d1 base (pyAppend (getVal d1 base) (getVal d keyI))
        let d3 := eraseKey d2 keyI
        foldIndexedLoop base fuel (index + 1) d3
    else .ok d

/-- Length of a Python list value. -/
def pyLen : PyVal → Nat
  | .list xs => xs.length
  | .base _ => 0

/-- The outer loop of step 1 of `__init__`: fold the suffixed keys of every
indexed attribute, in declaration order, recording
`indexed_attr_lengths[base]` whenever at least one suffixed key was found
(`index > 1` holds exactly when `base + "1"` was a key). -/
def foldAllIndexed : List String → KVList → Except PErr (KVList × List (String × Nat))
  | [], d => .ok (d, [])
  | base :: rest, d =>
    match foldIndexedLoop base (d.length + 2) 1 d with
    | .error e => .error e
    | .ok d' =>
      let entry : List (String × Nat) :=
        if hasKey d (base ++ natStr 1) then [(base, pyLen (getVal d' base))] else []
      match foldAllIndexed rest d' with
      | .error e => .error e
      | .ok (d'', lens) => .ok (d'', entry ++ lens)

/-- `len(set(lengths.values())) > 1` is false exactly when all recorded
lengths agree. -/
def allSameNat : List Nat → Bool
  | [] => true
  | v :: rest => rest.all (fun x => x = v)

/-- The assignment loop of `__init__` (step 3): a declared attribute is
assigned through its descriptor; an unknown key becomes a cosmetic
attribute when permitted and a `SMIRNOFFSpecError` otherwise. -/
def assignAll (attrs : List AttrSpec) (allowCosmetic : Bool) :
    KVList → RecState → Except PErr RecState
  | [], st => .ok st
  | (k, v) :: rest, st =>
    if attrs.any (fun a => a.name = k) then
      match recSetAttr attrs st k v with
      | .error e => .error e
      | .ok st' => assignAll attrs allowCosmetic rest st'
    else if allowCosmetic then
      assignAll attrs allowCosmetic rest ⟨st.vals, st.cosmetic ++ [(k, v)]⟩
    else .error (.specErr ("Unexpected kwarg " ++ k ++ " passed to constructor"))

/-- `_ParameterAttributeInitializer.__init__`: fold suffix-numbered keys of
every indexed attribute into sequences, reject indexed attributes of
differing folded lengths, reject missing required attributes, then assign
every remaining key — declared attributes through their descriptors,
anything else as cosmetic (or an error when cosmetic attributes are not
allowed). -/
def paramInit (attrs : List AttrSpec) (allowCosmetic : Bool) (kwargs : KVList) :
    Except PErr RecState :=
  match foldAllIndexed (indexedNames attrs) kwargs with
  | .error e => .error e
  | .ok (d, lens) =>
    if allSameNat (lens.map (fun e => e.2)) = false then
      .error (.typeErr "The following indexed attributes have different lengths")
    else if (requiredNames attrs).filter (fun n => !(hasKey d n)) ≠ [] then
      .error (.specErr "require the following missing parameters")
    else
      assignAll attrs allowCosmetic d ⟨[], []⟩

/-- `to_dict`'s expansion of one indexed attribute back into suffix-numbered
keys `base1, base2, …` in ascending order. -/
def expandIndexed (base : String) : KVList → Nat → List PyScalar → KVList
  | d, _, [] => d
  | d, i, x :: xs => expandIndexed base (setVal d (base ++ natStr i) (.base x)) (i + 1) xs

/-- `getattr(self, name)` as used inside `to_dict`, where every name it is
called on is required-and-set or optional (so no exception can escape). -/
def recGetD (st : RecState) (a : AttrSpec) : PyVal :=
  if hasKey st.vals a.name then getVal st.vals a.name else a.dflt.getD PyVal.noneV

/-- `_get_defined_parameter_attributes`: the required attributes followed by
the optional ones, dropping an optional attribute exactly when its declared
default is `None` and its current value compares equal to that default. -/
def definedAttrs (attrs : List AttrSpec) (st : RecState) : List AttrSpec :=
  attrs.filter (fun a => a.dflt.isNone) ++
    attrs.filter (fun a =>
      match a.dflt with
      | some d => !(d = PyVal.noneV && recGetD st a = PyVal.noneV)
      | none => false)

/-- The attribute loop of `to_dict`: emit each attribute in order, expanding
an indexed attribute into suffix-numbered keys.  Enumerating a non-sequence
value of an indexed attribute is a `TypeError`, as in Python. -/
def toDictLoop (st : RecState) : List AttrSpec → KVList → Except PErr KVList
  | [], d => .ok d
  | a :: rest, d =>
    if a.indexed then
      match recGetD st a with
      | .list xs => toDictLoop st rest (expandIndexed a.name d 1 xs)
      | .base _ => .error (.typeErr "cannot enumerate a non-sequence value")
    else toDictLoop st rest (setVal d a.name (recGetD st a))

/-- `_ParameterAttributeInitializer.to_dict`: emit the defined attributes in
order, expanding each indexed attribute into suffix-numbered keys, then —
unless discarding is requested — every cosmetic attribute under its original
name. -/
def toDict (attrs : List AttrSpec) (st : RecState) (discardCosmetic : Bool) :
    Except PErr KVList :=
  match toDictLoop st (definedAttrs attrs st) [] with
  | .error e => .error e
  | .ok d =>
    if discardCosmetic then .ok d
    else .ok (st.cosmetic.foldl (fun d kv => setVal d kv.1 kv.2) d)

/-! ## Dict lemmas for the record framework -/

theorem getVal_set_self (d : KVList) (k : String) (v : PyVal) : getVal (setVal d k v) k = v := by
  induction d with
  | nil => simp [setVal, getVal]
  | cons kv rest ih =>
    by_cases h : kv.1 = k <;> simp [setVal, getVal, h, ih]

theorem getVal_set_other (d : KVList) (k k' : String) (v : PyVal) (h : k' ≠ k) :
    getVal (setVal d k v) k' = getVal d k' := by
  induction d with
  | nil => simp [setVal, getVal, Ne.symm h]
  | cons kv rest ih =>
    by_cases hk : kv.1 = k
    · simp only [setVal, if_pos hk, getVal]
      rw [if_neg (Ne.symm h), if_neg (by rw [hk]; exact Ne.symm h)]
    · by_cases hk' : kv.1 = k' <;> simp [setVal, getVal, hk, hk', ih, h, Ne.symm h]

theorem hasKey_set (d : KVList) (k k' : String) (v : PyVal) :
    hasKey (setVal d k v) k' = (k = k' || hasKey d k') := by
  induction d with
  | nil => simp [setVal, hasKey]
  | cons kv rest ih =>
    by_cases hk : kv.1 = k
    · simp only [setVal, if_pos hk, hasKey, hk]
      cases em (k = k') with
      | inl he => simp [he]
      | inr he => simp [he]
    · simp only [setVal, if_neg hk, hasKey, ih]
      cases em (kv.1 = k') with
      | inl he => simp [he]
      | inr he => simp only [he, decide_False, Bool.false_or]

theorem setVal_absent (d : KVList) (k : String) (v : PyVal) (h : hasKey d k = false) :
    setVal d k v = d ++ [(k, v)] := by
  induction d with
  | nil => rfl
  | cons kv rest ih =>
    simp only [hasKey, Bool.or_eq_false_iff, decide_eq_false_iff_not] at h
    simp [setVal, h.1, ih h.2]

theorem hasKey_append (e f : KVList) (k : String) :
    hasKey (e ++ f) k = (hasKey e k || hasKey f k) := by
  induction e with
  | nil => simp [hasKey]
  | cons kv rest ih => by_cases h : kv.1 = k <;> simp [hasKey, h, ih]

theorem getVal_append_right (e f : KVList) (k : String) (h : hasKey e k = false) :
    getVal (e ++ f) k = getVal f k := by
  induction e with
  | nil => rfl
  | cons kv rest ih =>
    simp only [hasKey, Bool.or_eq_false_iff, decide_eq_false_iff_not] at h
    simp [getVal, h.1, ih h.2]

theorem getVal_append_left (e f : KVList) (k : String) (h : hasKey e k = true) :
    getVal (e ++ f) k = getVal e k := by
  induction e with
  | nil => simp [hasKey] at h
  | cons kv rest ih =>
    by_cases hk : kv.1 = k
    · simp [getVal, hk]
    · simp only [hasKey, Bool.or_eq_true, decide_eq_true_eq, hk, false_or] at h
      simp [getVal, hk, ih h]

theorem setVal_append_end (e : KVList) (base : String) (w v : PyVal)
    (h : hasKey e base = false) :
    setVal (e ++ [(base, w)]) base v = e ++ [(base, v)] := by
  induction e with
  | nil => simp [setVal]
  | cons kv rest ih =>
    simp only [hasKey, Bool.or_eq_false_iff, decide_eq_false_iff_not] at h
    simp [setVal, h.1, ih h.2]

theorem hasKey_erase_other (d : KVList) (k k' : String) (h : k' ≠ k) :
    hasKey (eraseKey d k) k' = hasKey d k' := by
  induction d with
  | nil => rfl
  | cons kv rest ih =>
    by_cases hk : kv.1 = k
    · simp only [eraseKey, if_pos hk, hasKey]
      rw [show (decide (kv.1 = k') : Bool) = false by
        simp only [decide_eq_false_iff_not]; rw [hk]; exact Ne.symm h]
      simp
    · simp [eraseKey, hasKey, hk, ih]

theorem getVal_erase_other (d : KVList) (k k' : String) (h : k' ≠ k) :
    getVal (eraseKey d k) k' = getVal d k' := by
  induction d with
  | nil => rfl
  | cons kv rest ih =>
    by_cases hk : kv.1 = k
    · simp only [eraseKey, if_pos hk, getVal]
      rw [if_neg (by rw [hk]; exact Ne.symm h)]
    · simp [eraseKey, getVal, hk, ih]

theorem eraseKey_append_left (e f : KVList) (k : String) (h : hasKey e k = true) :
    eraseKey (e ++ f) k = eraseKey e k ++ f := by
  induction e with
  | nil => simp [hasKey] at h
  | cons kv rest ih =>
    by_cases hk : kv.1 = k
    · simp [eraseKey, hk]
    · simp only [hasKey, Bool.or_eq_true, decide_eq_true_eq, hk, false_or] at h
      simp [eraseKey, hk, ih h]

/-! ## Suffix-numbered keys as strings -/

/-- `k` has the shape `base + str(i)` for some positive numeral: `base` is a
proper prefix and the remainder is a nonempty digit string. -/
def isIdxSuffixKey (base k : String) : Prop :=
  base.data <+: k.data ∧ k.data.drop base.data.length ≠ [] ∧
    ∀ c ∈ k.data.drop base.data.length, c.isDigit = true

instance (base k : String) : Decidable (isIdxSuffixKey base k) := by
  unfold isIdxSuffixKey
  infer_instance

theorem isIdxSuffixKey_natStr (base : String) (i : Nat) :
    isIdxSuffixKey base (base ++ natStr i) := by
  have hdata : (base ++ natStr i).data = base.data ++ (natStr i).data := rfl
  refine ⟨⟨(natStr i).data, hdata.symm⟩, ?_, ?_⟩
  · rw [hdata, List.drop_left]
    exact natStr_ne_empty i
  · rw [hdata, List.drop_left]
    exact natStr_all_digits i

theorem ne_of_not_idxSuffixKey {base k : String} (h : ¬ isIdxSuffixKey base k) (i : Nat) :
    k ≠ base ++ natStr i :=
  fun he => h (he ▸ isIdxSuffixKey_natStr base i)

/-- Two strings neither of which is a prefix of the other. -/
def strPrefixIncomp (a b : String) : Prop :=
  ¬ a.data <+: b.data ∧ ¬ b.data <+: a.data

instance (a b : String) : Decidable (strPrefixIncomp a b) := by
  unfold strPrefixIncomp
  infer_instance

theorem append_natStr_ne_of_incomp {b₁ b₂ : String} (h : strPrefixIncomp b₁ b₂) (i j : Nat) :
    b₁ ++ natStr i ≠ b₂ ++ natStr j := by
  intro he
  have hd : b₁.data ++ (natStr i).data = b₂.data ++ (natStr j).data := congrArg String.data he
  have h₁ : b₁.data <+: b₂.data ++ (natStr j).data := ⟨(natStr i).data, hd⟩
  have h₂ : b₂.data <+: b₂.data ++ (natStr j).data := ⟨(natStr j).data, rfl⟩
  rcases List.prefix_or_prefix_of_prefix h₁ h₂ with hp | hp
  · exact h.1 hp
  · exact h.2 hp

theorem append_natStr_inj (base : String) {i j : Nat} (h : base ++ natStr i = base ++ natStr j) :
    i = j := by
  have hd : base.data ++ (natStr i).data = base.data ++ (natStr j).data := congrArg String.data h
  have : (natStr i).data = (natStr j).data := List.append_cancel_left hd
  exact natStr_inj (by
    apply String.ext
    exact this)

theorem append_natStr_ne_base (base : String) (i : Nat) : base ++ natStr i ≠ base := by
  intro h
  have hd : base.data ++ (natStr i).data = base.data := congrArg String.data h
  have : (natStr i).data = [] := by
    have hlen := congrArg List.length hd
    simp only [List.length_append] at hlen
    rcases hne : (natStr i).data with _ | _
    · rfl
    · rw [hne] at hlen; simp at hlen
  exact natStr_ne_empty i this

/-! ## Behaviour of the indexed-attribute folding loop -/

/-- The suffix-numbered expansion block `base+str(i) ↦ x₁, …` of a sequence. -/
def expansionPairs (base : String) : Nat → List PyScalar → KVList
  | _, [] => []
  | i, x :: xs => (base ++ natStr i, .base x) :: expansionPairs base (i + 1) xs

/-- Erase the keys `base+str(i), …, base+str(i+n-1)` in ascending order. -/
def eraseKeysFrom (d : KVList) (base : String) : Nat → Nat → KVList
  | _, 0 => d
  | i, n + 1 => eraseKeysFrom (eraseKey d (base ++ natStr i)) base (i + 1) n

theorem hasKey_eraseKeysFrom (base k : String) (h : ∀ j, k ≠ base ++ natStr j) :
    ∀ (n i : Nat) (d : KVList), hasKey (eraseKeysFrom d base i n) k = hasKey d k := by
  intro n
  induction n with
  | zero => intro i d; rfl
  | succ n ih =>
    intro i d
    show hasKey (eraseKeysFrom (eraseKey d (base ++ natStr i)) base (i + 1) n) k = _
    rw [ih, hasKey_erase_other _ _ _ (h i)]

theorem getVal_eraseKeysFrom (base k : String) (h : ∀ j, k ≠ base ++ natStr j) :
    ∀ (n i : Nat) (d : KVList), getVal (eraseKeysFrom d base i n) k = getVal d k := by
  intro n
  induction n with
  | zero => intro i d; rfl
  | succ n ih =>
    intro i d
    show getVal (eraseKeysFrom (eraseKey d (base ++ natStr i)) base (i + 1) n) k = _
    rw [ih, getVal_erase_other _ _ _ (h i)]

/-- One exit case of the `while` loop: when the probed suffixed key is
absent, the loop returns the dict unchanged. -/
theorem foldIndexedLoop_noop (base : String) (fuel i : Nat) (d : KVList) (hfuel : 1 ≤ fuel)
    (h : hasKey d (base ++ natStr i) = false) :
    foldIndexedLoop base fuel i d = .ok d := by
  match fuel, hfuel with
  | f + 1, _ =>
    rw [foldIndexedLoop, if_neg (by rw [h]; exact Bool.false_ne_true)]

/-- The running case of the `while` loop from index `i ≥ 2`, with the list
under construction sitting at the end of the dict: each iteration appends
the next suffixed value and deletes its key. -/
theorem foldIndexedLoop_run (base : String) (xs : List PyScalar) :
    ∀ (i fuel : Nat) (e : KVList) (acc : List PyScalar),
    2 ≤ i →
    hasKey e base = false →
    (∀ j (hj : j < xs.length), hasKey e (base ++ natStr (i + j)) = true ∧
      getVal e (base ++ natStr (i + j)) = .base (xs.get ⟨j, hj⟩)) →
    hasKey e (base ++ natStr (i + xs.length)) = false →
    xs.length + 1 ≤ fuel →
    foldIndexedLoop base fuel i (e ++ [(base, .list acc)]) =
      .ok (eraseKeysFrom e base i xs.length ++ [(base, .list (acc ++ xs))]) := by
  induction xs with
  | nil =>
    intro i fuel e acc _ _ _ hbound hfuel
    rw [foldIndexedLoop_noop base fuel i _ (by omega) (by
      rw [hasKey_append]
      have h1 : hasKey e (base ++ natStr i) = false := by simpa using hbound
      have h2 : hasKey [(base, PyVal.list acc)] (base ++ natStr i) = false := by
        simp only [hasKey, Bool.or_false, decide_eq_false_iff_not]
        exact Ne.symm (append_natStr_ne_base base i)
      rw [h1, h2]
      rfl)]
    simp [eraseKeysFrom]
  | cons x rest ih =>
    intro i fuel e acc hi hbase hkeys hbound hfuel
    match fuel, hfuel with
    | f + 1, hfuel =>
      have hkey0 := hkeys 0 (by simp)
      rw [show (i + 0) = i from rfl] at hkey0
      rw [foldIndexedLoop]
      rw [if_pos (by rw [hasKey_append, hkey0.1, Bool.true_or])]
      rw [if_neg (by rintro ⟨h1, _⟩; omega)]
      have hi1 : ¬ i = 1 := by omega
      simp only [hi1, if_false]
      have hgetbase :
          getVal (e ++ [(base, PyVal.list acc)]) base = PyVal.list acc := by
        rw [getVal_append_right _ _ _ hbase]
        simp [getVal]
      have hgetkey :
          getVal (e ++ [(base, PyVal.list acc)]) (base ++ natStr i) = PyVal.base x := by
        rw [getVal_append_left _ _ _ hkey0.1]
        exact hkey0.2
      rw [hgetbase, hgetkey]
      have hset : setVal (e ++ [(base, PyVal.list acc)]) base
          (pyAppend (PyVal.list acc) (PyVal.base x)) = e ++ [(base, PyVal.list (acc ++ [x]))] := by
        rw [show pyAppend (PyVal.list acc) (PyVal.base x) = PyVal.list (acc ++ [x]) from rfl]
        exact setVal_append_end e base _ _ hbase
      rw [hset]
      have herase : eraseKey (e ++ [(base, PyVal.list (acc ++ [x]))]) (base ++ natStr i) =
          eraseKey e (base ++ natStr i) ++ [(base, PyVal.list (acc ++ [x]))] :=
        eraseKey_append_left _ _ _ hkey0.1
      rw [herase]
      rw [ih (i + 1) f (eraseKey e (base ++ natStr i)) (acc ++ [x]) (by omega)
        (by
          rw [hasKey_erase_other _ _ _ (Ne.symm (append_natStr_ne_base base i))]
          exact hbase)
        (by
          intro j hj
          have hidx : i + 1 + j = i + (j + 1) := by omega
          have hk := hkeys (j + 1) (by simpa using Nat.succ_lt_succ hj)
          have hne : base ++ natStr (i + (j + 1)) ≠ base ++ natStr i := by
            intro he
            have := append_natStr_inj base he
            omega
          constructor
          · rw [hidx, hasKey_erase_other _ _ _ hne]
            exact hk.1
          · rw [hidx, getVal_erase_other _ _ _ hne]
            exact hk.2)
        (by
          have hidx : i + 1 + rest.length = i + (x :: rest).length := by
            rw [List.length_cons]
            omega
          have hne : base ++ natStr (i + (x :: rest).length) ≠ base ++ natStr i := by
            intro he
            have := append_natStr_inj base he
            rw [List.length_cons] at this
            omega
          rw [hidx, hasKey_erase_other _ _ _ hne]
          exact hbound)
        (by rw [List.length_cons] at hfuel; omega)]
      show _ = Except.ok (eraseKeysFrom e base i (rest.length + 1) ++ _)
      rw [show eraseKeysFrom e base i (rest.length + 1) =
        eraseKeysFrom (eraseKey e (base ++ natStr i)) base (i + 1) rest.length from rfl]
      congr 2
      simp

/-- The full `while` loop started at index 1 on a dict that contains a
(nonempty) suffix-numbered expansion block and no `base` key: it stacks the
block into a list stored under `base` (inserted at the end of the dict) and
deletes the suffixed keys. -/
theorem foldIndexedLoop_fold (base : String) (x : PyScalar) (rest : List PyScalar)
    (d : KVList) (fuel : Nat)
    (hbase : hasKey d base = false)
    (hkeys : ∀ j (hj : j < (x :: rest).length), hasKey d (base ++ natStr (j + 1)) = true ∧
      getVal d (base ++ natStr (j + 1)) = .base ((x :: rest).get ⟨j, hj⟩))
    (hbound : hasKey d (base ++ natStr ((x :: rest).length + 1)) = false)
    (hfuel : (x :: rest).length + 1 ≤ fuel) :
    foldIndexedLoop base fuel 1 d =
      .ok (eraseKeysFrom d base 1 (x :: rest).length ++ [(base, .list (x :: rest))]) := by
  match fuel, hfuel with
  | f + 1, hfuel =>
    have hkey0 := hkeys 0 (by simp)
    rw [show (0 : Nat) + 1 = 1 from rfl] at hkey0
    rw [foldIndexedLoop]
    rw [if_pos hkey0.1]
    rw [if_neg (by rintro ⟨_, hb⟩; rw [hbase] at hb; exact Bool.false_ne_true hb)]
    simp only [eq_self_iff_true, if_true]
    have hd1 : setVal d base (PyVal.list []) = d ++ [(base, PyVal.list [])] :=
      setVal_absent d base _ hbase
    rw [hd1]
    have hgetbase : getVal (d ++ [(base, PyVal.list [])]) base = PyVal.list [] := by
      rw [getVal_append_right _ _ _ hbase]
      simp [getVal]
    have hkey02 : getVal d (base ++ natStr 1) = PyVal.base x := hkey0.2
    rw [hgetbase, hkey02]
    have hset : setVal (d ++ [(base, PyVal.list [])]) base
        (pyAppend (PyVal.list []) (PyVal.base x)) = d ++ [(base, PyVal.list [x])] := by
      rw [show pyAppend (PyVal.list []) (PyVal.base x) = PyVal.list [x] from rfl]
      exact setVal_append_end d base _ _ hbase
    rw [hset]
    have herase : eraseKey (d ++ [(base, PyVal.list [x])]) (base ++ natStr 1) =
        eraseKey d (base ++ natStr 1) ++ [(base, PyVal.list [x])] :=
      eraseKey_append_left _ _ _ hkey0.1
    rw [herase]
    rw [foldIndexedLoop_run base rest 2 f (eraseKey d (base ++ natStr 1)) [x] (by omega)
      (by
        rw [hasKey_erase_other _ _ _ (Ne.symm (append_natStr_ne_base base 1))]
        exact hbase)
      (by
        intro j hj
        have hidx : 2 + j = (j + 1) + 1 := by omega
        have hk := hkeys (j + 1) (by simpa using Nat.succ_lt_succ hj)
        have hne : base ++ natStr ((j + 1) + 1) ≠ base ++ natStr 1 := by
          intro he
          have := append_natStr_inj base he
          omega
        constructor
        · rw [hidx, hasKey_erase_other _ _ _ hne]
          exact hk.1
        · rw [hidx, getVal_erase_other _ _ _ hne]
          exact hk.2)
      (by
        have hidx : 2 + rest.length = (x :: rest).length + 1 := by
          rw [List.length_cons]
          omega
        have hne : base ++ natStr ((x :: rest).length + 1) ≠ base ++ natStr 1 := by
          intro he
          have := append_natStr_inj base he
          rw [List.length_cons] at this
          omega
        rw [hidx, hasKey_erase_other _ _ _ hne]
        exact hbound)
      (by rw [List.length_cons] at hfuel; omega)]
    show _ = Except.ok (eraseKeysFrom d base 1 (rest.length + 1) ++ _)
    rw [show eraseKeysFrom d base 1 (rest.length + 1) =
      eraseKeysFrom (eraseKey d (base ++ natStr 1)) base 2 rest.length from rfl]
    rfl

theorem hasKey_eq_false_iff (d : KVList) (k : String) :
    hasKey d k = false ↔ ∀ kv ∈ d, kv.1 ≠ k := by
  induction d with
  | nil => simp [hasKey]
  | cons kv rest ih =>
    simp only [hasKey, Bool.or_eq_false_iff, decide_eq_false_iff_not, ih, List.mem_cons]
    constructor
    · rintro ⟨h1, h2⟩ kv' (rfl | hmem)
      · exact h1
      · exact h2 kv' hmem
    · intro h
      exact ⟨h kv (Or.inl rfl), fun kv' hmem => h kv' (Or.inr hmem)⟩

theorem expansionPairs_getVal (base : String) (l : List PyScalar) :
    ∀ (s j : Nat) (hj : j < l.length),
      hasKey (expansionPairs base s l) (base ++ natStr (s + j)) = true ∧
      getVal (expansionPairs base s l) (base ++ natStr (s + j)) = .base (l.get ⟨j, hj⟩) := by
  induction l with
  | nil => intro s j hj; simp at hj
  | cons x rest ih =>
    intro s j hj
    match j with
    | 0 =>
      constructor
      · show (decide (base ++ natStr s = base ++ natStr (s + 0)) || _) = true
        rw [show s + 0 = s from rfl]
        simp
      · show (if base ++ natStr s = base ++ natStr (s + 0) then PyVal.base x else _) = _
        rw [show s + 0 = s from rfl, if_pos rfl]
        rfl
    | j + 1 =>
      have hne : base ++ natStr s ≠ base ++ natStr (s + (j + 1)) := by
        intro he
        have := append_natStr_inj base he
        omega
      have hidx : s + (j + 1) = (s + 1) + j := by omega
      have := ih (s + 1) j (by simpa using Nat.lt_of_succ_lt_succ hj)
      constructor
      · show (decide (base ++ natStr s = base ++ natStr (s + (j + 1))) || _) = true
        rw [decide_eq_false hne, Bool.false_or, hidx]
        exact this.1
      · show (if base ++ natStr s = base ++ natStr (s + (j + 1)) then PyVal.base x else _) = _
        rw [if_neg hne, hidx]
        exact this.2

theorem expansionPairs_hasKey_out (base : String) (l : List PyScalar) :
    ∀ (s m : Nat), (m < s ∨ s + l.length ≤ m) →
      hasKey (expansionPairs base s l) (base ++ natStr m) = false := by
  induction l with
  | nil => intro s m _; rfl
  | cons x rest ih =>
    intro s m hm
    show (decide (base ++ natStr s = base ++ natStr m) || _) = false
    have hne : base ++ natStr s ≠ base ++ natStr m := by
      intro he
      have := append_natStr_inj base he
      simp only [List.length_cons] at hm
      omega
    rw [decide_eq_false hne, Bool.false_or]
    apply ih
    simp only [List.length_cons] at hm
    omega

theorem expansionPairs_hasKey_other (base : String) (l : List PyScalar) :
    ∀ (s : Nat) (k : String), (∀ j, k ≠ base ++ natStr j) →
      hasKey (expansionPairs base s l) k = false := by
  induction l with
  | nil => intro s k _; rfl
  | cons x rest ih =>
    intro s k hk
    show (decide (base ++ natStr s = k) || _) = false
    rw [decide_eq_false (Ne.symm (hk s)), Bool.false_or]
    exact ih (s + 1) k hk

theorem eraseKey_append_right_head (kw : KVList) (k : String) (v : PyVal) (tail : KVList)
    (h : hasKey kw k = false) : eraseKey (kw ++ (k, v) :: tail) k = kw ++ tail := by
  induction kw with
  | nil => simp [eraseKey]
  | cons kv rest ih =>
    simp only [hasKey, Bool.or_eq_false_iff, decide_eq_false_iff_not] at h
    simp [eraseKey, h.1, ih h.2]

theorem eraseKeysFrom_append_block (base : String) (l : List PyScalar) :
    ∀ (s : Nat) (kw : KVList), (∀ j, hasKey kw (base ++ natStr j) = false) →
      eraseKeysFrom (kw ++ expansionPairs base s l) base s l.length = kw := by
  induction l with
  | nil => intro s kw _; simp [eraseKeysFrom, expansionPairs]
  | cons x rest ih =>
    intro s kw hkw
    show eraseKeysFrom (eraseKey (kw ++ (base ++ natStr s, PyVal.base x) ::
      expansionPairs base (s + 1) rest) (base ++ natStr s)) base (s + 1) rest.length = kw
    rw [eraseKey_append_right_head _ _ _ _ (hkw s)]
    exact ih (s + 1) kw hkw

/-- The error case of the `while` loop: the suffix-1 key and the unindexed
key are both present. -/
theorem foldIndexedLoop_both_forms (base : String) (fuel : Nat) (d : KVList) (hfuel : 1 ≤ fuel)
    (h1 : hasKey d (base ++ natStr 1) = true) (hb : hasKey d base = true) :
    foldIndexedLoop base fuel 1 d =
      .error (.typeErr ("The attribute has been specified with and without index: " ++
        (base ++ natStr 1))) := by
  match fuel, hfuel with
  | f + 1, _ =>
    rw [foldIndexedLoop, if_pos h1, if_pos ⟨rfl, hb⟩]

theorem foldAllIndexed_noop (bases : List String) (d : KVList)
    (h : ∀ b ∈ bases, hasKey d (b ++ natStr 1) = false) :
    foldAllIndexed bases d = .ok (d, []) := by
  induction bases with
  | nil => rfl
  | cons b rest ih =>
    rw [foldAllIndexed]
    rw [foldIndexedLoop_noop b _ 1 d (by omega) (h b (List.mem_cons_self _ _))]
    dsimp only
    rw [ih (fun b' hb' => h b' (List.mem_cons_of_mem _ hb'))]
    simp [h b (List.mem_cons_self _ _)]

theorem foldAllIndexed_noop_pre (pre rest : List String) (d : KVList)
    (h : ∀ b ∈ pre, hasKey d (b ++ natStr 1) = false) :
    foldAllIndexed (pre ++ rest) d = foldAllIndexed rest d := by
  induction pre with
  | nil => rfl
  | cons b pre' ih =>
    show foldAllIndexed (b :: (pre' ++ rest)) d = _
    rw [foldAllIndexed]
    rw [foldIndexedLoop_noop b _ 1 d (by omega) (h b (List.mem_cons_self _ _))]
    dsimp only
    rw [ih (fun b' hb' => h b' (List.mem_cons_of_mem _ hb'))]
    rcases hres : foldAllIndexed rest d with e | ⟨d'', lens⟩
    · rfl
    · simp [h b (List.mem_cons_self _ _)]

theorem ne_append_natStr_of_incomp {b c : String} (h : strPrefixIncomp b c) (i : Nat) :
    c ≠ b ++ natStr i := by
  intro he
  apply h.1
  rw [he]
  exact ⟨(natStr i).data, rfl⟩

theorem expansionPairs_length (base : String) (l : List PyScalar) :
    ∀ s, (expansionPairs base s l).length = l.length := by
  induction l with
  | nil => intro s; rfl
  | cons x rest ih =>
    intro s
    show (expansionPairs base (s + 1) rest).length + 1 = rest.length + 1
    rw [ih]

/-- `foldAllIndexed` on a dict that carries the (nonempty) suffix-numbered
block of exactly one indexed attribute: the block is folded into a list
appended at the end under the base name, its length is recorded, and every
other indexed attribute is left untouched. -/
theorem foldAllIndexed_fold_single (pre post : List String) (base : String) (kw : KVList)
    (x : PyScalar) (xs : List PyScalar)
    (hkwNoIdx : ∀ b ∈ pre ++ base :: post, ∀ i, hasKey kw (b ++ natStr i) = false)
    (hkwNoBase : hasKey kw base = false)
    (hIncomp : ∀ b ∈ pre ++ post, strPrefixIncomp b base) :
    foldAllIndexed (pre ++ base :: post) (kw ++ expansionPairs base 1 (x :: xs)) =
      .ok (kw ++ [(base, .list (x :: xs))], [(base, (x :: xs).length)]) := by
  have hbasemem : base ∈ pre ++ base :: post := by simp
  have hbase' : hasKey (kw ++ expansionPairs base 1 (x :: xs)) base = false := by
    rw [hasKey_append, hkwNoBase,
      expansionPairs_hasKey_other base (x :: xs) 1 base
        (fun j => (append_natStr_ne_base base j).symm)]
    rfl
  have hkeys' : ∀ j (hj : j < (x :: xs).length),
      hasKey (kw ++ expansionPairs base 1 (x :: xs)) (base ++ natStr (j + 1)) = true ∧
      getVal (kw ++ expansionPairs base 1 (x :: xs)) (base ++ natStr (j + 1)) =
        .base ((x :: xs).get ⟨j, hj⟩) := by
    intro j hj
    have h1 := expansionPairs_getVal base (x :: xs) 1 j hj
    have hidx : 1 + j = j + 1 := by omega
    rw [hidx] at h1
    constructor
    · rw [hasKey_append, hkwNoIdx base hbasemem (j + 1), h1.1]
      rfl
    · rw [getVal_append_right _ _ _ (hkwNoIdx base hbasemem (j + 1)), h1.2]
  have hbound' : hasKey (kw ++ expansionPairs base 1 (x :: xs))
      (base ++ natStr ((x :: xs).length + 1)) = false := by
    rw [hasKey_append, hkwNoIdx base hbasemem _,
      expansionPairs_hasKey_out base (x :: xs) 1 _ (by right; omega)]
    rfl
  have hfuel' : (x :: xs).length + 1 ≤ (kw ++ expansionPairs base 1 (x :: xs)).length + 2 := by
    rw [List.length_append, expansionPairs_length]
    omega
  rw [foldAllIndexed_noop_pre pre (base :: post) _ (by
    intro b hb
    rw [hasKey_append, hkwNoIdx b (List.mem_append_left _ hb) 1,
      expansionPairs_hasKey_other base (x :: xs) 1 (b ++ natStr 1)
        (fun j => append_natStr_ne_of_incomp (hIncomp b (List.mem_append_left _ hb)) 1 j)]
    rfl)]
  rw [foldAllIndexed]
  rw [foldIndexedLoop_fold base x xs _ _ hbase' hkeys' hbound' hfuel']
  dsimp only
  rw [eraseKeysFrom_append_block base (x :: xs) 1 kw (hkwNoIdx base hbasemem)]
  rw [foldAllIndexed_noop post _ (by
    intro b hb
    rw [hasKey_append, hkwNoIdx b (by simp [hb]) 1]
    show (false || hasKey [(base, PyVal.list (x :: xs))] (b ++ natStr 1)) = false
    rw [Bool.false_or]
    show (decide (base = b ++ natStr 1) || false) = false
    rw [decide_eq_false
      (ne_append_natStr_of_incomp (hIncomp b (List.mem_append_right _ hb)) 1)]
    rfl)]
  dsimp only
  rw [if_pos (hkeys' 0 (by simp)).1]
  have hget : getVal (kw ++ [(base, PyVal.list (x :: xs))]) base = PyVal.list (x :: xs) := by
    rw [getVal_append_right _ _ _ hkwNoBase]
    simp [getVal]
  rw [hget]
  rfl

theorem eraseKeysFrom_append_block_mid (base : String) (l : List PyScalar) :
    ∀ (s : Nat) (kw tail : KVList), (∀ j, hasKey kw (base ++ natStr j) = false) →
      eraseKeysFrom (kw ++ (expansionPairs base s l ++ tail)) base s l.length = kw ++ tail := by
  induction l with
  | nil => intro s kw tail _; rfl
  | cons x rest ih =>
    intro s kw tail hkw
    show eraseKeysFrom (eraseKey (kw ++ ((base ++ natStr s, PyVal.base x) ::
      (expansionPairs base (s + 1) rest ++ tail))) (base ++ natStr s)) base (s + 1) rest.length
      = kw ++ tail
    rw [eraseKey_append_right_head _ _ _ _ (hkw s)]
    exact ih (s + 1) kw tail hkw

/-- `__init__`, step 1 equivalence: supplying a (nonempty) run of
suffix-numbered keys `base1, base2, …` produces exactly the same constructed
object as supplying the folded sequence under `base` directly. -/
theorem paramInit_fold_equiv (attrs : List AttrSpec) (ac : Bool) (kw : KVList)
    (pre post : List String) (base : String) (x : PyScalar) (xs : List PyScalar)
    (hsplit : indexedNames attrs = pre ++ base :: post)
    (hkwNoIdx : ∀ b ∈ indexedNames attrs, ∀ i, hasKey kw (b ++ natStr i) = false)
    (hkwNoBase : hasKey kw base = false)
    (hIncomp : ∀ b ∈ pre ++ post, strPrefixIncomp b base) :
    paramInit attrs ac (kw ++ expansionPairs base 1 (x :: xs)) =
      paramInit attrs ac (kw ++ [(base, .list (x :: xs))]) := by
  rw [paramInit, paramInit, hsplit]
  rw [foldAllIndexed_fold_single pre post base kw x xs
    (fun b hb => hkwNoIdx b (by rw [hsplit]; exact hb)) hkwNoBase hIncomp]
  rw [foldAllIndexed_noop (pre ++ base :: post) _ (by
    intro b hb
    rw [hasKey_append, hkwNoIdx b (by rw [hsplit]; exact hb) 1, Bool.false_or]
    show (decide (base = b ++ natStr 1) || false) = false
    rcases List.mem_append.mp hb with hpre | hmid
    · rw [decide_eq_false
        (ne_append_natStr_of_incomp (hIncomp b (List.mem_append_left _ hpre)) 1)]
      rfl
    · rcases List.mem_cons.mp hmid with rfl | hpost
      · rw [decide_eq_false ((append_natStr_ne_base b 1).symm)]
        rfl
      · rw [decide_eq_false
          (ne_append_natStr_of_incomp (hIncomp b (List.mem_append_right _ hpost)) 1)]
        rfl)]
  dsimp only
  rw [if_neg (show ¬ (allSameNat (List.map (fun e : String × Nat => e.2)
      [(base, (x :: xs).length)]) = false) by simp [allSameNat])]
  rw [if_neg (show ¬ (allSameNat (List.map (fun e : String × Nat => e.2)
      ([] : List (String × Nat))) = false) by simp [allSameNat])]

/-- `__init__` rejects an attribute specified both with and without index. -/
theorem paramInit_both_forms_error (attrs : List AttrSpec) (ac : Bool) (d0 : KVList)
    (pre post : List String) (base : String)
    (hsplit : indexedNames attrs = pre ++ base :: post)
    (hpre : ∀ b ∈ pre, hasKey d0 (b ++ natStr 1) = false)
    (h1 : hasKey d0 (base ++ natStr 1) = true)
    (hb : hasKey d0 base = true) :
    paramInit attrs ac d0 = .error (.typeErr
      ("The attribute has been specified with and without index: " ++ (base ++ natStr 1))) := by
  rw [paramInit, hsplit, foldAllIndexed_noop_pre pre (base :: post) d0 hpre, foldAllIndexed,
    foldIndexedLoop_both_forms base _ d0 (by omega) h1 hb]
/-- `__init__` rejects two indexed attributes supplied via suffix-numbered
keys that resolve to sequences of different lengths. -/
theorem paramInit_idx_length_mismatch (attrs : List AttrSpec) (ac : Bool) (kw : KVList)
    (b₁ b₂ : String) (x₁ : PyScalar) (xs₁ : List PyScalar) (x₂ : PyScalar) (xs₂ : List PyScalar)
    (hsplit : indexedNames attrs = [b₁, b₂])
    (hlen : (x₁ :: xs₁).length ≠ (x₂ :: xs₂).length)
    (hkw : ∀ b ∈ indexedNames attrs, ∀ i, hasKey kw (b ++ natStr i) = false)
    (hkwb₁ : hasKey kw b₁ = false) (hkwb₂ : hasKey kw b₂ = false)
    (hinc : strPrefixIncomp b₁ b₂) :
    paramInit attrs ac
        (kw ++ (expansionPairs b₂ 1 (x₂ :: xs₂) ++ expansionPairs b₁ 1 (x₁ :: xs₁))) =
      .error (.typeErr "The following indexed attributes have different lengths") := by
  have hinc' : strPrefixIncomp b₂ b₁ := ⟨hinc.2, hinc.1⟩
  have hb₁mem : b₁ ∈ indexedNames attrs := by rw [hsplit]; simp
  have hb₂mem : b₂ ∈ indexedNames attrs := by rw [hsplit]; simp
  have hne : b₁ ≠ b₂ := by
    intro he
    exact hinc.1 (he ▸ List.prefix_refl _)
  -- keys of the b₁ block are invisible to b₂ and vice versa
  have hBothers : ∀ j, hasKey (expansionPairs b₂ 1 (x₂ :: xs₂)) (b₁ ++ natStr j) = false :=
    fun j => expansionPairs_hasKey_other b₂ (x₂ :: xs₂) 1 _
      (fun m => append_natStr_ne_of_incomp hinc j m)
  have hAothers : ∀ j, hasKey (expansionPairs b₁ 1 (x₁ :: xs₁)) (b₂ ++ natStr j) = false :=
    fun j => expansionPairs_hasKey_other b₁ (x₁ :: xs₁) 1 _
      (fun m => append_natStr_ne_of_incomp hinc' j m)
  have hd₀ : ∀ j, hasKey (kw ++ expansionPairs b₂ 1 (x₂ :: xs₂)) (b₁ ++ natStr j) = false := by
    intro j
    rw [hasKey_append, hkw b₁ hb₁mem j, hBothers j]
    rfl
  -- step 1: fold the b₁ block (the dict is (kw ++ blockB) ++ blockA)
  have hfold₁ : foldIndexedLoop b₁
      ((kw ++ (expansionPairs b₂ 1 (x₂ :: xs₂) ++ expansionPairs b₁ 1 (x₁ :: xs₁))).length + 2) 1
      (kw ++ (expansionPairs b₂ 1 (x₂ :: xs₂) ++ expansionPairs b₁ 1 (x₁ :: xs₁))) =
      .ok ((kw ++ expansionPairs b₂ 1 (x₂ :: xs₂)) ++ [(b₁, PyVal.list (x₁ :: xs₁))]) := by
    rw [← List.append_assoc]
    rw [foldIndexedLoop_fold b₁ x₁ xs₁ _ _
      (by
        rw [hasKey_append, hasKey_append, hkwb₁,
          expansionPairs_hasKey_other b₂ (x₂ :: xs₂) 1 b₁
            (fun m => ne_append_natStr_of_incomp hinc' m),
          expansionPairs_hasKey_other b₁ (x₁ :: xs₁) 1 b₁
            (fun m => (append_natStr_ne_base b₁ m).symm)]
        rfl)
      (by
        intro j hj
        have h1 := expansionPairs_getVal b₁ (x₁ :: xs₁) 1 j hj
        rw [show 1 + j = j + 1 by omega] at h1
        constructor
        · rw [hasKey_append, hd₀ (j + 1), h1.1]
          rfl
        · rw [getVal_append_right _ _ _ (hd₀ (j + 1)), h1.2])
      (by
        rw [hasKey_append, hd₀ _,
          expansionPairs_hasKey_out b₁ (x₁ :: xs₁) 1 _ (by right; omega)]
        rfl)
      (by
        simp only [List.length_append, expansionPairs_length]
        omega)]
    rw [eraseKeysFrom_append_block b₁ (x₁ :: xs₁) 1 _ hd₀]
  -- step 2: fold the b₂ block on the dict left by step 1
  have hd₁ : ∀ j, hasKey (kw ++ expansionPairs b₂ 1 (x₂ :: xs₂))
      (b₂ ++ natStr j) = (hasKey (expansionPairs b₂ 1 (x₂ :: xs₂)) (b₂ ++ natStr j)) := by
    intro j
    rw [hasKey_append, hkw b₂ hb₂mem j, Bool.false_or]
  have hb₁entry : ∀ j, hasKey [(b₁, PyVal.list (x₁ :: xs₁))] (b₂ ++ natStr j) = false := by
    intro j
    show (decide (b₁ = b₂ ++ natStr j) || false) = false
    rw [decide_eq_false (ne_append_natStr_of_incomp hinc' j)]
    rfl
  have hfold₂ : foldIndexedLoop b₂
      (((kw ++ expansionPairs b₂ 1 (x₂ :: xs₂)) ++ [(b₁, PyVal.list (x₁ :: xs₁))]).length + 2) 1
      ((kw ++ expansionPairs b₂ 1 (x₂ :: xs₂)) ++ [(b₁, PyVal.list (x₁ :: xs₁))]) =
      .ok ((kw ++ [(b₁, PyVal.list (x₁ :: xs₁))]) ++ [(b₂, PyVal.list (x₂ :: xs₂))]) := by
    rw [foldIndexedLoop_fold b₂ x₂ xs₂ _ _
      (by
        rw [hasKey_append, hasKey_append, hkwb₂,
          expansionPairs_hasKey_other b₂ (x₂ :: xs₂) 1 b₂
            (fun m => (append_natStr_ne_base b₂ m).symm)]
        show (Bool.or false (hasKey [(b₁, PyVal.list (x₁ :: xs₁))] b₂)) = false
        rw [Bool.false_or]
        show (decide (b₁ = b₂) || false) = false
        rw [decide_eq_false hne]
        rfl)
      (by
        intro j hj
        have h1 := expansionPairs_getVal b₂ (x₂ :: xs₂) 1 j hj
        rw [show 1 + j = j + 1 by omega] at h1
        have hin : hasKey (kw ++ expansionPairs b₂ 1 (x₂ :: xs₂)) (b₂ ++ natStr (j + 1)) = true := by
          rw [hd₁ (j + 1), h1.1]
        constructor
        · rw [hasKey_append, hin]
          rfl
        · rw [getVal_append_left _ _ _ hin,
            getVal_append_right _ _ _ (hkw b₂ hb₂mem (j + 1)), h1.2])
      (by
        rw [hasKey_append, hd₁ _,
          expansionPairs_hasKey_out b₂ (x₂ :: xs₂) 1 _ (by right; omega), hb₁entry _]
        rfl)
      (by
        simp only [List.length_append, expansionPairs_length]
        omega)]
    rw [show (kw ++ expansionPairs b₂ 1 (x₂ :: xs₂)) ++ [(b₁, PyVal.list (x₁ :: xs₁))] =
      kw ++ (expansionPairs b₂ 1 (x₂ :: xs₂) ++ [(b₁, PyVal.list (x₁ :: xs₁))]) from
      (List.append_assoc _ _ _)]
    rw [eraseKeysFrom_append_block_mid b₂ (x₂ :: xs₂) 1 kw [(b₁, PyVal.list (x₁ :: xs₁))]
      (fun j => hkw b₂ hb₂mem j)]
  -- assemble
  have hc₁ : hasKey (kw ++ (expansionPairs b₂ 1 (x₂ :: xs₂) ++ expansionPairs b₁ 1 (x₁ :: xs₁)))
      (b₁ ++ natStr 1) = true := by
    rw [hasKey_append, hkw b₁ hb₁mem 1, hasKey_append, hBothers 1]
    have h1 := (expansionPairs_getVal b₁ (x₁ :: xs₁) 1 0 (by simp)).1
    rw [show 1 + 0 = 1 from rfl] at h1
    rw [h1]
    rfl
  have hc₂ : hasKey ((kw ++ expansionPairs b₂ 1 (x₂ :: xs₂)) ++ [(b₁, PyVal.list (x₁ :: xs₁))])
      (b₂ ++ natStr 1) = true := by
    rw [hasKey_append, hd₁ 1]
    have h1 := (expansionPairs_getVal b₂ (x₂ :: xs₂) 1 0 (by simp)).1
    rw [show 1 + 0 = 1 from rfl] at h1
    rw [h1]
    rfl
  have hget₁ : getVal ((kw ++ expansionPairs b₂ 1 (x₂ :: xs₂)) ++ [(b₁, PyVal.list (x₁ :: xs₁))])
      b₁ = PyVal.list (x₁ :: xs₁) := by
    rw [getVal_append_right]
    · simp [getVal]
    · rw [hasKey_append, hkwb₁,
        expansionPairs_hasKey_other b₂ (x₂ :: xs₂) 1 b₁
          (fun m => ne_append_natStr_of_incomp hinc' m)]
      rfl
  have hget₂ : getVal ((kw ++ [(b₁, PyVal.list (x₁ :: xs₁))]) ++ [(b₂, PyVal.list (x₂ :: xs₂))])
      b₂ = PyVal.list (x₂ :: xs₂) := by
    rw [getVal_append_right]
    · simp [getVal]
    · rw [hasKey_append, hkwb₂]
      show (Bool.or false (hasKey [(b₁, PyVal.list (x₁ :: xs₁))] b₂)) = false
      rw [Bool.false_or]
      show (decide (b₁ = b₂) || false) = false
      rw [decide_eq_false hne]
      rfl
  rw [paramInit, hsplit, foldAllIndexed, hfold₁]
  dsimp only
  rw [foldAllIndexed, hfold₂]
  dsimp only
  rw [foldAllIndexed]
  dsimp only
  rw [hc₁, hc₂, hget₁, hget₂]
  simp only [if_true]
  have hall : allSameNat (List.map (fun e : String × Nat => e.2)
      ([(b₁, pyLen (PyVal.list (x₁ :: xs₁)))] ++ ([(b₂, pyLen (PyVal.list (x₂ :: xs₂)))] ++ []))) =
        false := by
    show ([(x₂ :: xs₂).length].all (fun v => v = (x₁ :: xs₁).length)) = false
    simp only [List.all_cons, List.all_nil, Bool.and_true, decide_eq_false_iff_not]
    exact fun he => hlen he.symm
  rw [if_pos hall]

/-! ## The `ParameterHandler` base class -/

/-- The class-level configuration of a `ParameterHandler` subclass: the
element name of its parameter list (`_INFOTYPE._ELEMENT_NAME`, `none` when
`_INFOTYPE` is `None`), `_REQUIRED_SPEC_ATTRIBS`, `_DEFAULT_SPEC_ATTRIBS`
(an ordered dict), `_OPTIONAL_SPEC_ATTRIBS`, `_INDEXED_ATTRIBS`, the
`_ATTRIBS_TO_TYPE` casts, the keys of `_REQUIRE_UNITS`, and the two opaque
external collaborators: `check_units_are_compatible` and the
`packaging.version` comparison against the class's supported section-version
range. -/
structure HandlerClass where
  elementName : Option String
  requiredSpecAttribs : List String
  defaultSpecAttribs : KVList
  optionalSpecAttribs : List String
  indexedAttribs : List String
  attribsToType : List (String × (PyVal → PyVal))
  requireUnits : List String
  unitsCompatible : String → PyVal → Bool
  maxVersion : PyVal
  versionCompatible : PyVal → Bool

/-- The instance state of a constructed `ParameterHandler`: the instance
attributes (stored, as in the source, under keys carrying the `_` prefix
that `setattr(self, '_' + key, val)` adds) and the `_cosmetic_attribs` name
list.  The owned `ParameterList` is populated by a separate entry point and
plays no role in the header-attribute claims. -/
structure HandlerState where
  attrs : KVList
  cosmetic : List String
  deriving Repr, DecidableEq

/-- The outcome of `ParameterHandler.__init__`: besides an exception or a
constructed instance, the constructor can fail to terminate — its loop over
suffixed indexed header attributes never increments the probed index, so
once entered it never exits. -/
inductive HandlerInitResult where
  | diverges : HandlerInitResult
  | error (e : PErr) : HandlerInitResult
  | ok (st : HandlerState) : HandlerInitResult
  deriving Repr, DecidableEq

/-- The final assignment loop of `ParameterHandler.__init__`: the element
name is skipped (parameters are populated elsewhere), an allowed header
attribute is stored under its `_`-prefixed name, anything else becomes a
cosmetic attribute when permitted and a `SMIRNOFFSpecError` otherwise. -/
def handlerAssign (cls : HandlerClass) (allowCosmetic : Bool) :
    KVList → HandlerState → HandlerInitResult
  | [], st => .ok st
  | (k, v) :: rest, st =>
    if some k = cls.elementName then handlerAssign cls allowCosmetic rest st
    else if k ∈ cls.requiredSpecAttribs ∨ hasKey cls.defaultSpecAttribs k = true ∨
        k ∈ cls.optionalSpecAttribs then
      handlerAssign cls allowCosmetic rest ⟨setVal st.attrs ("_" ++ k) v, st.cosmetic⟩
    else if allowCosmetic then
      handlerAssign cls allowCosmetic rest ⟨setVal st.attrs ("_" ++ k) v, st.cosmetic ++ [k]⟩
    else .error (.specErr ("Unexpected kwarg " ++ k ++ " passed to handler constructor"))

/-- The version handling at the top of `ParameterHandler.__init__`:
substitute the maximum supported version when absent and permitted, and
check compatibility. -/
def handlerVersionStep (cls : HandlerClass) (skipVersionCheck : Bool) (kwargs : KVList) :
    Except PErr KVList :=
  if "version" ∈ cls.requiredSpecAttribs then
    if hasKey kwargs "version" then
      if cls.versionCompatible (getVal kwargs "version") then .ok kwargs
      else .error (.versionErr "SMIRNOFF offxml file was written with an unsupported version")
    else if skipVersionCheck then
      if cls.versionCompatible cls.maxVersion then
        .ok (setVal kwargs "version" cls.maxVersion)
      else .error (.versionErr "SMIRNOFF offxml file was written with an unsupported version")
    else .error (.specErr "Missing version while trying to construct a handler section")
  else .ok kwargs

/-- The `_ATTRIBS_TO_TYPE` cast loop of `ParameterHandler.__init__`. -/
def handlerApplyCasts (cls : HandlerClass) (kw : KVList) : KVList :=
  cls.attribsToType.foldl
    (fun kw c => if hasKey kw c.1 then setVal kw c.1 (c.2 (getVal kw c.1)) else kw) kw

/-- The `_DEFAULT_SPEC_ATTRIBS` loop of `ParameterHandler.__init__`: append
each absent default. -/
def handlerApplyDefaults (cls : HandlerClass) (kw : KVList) : KVList :=
  cls.defaultSpecAttribs.foldl
    (fun kw dv => if hasKey kw dv.1 then kw else setVal kw dv.1 dv.2) kw

/-- `ParameterHandler.__init__`.

In order: substitute or validate the section version; check the required
header attributes are present; probe each indexed header attribute's
suffix-1 key — the source's `while attrib_w_index in kwargs` loop never
increments `index` nor removes the key, so the loop guard is invariant and
entering the loop means the constructor never terminates (`.diverges`);
apply the `_ATTRIBS_TO_TYPE` casts; append absent default header
attributes; check unit compatibility of the `_REQUIRE_UNITS` keys; then run
the assignment loop. -/
def handlerInit (cls : HandlerClass) (allowCosmetic skipVersionCheck : Bool) (kwargs : KVList) :
    HandlerInitResult :=
  match handlerVersionStep cls skipVersionCheck kwargs with
  | .error e => .error e
  | .ok kw0 =>
    if (cls.requiredSpecAttribs.filter (fun r => !(hasKey kw0 r))) ≠ [] then
      .error (.specErr "a required parameter is not provided during initialization")
    else if cls.indexedAttribs.any (fun b => hasKey kw0 (b ++ natStr 1)) then
      .diverges
    else if (handlerApplyDefaults cls (handlerApplyCasts cls kw0)).any
        (fun kv => decide (kv.1 ∈ cls.requireUnits) && !(cls.unitsCompatible kv.1 kv.2)) then
      .error (.exc "incompatible unit for a handler header attribute")
    else
      handlerAssign cls allowCosmetic (handlerApplyDefaults cls (handlerApplyCasts cls kw0))
        ⟨[], []⟩

/-- Raw instance-attribute access `getattr(self, name)` on a handler (the
`ParameterHandler` classes declare no descriptor or property under the names
read by the modelled fragments, so a missing instance attribute is an
`AttributeError`). -/
def handlerGetAttr (st : HandlerState) (name : String) : Except PErr PyVal :=
  if hasKey st.attrs name then .ok (getVal st.attrs name) else .error (.attrErr name)

/-- `ParameterHandler.to_dict`, header part: the serialized parameter list
is emitted first under the element name (`velem` stands for that rendered
list, which the reconstruction skips without reading); then every required
and default header attribute, each optional one for which the `_`-prefixed
instance attribute exists, and — unless discarding is requested — every
cosmetic attribute, all read from the `_`-prefixed instance attributes. -/
def handlerToDict (cls : HandlerClass) (st : HandlerState) (velem : PyVal)
    (discardCosmetic : Bool) : KVList :=
  let d0 : KVList := match cls.elementName with
    | some en => [(en, velem)]
    | none => []
  let headerNames := cls.requiredSpecAttribs ++ cls.defaultSpecAttribs.map (fun kv => kv.1) ++
    cls.optionalSpecAttribs.filter (fun k => hasKey st.attrs ("_" ++ k)) ++
    (if discardCosmetic then [] else st.cosmetic)
  headerNames.foldl (fun d k => setVal d k (getVal st.attrs ("_" ++ k))) d0

/-! ## C6: indexed attributes supplied via suffix-numbered keys -/

/-- The `BondHandler` class-level configuration (the parts exercised by the
handler construction/serialization claims).  The opaque collaborators are
modelled at the inputs used here: units always check out (no
`_REQUIRE_UNITS` entries exist on this class), and the `packaging.version`
comparison accepts the written forms of the single supported section version
`0.3`. -/
def bondHandlerCls : HandlerClass where
  elementName := some "Bond"
  requiredSpecAttribs := ["version"]
  defaultSpecAttribs := [("potential", PyVal.str "harmonic"),
    ("fractional_bondorder_method", PyVal.noneV),
    ("fractional_bondorder_interpolation", PyVal.str "linear")]
  optionalSpecAttribs := []
  indexedAttribs := ["k"]
  attribsToType := []
  requireUnits := []
  unitsCompatible := fun _ _ => true
  maxVersion := PyVal.rat (3 / 10)
  versionCompatible := fun v => v == PyVal.str "0.3" || v == PyVal.rat (3 / 10)

/-- C6 counterexample: constructing a `BondHandler` with the suffix-numbered
kwarg `k1` does not fold it into a stored sequence — the constructor's loop
over suffix-numbered keys never increments the probed index, so `__init__`
never terminates and no object is constructed at all. -/
theorem handler_suffix_key_counterexample :
    handlerInit bondHandlerCls true false
      [("version", PyVal.str "0.3"), ("k1", PyVal.int 5)] = .diverges := rfl

/-- A dict none of whose keys is a suffix-numbered form of `b` has no key
`b ++ natStr i`, for any `i`. -/
theorem hasKey_suffix_false (d : KVList) (b : String)
    (h : ∀ kv ∈ d, ¬ isIdxSuffixKey b kv.1) (i : Nat) :
    hasKey d (b ++ natStr i) = false :=
  (hasKey_eq_false_iff d _).mpr (fun kv hm => ne_of_not_idxSuffixKey (h kv hm) i)

/-- The declared attributes of `ProperTorsionType`: `smirks` required;
`periodicity`, `phase`, `k` required and indexed; `idivf` indexed with
default `None`.  The unit/converter pipelines are instantiated at the
identity (the construction-shape claims quantify over them). -/
def properTorsionAttrs : List AttrSpec :=
  [⟨"smirks", none, false, fun v => .ok v⟩,
   ⟨"periodicity", none, true, fun v => .ok v⟩,
   ⟨"phase", none, true, fun v => .ok v⟩,
   ⟨"k", none, true, fun v => .ok v⟩,
   ⟨"idivf", some PyVal.noneV, true, fun v => .ok v⟩]

/-- A two-indexed-attribute layout (the `phase`/`k` fragment of a torsion
type), used to exercise the equal-length check across two indexed
attributes. -/
def twoIdxAttrs : List AttrSpec :=
  [⟨"smirks", none, false, fun v => .ok v⟩,
   ⟨"phase", none, true, fun v => .ok v⟩,
   ⟨"k", none, true, fun v => .ok v⟩]

/-- C6 (amended): for parameter-type records, construction from keyword
input rejects an attribute given both with and without index, rejects two
indexed attributes whose suffix-numbered keys fold to sequences of
different lengths, and otherwise folds suffix-numbered keys
`base1, base2, …` into exactly the same constructed record as passing the
sequence under `base` directly.  For `ParameterHandler`s, however, no such
folding happens: the constructor's loop over suffix-numbered keys never
advances the probed index, so once the version and required-attribute
checks pass, any kwarg `base1` for an indexed header attribute makes
`__init__` loop forever instead of constructing anything. -/
theorem indexed_key_construction_spec :
    (∀ (attrs : List AttrSpec) (ac : Bool) (d0 : KVList) (pre post : List String) (base : String),
        indexedNames attrs = pre ++ base :: post →
        (∀ b ∈ pre, hasKey d0 (b ++ natStr 1) = false) →
        hasKey d0 (base ++ natStr 1) = true → hasKey d0 base = true →
        paramInit attrs ac d0 = .error (.typeErr
          ("The attribute has been specified with and without index: " ++ (base ++ natStr 1)))) ∧
    (∀ (attrs : List AttrSpec) (ac : Bool) (kw : KVList) (b₁ b₂ : String)
        (x₁ : PyScalar) (xs₁ : List PyScalar) (x₂ : PyScalar) (xs₂ : List PyScalar),
        indexedNames attrs = [b₁, b₂] →
        (x₁ :: xs₁).length ≠ (x₂ :: xs₂).length →
        (∀ b ∈ indexedNames attrs, ∀ i, hasKey kw (b ++ natStr i) = false) →
        hasKey kw b₁ = false → hasKey kw b₂ = false → strPrefixIncomp b₁ b₂ →
        paramInit attrs ac
            (kw ++ (expansionPairs b₂ 1 (x₂ :: xs₂) ++ expansionPairs b₁ 1 (x₁ :: xs₁))) =
          .error (.typeErr "The following indexed attributes have different lengths")) ∧
    (∀ (attrs : List AttrSpec) (ac : Bool) (kw : KVList) (pre post : List String) (base : String)
        (x : PyScalar) (xs : List PyScalar),
        indexedNames attrs = pre ++ base :: post →
        (∀ b ∈ indexedNames attrs, ∀ i, hasKey kw (b ++ natStr i) = false) →
        hasKey kw base = false →
        (∀ b ∈ pre ++ post, strPrefixIncomp b base) →
        paramInit attrs ac (kw ++ expansionPairs base 1 (x :: xs)) =
          paramInit attrs ac (kw ++ [(base, PyVal.list (x :: xs))])) ∧
    (∀ (cls : HandlerClass) (ac svc : Bool) (kwargs : KVList),
        ("version" ∈ cls.requiredSpecAttribs →
          hasKey kwargs "version" = true ∧
            cls.versionCompatible (getVal kwargs "version") = true) →
        cls.requiredSpecAttribs.filter (fun r => !(hasKey kwargs r)) = [] →
        cls.indexedAttribs.any (fun b => hasKey kwargs (b ++ natStr 1)) = true →
        handlerInit cls ac svc kwargs = .diverges) := by
  refine ⟨paramInit_both_forms_error, paramInit_idx_length_mismatch, paramInit_fold_equiv, ?_⟩
  intro cls ac svc kwargs hver hreq hidx
  have hstep : handlerVersionStep cls svc kwargs = .ok kwargs := by
    unfold handlerVersionStep
    by_cases h : "version" ∈ cls.requiredSpecAttribs
    · obtain ⟨h1, h2⟩ := hver h
      rw [if_pos h, h1, h2, if_pos rfl, if_pos rfl]
    · rw [if_neg h]
  unfold handlerInit
  rw [hstep]
  dsimp only
  rw [hreq, if_neg (show ¬ (([] : List String) ≠ []) from fun hc => hc rfl), hidx, if_pos rfl]

/-- Witness for C6: the both-forms error, the unequal-length error and the
fold equivalence at concrete torsion-shaped records, and the
non-termination of a `BondHandler` constructed with a `k1` kwarg. -/
theorem indexed_key_construction_spec_witness :
    paramInit properTorsionAttrs true
        [("smirks", PyVal.str "[*:1]"), ("k1", PyVal.int 1),
         ("k", PyVal.list [PyScalar.int 2])] =
      .error (.typeErr
        ("The attribute has been specified with and without index: " ++ ("k" ++ natStr 1))) ∧
    paramInit twoIdxAttrs true
        ([("smirks", PyVal.str "[*:1]")] ++
          (expansionPairs "k" 1 [PyScalar.int 1] ++
            expansionPairs "phase" 1 [PyScalar.int 0, PyScalar.int 180])) =
      .error (.typeErr "The following indexed attributes have different lengths") ∧
    paramInit properTorsionAttrs true
        ([("smirks", PyVal.str "[*:1]")] ++
          expansionPairs "k" 1 [PyScalar.int 1, PyScalar.int 2]) =
      paramInit properTorsionAttrs true
        ([("smirks", PyVal.str "[*:1]")] ++
          [("k", PyVal.list [PyScalar.int 1, PyScalar.int 2])]) ∧
    handlerInit bondHandlerCls true true
        [("version", PyVal.str "0.3"), ("k1", PyVal.int 5)] = .diverges := by
  refine ⟨?_, ?_, ?_, ?_⟩
  · exact indexed_key_construction_spec.1 properTorsionAttrs true _
      ["periodicity", "phase"] ["idivf"] "k" (by decide) (by decide) (by decide) (by decide)
  · exact indexed_key_construction_spec.2.1 twoIdxAttrs true [("smirks", PyVal.str "[*:1]")]
      "phase" "k" (PyScalar.int 0) [PyScalar.int 180] (PyScalar.int 1) []
      (by decide) (by decide)
      (by
        intro b hb i
        refine hasKey_suffix_false _ b ?_ i
        fin_cases hb <;> decide)
      (by decide) (by decide) (by decide)
  · exact indexed_key_construction_spec.2.2.1 properTorsionAttrs true
      [("smirks", PyVal.str "[*:1]")] ["periodicity", "phase"] ["idivf"] "k"
      (PyScalar.int 1) [PyScalar.int 2]
      (by decide)
      (by
        intro b hb i
        refine hasKey_suffix_false _ b ?_ i
        fin_cases hb <;> decide)
      (by decide) (by decide)
  · exact indexed_key_construction_spec.2.2.2 bondHandlerCls true true
      [("version", PyVal.str "0.3"), ("k1", PyVal.int 5)]
      (fun _ => ⟨rfl, rfl⟩) rfl rfl

/-! ## C7: the serialization contract of `to_dict` -/

/-- Whether `k` is a dict key that attribute `a` can emit during
serialization: the suffix-numbered keys of an indexed attribute, the plain
name otherwise. -/
def attrEmitsKey (a : AttrSpec) (k : String) : Prop :=
  if a.indexed then isIdxSuffixKey a.name k else k = a.name

instance (a : AttrSpec) (k : String) : Decidable (attrEmitsKey a k) := by
  unfold attrEmitsKey
  split <;> infer_instance

/-- No serialization key of `a` can also be one of `b` (the SMIRNOFF
attribute layouts satisfy this: distinct names, and no name extends an
indexed name by digits). -/
def attrKeysApart (a b : AttrSpec) : Prop :=
  if a.indexed then
    if b.indexed then strPrefixIncomp a.name b.name
    else ¬ isIdxSuffixKey a.name b.name
  else
    if b.indexed then ¬ isIdxSuffixKey b.name a.name
    else a.name ≠ b.name

instance (a b : AttrSpec) : Decidable (attrKeysApart a b) := by
  unfold attrKeysApart
  split <;> split <;> infer_instance

theorem attrKeysApart_symm : ∀ {a b : AttrSpec}, attrKeysApart a b → attrKeysApart b a := by
  intro a b h
  unfold attrKeysApart at h ⊢
  by_cases hia : a.indexed = true <;> by_cases hib : b.indexed = true
  · rw [if_pos hia, if_pos hib] at h
    rw [if_pos hib, if_pos hia]
    exact ⟨h.2, h.1⟩
  · rw [if_pos hia, if_neg hib] at h
    rw [if_neg hib, if_pos hia]
    exact h
  · rw [if_neg hia, if_pos hib] at h
    rw [if_pos hib, if_neg hia]
    exact h
  · rw [if_neg hia, if_neg hib] at h
    rw [if_neg hib, if_neg hia]
    exact fun he => h he.symm

/-- Keys of apart attributes never coincide. -/
theorem apart_not_emits {a b : AttrSpec} (hab : attrKeysApart a b) {k : String}
    (ha : attrEmitsKey a k) : ¬ attrEmitsKey b k := by
  intro hb
  unfold attrKeysApart at hab
  unfold attrEmitsKey at ha hb
  by_cases hia : a.indexed = true <;> by_cases hib : b.indexed = true
  · rw [if_pos hia] at ha hab
    rw [if_pos hib] at hb
    rw [if_pos hib] at hab
    rcases List.prefix_or_prefix_of_prefix ha.1 hb.1 with hp | hp
    · exact hab.1 hp
    · exact hab.2 hp
  · rw [if_pos hia] at ha hab
    rw [if_neg hib] at hb
    rw [if_neg hib] at hab
    exact hab (hb ▸ ha)
  · rw [if_neg hia] at ha hab
    rw [if_pos hib] at hb
    rw [if_pos hib] at hab
    exact hab (ha ▸ hb)
  · rw [if_neg hia] at ha hab
    rw [if_neg hib] at hb
    rw [if_neg hib] at hab
    exact hab (ha.symm.trans hb)

/-- The keys attribute `a` would serialize to are absent from `d`. -/
def segFreshIn (d : KVList) (a : AttrSpec) : Prop :=
  (a.indexed = true → ∀ i, hasKey d (a.name ++ natStr i) = false) ∧
  (a.indexed = false → hasKey d a.name = false)

/-- Whether a value is a Python sequence. -/
def isListVal : PyVal → Bool
  | .list _ => true
  | .base _ => false

/-- When none of the emitted suffix keys is already present, the in-place
expansion of `to_dict` just appends the suffix-numbered pairs in ascending
order. -/
theorem expandIndexed_eq_append (base : String) :
    ∀ (xs : List PyScalar) (d : KVList) (s : Nat),
      (∀ i, s ≤ i → hasKey d (base ++ natStr i) = false) →
      expandIndexed base d s xs = d ++ expansionPairs base s xs
  | [], d, s, _ => by simp [expandIndexed, expansionPairs]
  | x :: xs, d, s, h => by
    rw [expandIndexed, setVal_absent d _ _ (h s (Nat.le_refl s)),
      expandIndexed_eq_append base xs (d ++ [(base ++ natStr s, PyVal.base x)]) (s + 1) (by
        intro i hi
        rw [hasKey_append, h i (by omega)]
        show (Bool.or false (decide (base ++ natStr s = base ++ natStr i) || false)) = false
        rw [decide_eq_false (fun he => by
          have := append_natStr_inj base he
          omega)]
        rfl)]
    rw [expansionPairs, List.append_assoc]
    rfl

/-- The key/value pairs `to_dict` emits for one attribute. -/
def segVals (st : RecState) (a : AttrSpec) : KVList :=
  if a.indexed then
    match recGetD st a with
    | .list xs => expansionPairs a.name 1 xs
    | .base _ => []
  else [(a.name, recGetD st a)]

/-- The concatenated segments `to_dict` emits for a list of attributes. -/
def segsList (st : RecState) : List AttrSpec → KVList
  | [] => []
  | a :: rest => segVals st a ++ segsList st rest

theorem segVals_hasKey_of {st : RecState} {a : AttrSpec} {k : String}
    (h : hasKey (segVals st a) k = true) : attrEmitsKey a k := by
  unfold segVals at h
  unfold attrEmitsKey
  by_cases hia : a.indexed = true
  · rw [if_pos hia] at h
    rw [if_pos hia]
    rcases hv : recGetD st a with b | xs <;> rw [hv] at h
    · exact absurd h (by simp [hasKey])
    · by_cases hk : ∀ j, k ≠ a.name ++ natStr j
      · rw [expansionPairs_hasKey_other a.name xs 1 k hk] at h
        exact absurd h (by simp)
      · push_neg at hk
        obtain ⟨j, hj⟩ := hk
        exact hj ▸ isIdxSuffixKey_natStr a.name j
  · rw [if_neg hia] at h
    rw [if_neg hia]
    have : (decide (a.name = k) || false) = true := h
    simp only [Bool.or_false, decide_eq_true_eq] at this
    exact this.symm

theorem segVals_absent {st : RecState} {a : AttrSpec} {k : String}
    (h : ¬ attrEmitsKey a k) : hasKey (segVals st a) k = false := by
  cases hk : hasKey (segVals st a) k
  · rfl
  · exact absurd (segVals_hasKey_of hk) h

theorem segsList_absent (st : RecState) :
    ∀ (L : List AttrSpec) (k : String), (∀ a ∈ L, ¬ attrEmitsKey a k) →
      hasKey (segsList st L) k = false
  | [], _, _ => rfl
  | a :: rest, k, h => by
    rw [segsList, hasKey_append, segVals_absent (h a (List.mem_cons_self a rest)),
      segsList_absent st rest k (fun b hb => h b (List.mem_cons_of_mem a hb))]
    rfl

/-- On a key that only attribute `a` can emit, the whole emission behaves
like `a`'s own segment. -/
theorem segsList_hasKey_mem (st : RecState) :
    ∀ (L : List AttrSpec), List.Pairwise attrKeysApart L →
      ∀ a ∈ L, ∀ (k : String), attrEmitsKey a k →
        hasKey (segsList st L) k = hasKey (segVals st a) k ∧
        (hasKey (segVals st a) k = true →
          getVal (segsList st L) k = getVal (segVals st a) k) := by
  intro L
  induction L with
  | nil => intro _ a ha; exact absurd ha (List.not_mem_nil a)
  | cons b rest ih =>
    intro hpair a ha k hk
    rcases hpair with _ | ⟨hrel, hpair'⟩
    rcases List.mem_cons.mp ha with rfl | hmem
    · constructor
      · rw [segsList, hasKey_append]
        cases hown : hasKey (segVals st a) k
        · rw [segsList_absent st rest k
            (fun b' hb' => apart_not_emits (hrel b' hb') hk)]
          rfl
        · rfl
      · intro hown
        rw [segsList]
        exact getVal_append_left _ _ _ hown
    · have hbk : hasKey (segVals st b) k = false :=
        segVals_absent (apart_not_emits (attrKeysApart_symm (hrel a hmem)) hk)
      have hrest := ih hpair' a hmem k hk
      constructor
      · rw [segsList, hasKey_append, hbk, hrest.1]
        rfl
      · intro hown
        rw [segsList, getVal_append_right _ _ _ hbk]
        exact hrest.2 hown

/-- Folding cosmetic attributes over a dict leaves keys that are not
cosmetic names untouched. -/
theorem cosFold_hasKey :
    ∀ (cos d : KVList) (k : String), (∀ kv ∈ cos, kv.1 ≠ k) →
      hasKey (cos.foldl (fun d kv => setVal d kv.1 kv.2) d) k = hasKey d k
  | [], _, _, _ => rfl
  | kv :: rest, d, k, h => by
    rw [List.foldl_cons,
      cosFold_hasKey rest (setVal d kv.1 kv.2) k
        (fun kv' hm => h kv' (List.mem_cons_of_mem kv hm)),
      hasKey_set, decide_eq_false (h kv (List.mem_cons_self kv rest))]
    rfl

theorem cosFold_getVal :
    ∀ (cos d : KVList) (k : String), (∀ kv ∈ cos, kv.1 ≠ k) →
      getVal (cos.foldl (fun d kv => setVal d kv.1 kv.2) d) k = getVal d k
  | [], _, _, _ => rfl
  | kv :: rest, d, k, h => by
    rw [List.foldl_cons,
      cosFold_getVal rest (setVal d kv.1 kv.2) k
        (fun kv' hm => h kv' (List.mem_cons_of_mem kv hm)),
      getVal_set_other _ _ _ _ (fun he => h kv (List.mem_cons_self kv rest) he.symm)]

/-- The attribute loop of `to_dict` succeeds and appends exactly the
per-attribute segments, when every indexed attribute to emit holds a
sequence and no two attributes' keys can collide. -/
theorem toDictLoop_ok (st : RecState) :
    ∀ (L : List AttrSpec) (d : KVList),
      (∀ a ∈ L, a.indexed = true → isListVal (recGetD st a) = true) →
      (∀ a ∈ L, segFreshIn d a) →
      List.Pairwise attrKeysApart L →
      toDictLoop st L d = .ok (d ++ segsList st L) := by
  intro L
  induction L with
  | nil => intro d _ _ _; rw [segsList, List.append_nil]; rfl
  | cons a rest ih =>
    intro d hseq hfresh hpair
    rcases hpair with _ | ⟨hrel, hpair'⟩
    have hseq' : ∀ b ∈ rest, b.indexed = true → isListVal (recGetD st b) = true :=
      fun b hb => hseq b (List.mem_cons_of_mem a hb)
    by_cases hia : a.indexed = true
    · rcases hv : recGetD st a with bv | xs
      · exact absurd (hv ▸ hseq a (List.mem_cons_self a rest) hia) (by simp [isListVal])
      · rw [toDictLoop, if_pos hia, hv]
        dsimp only
        rw [expandIndexed_eq_append a.name xs d 1
          (fun i _ => (hfresh a (List.mem_cons_self a rest)).1 hia i)]
        rw [ih (d ++ expansionPairs a.name 1 xs) hseq'
          (by
            intro b hb
            have hfb := hfresh b (List.mem_cons_of_mem a hb)
            have hab := hrel b hb
            unfold attrKeysApart at hab
            rw [if_pos hia] at hab
            constructor
            · intro hib i
              rw [if_pos hib] at hab
              rw [hasKey_append, hfb.1 hib i,
                expansionPairs_hasKey_other a.name xs 1 _
                  (fun j => append_natStr_ne_of_incomp ⟨hab.2, hab.1⟩ i j)]
              rfl
            · intro hib
              rw [if_neg (by rw [hib]; exact Bool.false_ne_true)] at hab
              rw [hasKey_append, hfb.2 hib,
                expansionPairs_hasKey_other a.name xs 1 _
                  (fun j => ne_of_not_idxSuffixKey hab j)]
              rfl)
          hpair']
        rw [segsList, segVals, if_pos hia, hv, ← List.append_assoc]
    · have hia' : a.indexed = false := by
        rcases h : a.indexed
        · rfl
        · exact absurd h hia
      rw [toDictLoop, if_neg hia,
        setVal_absent d _ _ ((hfresh a (List.mem_cons_self a rest)).2 hia')]
      rw [ih (d ++ [(a.name, recGetD st a)]) hseq'
        (by
          intro b hb
          have hfb := hfresh b (List.mem_cons_of_mem a hb)
          have hab := hrel b hb
          unfold attrKeysApart at hab
          rw [if_neg hia] at hab
          constructor
          · intro hib i
            rw [if_pos hib] at hab
            rw [hasKey_append, hfb.1 hib i]
            show (Bool.or false (decide (a.name = b.name ++ natStr i) || false)) = false
            rw [decide_eq_false (ne_of_not_idxSuffixKey hab i)]
            rfl
          · intro hib
            rw [if_neg (by rw [hib]; exact Bool.false_ne_true)] at hab
            rw [hasKey_append, hfb.2 hib]
            show (Bool.or false (decide (a.name = b.name) || false)) = false
            rw [decide_eq_false hab]
            rfl)
        hpair']
      rw [segsList, segVals, if_neg hia, ← List.append_assoc]

theorem segVals_nonidx {st : RecState} {a : AttrSpec} (hia : a.indexed = false) :
    segVals st a = [(a.name, recGetD st a)] := by
  unfold segVals
  rw [if_neg (by rw [hia]; exact Bool.false_ne_true)]

theorem segVals_idx {st : RecState} {a : AttrSpec} {xs : List PyScalar}
    (hia : a.indexed = true) (hv : recGetD st a = PyVal.list xs) :
    segVals st a = expansionPairs a.name 1 xs := by
  unfold segVals
  rw [if_pos hia, hv]

theorem not_isIdxSuffixKey_self (b : String) : ¬ isIdxSuffixKey b b := by
  rintro ⟨_, hne, _⟩
  exact hne (by simp)

theorem mem_attrs_of_defined {attrs : List AttrSpec} {st : RecState} {a : AttrSpec}
    (h : a ∈ definedAttrs attrs st) : a ∈ attrs := by
  unfold definedAttrs at h
  rcases List.mem_append.mp h with h | h
  · exact (List.mem_filter.mp h).1
  · exact (List.mem_filter.mp h).1

theorem mem_defined_required {attrs : List AttrSpec} {st : RecState} {a : AttrSpec}
    (ha : a ∈ attrs) (hd : a.dflt = none) : a ∈ definedAttrs attrs st := by
  unfold definedAttrs
  exact List.mem_append_left _ (List.mem_filter.mpr ⟨ha, by rw [hd]; rfl⟩)

theorem mem_defined_optional {attrs : List AttrSpec} {st : RecState} {a : AttrSpec} {dv : PyVal}
    (ha : a ∈ attrs) (hd : a.dflt = some dv)
    (hkeep : ¬ (dv = PyVal.noneV ∧ recGetD st a = PyVal.noneV)) :
    a ∈ definedAttrs attrs st := by
  unfold definedAttrs
  refine List.mem_append_right _ (List.mem_filter.mpr ⟨ha, ?_⟩)
  rw [hd]
  simp only [Bool.not_eq_true', Bool.and_eq_false_iff, decide_eq_false_iff_not]
  by_cases h1 : dv = PyVal.noneV
  · exact Or.inr (fun h2 => hkeep ⟨h1, h2⟩)
  · exact Or.inl h1

theorem not_mem_defined {attrs : List AttrSpec} {st : RecState} {a : AttrSpec} {dv : PyVal}
    (hd : a.dflt = some dv) (h1 : dv = PyVal.noneV) (h2 : recGetD st a = PyVal.noneV) :
    a ∉ definedAttrs attrs st := by
  intro hmem
  unfold definedAttrs at hmem
  rcases List.mem_append.mp hmem with h | h
  · have := (List.mem_filter.mp h).2
    rw [hd] at this
    simp at this
  · have := (List.mem_filter.mp h).2
    rw [hd] at this
    simp [h1, h2] at this

theorem pairwise_definedAttrs (attrs : List AttrSpec) (st : RecState)
    (hpair : List.Pairwise attrKeysApart attrs) :
    List.Pairwise attrKeysApart (definedAttrs attrs st) := by
  unfold definedAttrs
  rw [List.pairwise_append]
  refine ⟨hpair.filter _, hpair.filter _, ?_⟩
  intro x hx y hy
  have hx' := List.mem_filter.mp hx
  have hy' := List.mem_filter.mp hy
  have hxy : x ≠ y := by
    intro he
    rcases hd : y.dflt with _ | dv
    · have := hy'.2
      rw [hd] at this
      exact Bool.false_ne_true this
    · have := hx'.2
      rw [he, hd] at this
      simp at this
  exact hpair.forall (fun _ _ h => attrKeysApart_symm h) hx'.1 hy'.1 hxy

/-- A record layout with an optional attribute whose declared default is the
literal `2` rather than `None`. -/
def c7Attrs : List AttrSpec :=
  [⟨"smirks", none, false, fun v => .ok v⟩,
   ⟨"opt", some (PyVal.int 2), false, fun v => .ok v⟩]

/-- C7 counterexample: an optional attribute whose current value equals its
non-`None` declared default is still emitted by `to_dict` — the source only
drops optional attributes whose default is `None` and whose current value
is `None`, not every optional attribute equal to its default. -/
theorem toDict_optional_default_counterexample :
    toDict c7Attrs ⟨[("smirks", PyVal.str "[*:1]"), ("opt", PyVal.int 2)], []⟩ false =
      .ok [("smirks", PyVal.str "[*:1]"), ("opt", PyVal.int 2)] := by
  decide

/-- C7 (amended): `to_dict` emits every required attribute with its current
value; it emits an optional attribute (with its current value) unless the
attribute's declared default is `None` and its current value is `None` — in
particular an optional attribute whose value equals a non-`None` default is
still emitted; and every emitted indexed attribute is expanded into
suffix-numbered keys ascending from 1 holding exactly the elements of its
sequence, with no out-of-range suffix key and without the bare name. -/
theorem toDict_emission_spec (attrs : List AttrSpec) (st : RecState) (dc : Bool)
    (hpair : List.Pairwise attrKeysApart attrs)
    (hnames : (attrNames attrs).Nodup)
    (hseq : ∀ a ∈ definedAttrs attrs st, a.indexed = true → isListVal (recGetD st a) = true)
    (hcos : ∀ kv ∈ st.cosmetic, ∀ a ∈ attrs, kv.1 ≠ a.name ∧ ¬ isIdxSuffixKey a.name kv.1) :
    ∃ D, toDict attrs st dc = .ok D ∧
      (∀ a ∈ attrs, a.dflt = none → a.indexed = false →
        hasKey D a.name = true ∧ getVal D a.name = recGetD st a) ∧
      (∀ a ∈ attrs, ∀ dv, a.dflt = some dv → a.indexed = false →
        (¬ (dv = PyVal.noneV ∧ recGetD st a = PyVal.noneV) →
          hasKey D a.name = true ∧ getVal D a.name = recGetD st a) ∧
        (dv = PyVal.noneV → recGetD st a = PyVal.noneV → hasKey D a.name = false)) ∧
      (∀ a ∈ definedAttrs attrs st, a.indexed = true →
        ∀ xs, recGetD st a = PyVal.list xs →
          (∀ j, (hj : j < xs.length) →
            hasKey D (a.name ++ natStr (j + 1)) = true ∧
            getVal D (a.name ++ natStr (j + 1)) = PyVal.base (xs.get ⟨j, hj⟩)) ∧
          (∀ m, m = 0 ∨ xs.length < m → hasKey D (a.name ++ natStr m) = false) ∧
          hasKey D a.name = false) := by
  have pall : ∀ {x y : AttrSpec}, x ∈ attrs → y ∈ attrs → x ≠ y → attrKeysApart x y :=
    fun hx hy hxy => hpair.forall (fun _ _ h => attrKeysApart_symm h) hx hy hxy
  have hinj : ∀ {x y : AttrSpec}, x ∈ attrs → y ∈ attrs → x.name = y.name → x = y :=
    fun hx hy he => List.inj_on_of_nodup_map hnames hx hy he
  have hpairL := pairwise_definedAttrs attrs st hpair
  have hloop := toDictLoop_ok st (definedAttrs attrs st) [] hseq
    (fun a _ => ⟨fun _ i => rfl, fun _ => rfl⟩) hpairL
  have htrans : ∀ k : String, (∀ kv ∈ st.cosmetic, kv.1 ≠ k) →
      hasKey (if dc = true then segsList st (definedAttrs attrs st)
        else st.cosmetic.foldl (fun d kv => setVal d kv.1 kv.2)
          (segsList st (definedAttrs attrs st))) k
        = hasKey (segsList st (definedAttrs attrs st)) k ∧
      getVal (if dc = true then segsList st (definedAttrs attrs st)
        else st.cosmetic.foldl (fun d kv => setVal d kv.1 kv.2)
          (segsList st (definedAttrs attrs st))) k
        = getVal (segsList st (definedAttrs attrs st)) k := by
    intro k hk
    cases dc
    · rw [if_neg Bool.false_ne_true]
      exact ⟨cosFold_hasKey _ _ _ hk, cosFold_getVal _ _ _ hk⟩
    · rw [if_pos rfl]
      exact ⟨rfl, rfl⟩
  refine ⟨if dc = true then segsList st (definedAttrs attrs st)
    else st.cosmetic.foldl (fun d kv => setVal d kv.1 kv.2)
      (segsList st (definedAttrs attrs st)), ?_, ?_, ?_, ?_⟩
  · rw [toDict, hloop]
    cases dc <;> rfl
  · intro a ha hd hia
    have haL : a ∈ definedAttrs attrs st := mem_defined_required ha hd
    have hemit : attrEmitsKey a a.name := by
      unfold attrEmitsKey
      rw [if_neg (by rw [hia]; exact Bool.false_ne_true)]
    have hown := segsList_hasKey_mem st _ hpairL a haL a.name hemit
    have hsv := @segVals_nonidx st a hia
    obtain ⟨hH, hG⟩ := htrans a.name (fun kv hkv => (hcos kv hkv a ha).1)
    constructor
    · rw [hH, hown.1, hsv]
      simp [hasKey]
    · rw [hG, hown.2 (by rw [hsv]; simp [hasKey]), hsv]
      simp [getVal]
  · intro a ha dv hd hia
    have hemit : attrEmitsKey a a.name := by
      unfold attrEmitsKey
      rw [if_neg (by rw [hia]; exact Bool.false_ne_true)]
    obtain ⟨hH, hG⟩ := htrans a.name (fun kv hkv => (hcos kv hkv a ha).1)
    constructor
    · intro hkeep
      have haL := mem_defined_optional ha hd hkeep
      have hown := segsList_hasKey_mem st _ hpairL a haL a.name hemit
      have hsv := @segVals_nonidx st a hia
      constructor
      · rw [hH, hown.1, hsv]
        simp [hasKey]
      · rw [hG, hown.2 (by rw [hsv]; simp [hasKey]), hsv]
        simp [getVal]
    · intro h1 h2
      have hnot := @not_mem_defined attrs st a dv hd h1 h2
      rw [hH]
      refine segsList_absent st _ a.name ?_
      intro b hb hbe
      unfold attrEmitsKey at hbe
      by_cases hib : b.indexed = true
      · rw [if_pos hib] at hbe
        have hba : b ≠ a := fun he => by
          rw [he, hia] at hib
          exact Bool.false_ne_true hib
        have hap := pall (mem_attrs_of_defined hb) ha hba
        unfold attrKeysApart at hap
        rw [if_pos hib, if_neg (by rw [hia]; exact Bool.false_ne_true)] at hap
        exact hap hbe
      · rw [if_neg hib] at hbe
        exact hnot ((hinj (mem_attrs_of_defined hb) ha hbe.symm) ▸ hb)
  · intro a haL hia xs hv
    have ha := mem_attrs_of_defined haL
    have hsv := @segVals_idx st a xs hia hv
    have hkcos2 : ∀ m : Nat, ∀ kv ∈ st.cosmetic, kv.1 ≠ a.name ++ natStr m :=
      fun m kv hkv => ne_of_not_idxSuffixKey (hcos kv hkv a ha).2 m
    refine ⟨?_, ?_, ?_⟩
    · intro j hj
      have hemit : attrEmitsKey a (a.name ++ natStr (j + 1)) := by
        unfold attrEmitsKey
        rw [if_pos hia]
        exact isIdxSuffixKey_natStr a.name (j + 1)
      have hown := segsList_hasKey_mem st _ hpairL a haL _ hemit
      obtain ⟨hH, hG⟩ := htrans (a.name ++ natStr (j + 1)) (hkcos2 (j + 1))
      have hexp := expansionPairs_getVal a.name xs 1 j hj
      rw [show 1 + j = j + 1 by omega] at hexp
      constructor
      · rw [hH, hown.1, hsv, hexp.1]
      · rw [hG, hown.2 (by rw [hsv]; exact hexp.1), hsv, hexp.2]
    · intro m hm
      have hemit : attrEmitsKey a (a.name ++ natStr m) := by
        unfold attrEmitsKey
        rw [if_pos hia]
        exact isIdxSuffixKey_natStr a.name m
      have hown := segsList_hasKey_mem st _ hpairL a haL _ hemit
      obtain ⟨hH, _⟩ := htrans (a.name ++ natStr m) (hkcos2 m)
      rw [hH, hown.1, hsv, expansionPairs_hasKey_out a.name xs 1 m (by omega)]
    · obtain ⟨hH, _⟩ := htrans a.name (fun kv hkv => (hcos kv hkv a ha).1)
      rw [hH]
      refine segsList_absent st _ a.name ?_
      intro b hb hbe
      unfold attrEmitsKey at hbe
      by_cases hib : b.indexed = true
      · rw [if_pos hib] at hbe
        by_cases hba : b = a
        · rw [hba] at hbe
          exact not_isIdxSuffixKey_self a.name hbe
        · have hap := pall (mem_attrs_of_defined hb) ha hba
          unfold attrKeysApart at hap
          rw [if_pos hib, if_pos hia] at hap
          exact hap.1 hbe.1
      · rw [if_neg hib] at hbe
        have hba : b ≠ a := fun he => hib (by rw [he]; exact hia)
        exact hba (hinj (mem_attrs_of_defined hb) ha hbe.symm)

/-- A concrete proper-torsion record state: all required attributes set,
one-element indexed sequences, `idivf` left at its `None` default, one
cosmetic attribute. -/
def c7State : RecState :=
  ⟨[("smirks", PyVal.str "[*:1]~[*:2]~[*:3]~[*:4]"),
    ("periodicity", PyVal.list [PyScalar.int 2]),
    ("phase", PyVal.list [PyScalar.int 0]),
    ("k", PyVal.list [PyScalar.rat (7 / 10)])],
   [("parens", PyVal.str "custom")]⟩

/-- Witness for C7 at a concrete torsion record. -/
theorem toDict_emission_spec_witness :
    ∃ D, toDict properTorsionAttrs c7State false = .ok D ∧
      (∀ a ∈ properTorsionAttrs, a.dflt = none → a.indexed = false →
        hasKey D a.name = true ∧ getVal D a.name = recGetD c7State a) ∧
      (∀ a ∈ properTorsionAttrs, ∀ dv, a.dflt = some dv → a.indexed = false →
        (¬ (dv = PyVal.noneV ∧ recGetD c7State a = PyVal.noneV) →
          hasKey D a.name = true ∧ getVal D a.name = recGetD c7State a) ∧
        (dv = PyVal.noneV → recGetD c7State a = PyVal.noneV → hasKey D a.name = false)) ∧
      (∀ a ∈ definedAttrs properTorsionAttrs c7State, a.indexed = true →
        ∀ xs, recGetD c7State a = PyVal.list xs →
          (∀ j, (hj : j < xs.length) →
            hasKey D (a.name ++ natStr (j + 1)) = true ∧
            getVal D (a.name ++ natStr (j + 1)) = PyVal.base (xs.get ⟨j, hj⟩)) ∧
          (∀ m, m = 0 ∨ xs.length < m → hasKey D (a.name ++ natStr m) = false) ∧
          hasKey D a.name = false) :=
  toDict_emission_spec properTorsionAttrs c7State false (by decide) (by decide)
    (by decide) (by decide)

/-! ## C4: fractional bond order interpolation in `BondHandler.create_force` -/

theorem mem_setVal : ∀ {d : KVList} {k : String} {v : PyVal} {kv : String × PyVal},
    kv ∈ setVal d k v → kv ∈ d ∨ kv.1 = k := by
  intro d
  induction d with
  | nil =>
    intro k v kv h
    rcases List.mem_singleton.mp h with rfl
    exact Or.inr rfl
  | cons kv' rest ih =>
    intro k v kv h
    rw [setVal] at h
    by_cases hk : kv'.1 = k
    · rw [if_pos hk] at h
      rcases List.mem_cons.mp h with rfl | hm
      · exact Or.inr rfl
      · exact Or.inl (List.mem_cons_of_mem kv' hm)
    · rw [if_neg hk] at h
      rcases List.mem_cons.mp h with rfl | hm
      · exact Or.inl (List.mem_cons_self kv rest)
      · rcases ih hm with hm' | he
        · exact Or.inl (List.mem_cons_of_mem kv' hm')
        · exact Or.inr he

/-- Every instance attribute stored by the assignment loop of
`ParameterHandler.__init__` carries the `_` prefix. -/
theorem handlerAssign_keys_underscore (cls : HandlerClass) (ac : Bool) :
    ∀ (kw : KVList) (st st' : HandlerState),
      (∀ kv ∈ st.attrs, kv.1.data.head? = some '_') →
      handlerAssign cls ac kw st = .ok st' →
      ∀ kv ∈ st'.attrs, kv.1.data.head? = some '_' := by
  intro kw
  induction kw with
  | nil =>
    intro st st' hinv h
    cases h
    exact hinv
  | cons e rest ih =>
    intro st st' hinv h
    rw [handlerAssign] at h
    have hstep : ∀ v : PyVal, ∀ kv, kv ∈ setVal st.attrs ("_" ++ e.1) v →
        kv.1.data.head? = some '_' := by
      intro v kv hm
      rcases mem_setVal hm with hm' | he
      · exact hinv kv hm'
      · rw [he]
        rfl
    by_cases h1 : some e.1 = cls.elementName
    · rw [if_pos h1] at h
      exact ih st st' hinv h
    · rw [if_neg h1] at h
      by_cases h2 : e.1 ∈ cls.requiredSpecAttribs ∨ hasKey cls.defaultSpecAttribs e.1 = true ∨
          e.1 ∈ cls.optionalSpecAttribs
      · rw [if_pos h2] at h
        exact ih _ st' (hstep e.2) h
      · rw [if_neg h2] at h
        by_cases h3 : ac = true
        · rw [if_pos h3] at h
          exact ih _ st' (hstep e.2) h
        · rw [if_neg h3] at h
          exact absurd h (by simp)

/-- Every instance attribute of a constructed handler carries the `_`
prefix. -/
theorem handlerInit_keys_underscore {cls : HandlerClass} {ac svc : Bool} {kwargs : KVList}
    {st : HandlerState} (h : handlerInit cls ac svc kwargs = .ok st) :
    ∀ kv ∈ st.attrs, kv.1.data.head? = some '_' := by
  unfold handlerInit at h
  rcases hv : handlerVersionStep cls svc kwargs with e | kw0 <;> rw [hv] at h <;> dsimp only at h
  · exact absurd h (by simp)
  · by_cases hreq : (cls.requiredSpecAttribs.filter (fun r => !(hasKey kw0 r))) ≠ []
    · rw [if_pos hreq] at h
      exact absurd h (by simp)
    · rw [if_neg hreq] at h
      by_cases hidx : (cls.indexedAttribs.any fun b => hasKey kw0 (b ++ natStr 1)) = true
      · rw [if_pos hidx] at h
        exact absurd h (by simp)
      · rw [if_neg hidx] at h
        by_cases hu : (List.any (handlerApplyDefaults cls (handlerApplyCasts cls kw0))
            fun kv => decide (kv.1 ∈ cls.requireUnits) && !(cls.unitsCompatible kv.1 kv.2)) = true
        · rw [if_pos hu] at h
          exact absurd h (by simp)
        · rw [if_neg hu] at h
          exact handlerAssign_keys_underscore cls ac _ ⟨[], []⟩ st (by simp) h

/-- The per-bond parameter computation of `BondHandler.create_force` for one
matched bond: with no fractional bond order the record's `k` and `length`
are used as is; with a fractional bond order the code reads
`self.fractional_bondorder_interpolation` — plain, unprefixed instance
attribute access — compares it against the literal `'interpolate-linear'`,
and only then interpolates `v0 + (v1 - v0) * (order - 1)` from the two
tabulated per-order values; any other mode formats
`self.fractional_bondorder_method` (also unprefixed) into a raised
`Exception`. -/
def bondComputeKLength (st : HandlerState) (fractionalBondOrder : Option ℚ)
    (k length : PyVal) : Except PErr (PyVal × PyVal) :=
  match fractionalBondOrder with
  | none => .ok (k, length)
  | some order =>
    match handlerGetAttr st "fractional_bondorder_interpolation" with
    | .error e => .error e
    | .ok v =>
      if v = PyVal.str "interpolate-linear" then
        match k, length with
        | PyVal.list [PyScalar.rat k0, PyScalar.rat k1],
          PyVal.list [PyScalar.rat l0, PyScalar.rat l1] =>
          .ok (PyVal.rat (k0 + (k1 - k0) * (order - 1)),
               PyVal.rat (l0 + (l1 - l0) * (order - 1)))
        | _, _ => .error (.typeErr "two tabulated per-order values expected")
      else
        match handlerGetAttr st "fractional_bondorder_method" with
        | .error e => .error e
        | .ok _ => .error (.notImplErr "Partial bondorder treatment is not implemented.")

/-- C4 (code bug): on any handler actually produced by the `BondHandler`
constructor, every bond match carrying a fractional bond order makes
`create_force` raise `AttributeError` on `fractional_bondorder_interpolation`
— the constructor stored the attribute under the `_`-prefixed name, and the
per-bond computation reads it without the prefix — so linear interpolation
is never performed (and, independently, the guard compares against
`'interpolate-linear'` while the configured linear mode is spelled
`'linear'`). -/
theorem bond_fractional_order_attribute_error (ac svc : Bool) (kwargs : KVList)
    (st : HandlerState) (h : handlerInit bondHandlerCls ac svc kwargs = .ok st)
    (order : ℚ) (k length : PyVal) :
    bondComputeKLength st (some order) k length =
      .error (.attrErr "fractional_bondorder_interpolation") := by
  have hkeys := handlerInit_keys_underscore h
  have hK : hasKey st.attrs "fractional_bondorder_interpolation" = false := by
    refine (hasKey_eq_false_iff _ _).mpr ?_
    intro kv hm he
    have hh := hkeys kv hm
    rw [he] at hh
    simp at hh
  unfold bondComputeKLength
  rw [handlerGetAttr, hK, if_neg Bool.false_ne_true]

/-- Witness for C4: a `BondHandler` constructed with only a version kwarg
stores its defaults under `_`-prefixed names, and the fractional-bond-order
path then fails with `AttributeError`. -/
theorem bond_fractional_order_attribute_error_witness :
    handlerInit bondHandlerCls true true [("version", PyVal.str "0.3")] =
      .ok ⟨[("_version", PyVal.str "0.3"), ("_potential", PyVal.str "harmonic"),
            ("_fractional_bondorder_method", PyVal.noneV),
            ("_fractional_bondorder_interpolation", PyVal.str "linear")], []⟩ ∧
    bondComputeKLength
        ⟨[("_version", PyVal.str "0.3"), ("_potential", PyVal.str "harmonic"),
          ("_fractional_bondorder_method", PyVal.noneV),
          ("_fractional_bondorder_interpolation", PyVal.str "linear")], []⟩
        (some (6 / 5))
        (PyVal.list [PyScalar.rat 1, PyScalar.rat 2])
        (PyVal.list [PyScalar.rat 3, PyScalar.rat 4]) =
      .error (.attrErr "fractional_bondorder_interpolation") :=
  ⟨rfl,
   bond_fractional_order_attribute_error true true [("version", PyVal.str "0.3")] _ rfl
     (6 / 5) _ _⟩

/-! ## C5: `ProperTorsionHandler.create_force` term emission -/

/-- One engine-level torsion term, as registered by `force.addTorsion`. -/
structure TorsionTerm where
  atomIndices : List Nat
  periodicity : PyScalar
  phase : PyScalar
  k : ℚ
  deriving Repr, DecidableEq

/-- Numeric reading of a Python scalar (int or float). -/
def toRatQ : PyScalar → Option ℚ
  | .int n => some (n : ℚ)
  | .rat q => some q
  | _ => none

/-- The inner loop of `ProperTorsionHandler.create_force` for one matched
quartet: `zip` over the record's parallel `periodicity`, `phase`, `k`,
`idivf` sequences (stopping at the shortest, as `zip` does), raising
`NotImplementedError` on a per-term `idivf` equal to the string `'auto'`,
and otherwise emitting one term with force constant `k / idivf`
(`ZeroDivisionError` on a zero divisor, `TypeError` on non-numeric
operands). -/
def properTorsionTerms (atomIndices : List Nat) :
    List PyScalar → List PyScalar → List PyScalar → List PyScalar →
      Except PErr (List TorsionTerm)
  | p :: ps, ph :: phs, kk :: ks, i :: is' =>
    if i = PyScalar.str "auto" then
      .error (.notImplErr
        "The OpenForceField toolkit hasn't implemented support for the torsion idivf value of auto")
    else
      match toRatQ kk, toRatQ i with
      | some kq, some iq =>
        if iq = 0 then .error .zeroDivErr
        else
          match properTorsionTerms atomIndices ps phs ks is' with
          | .error e => .error e
          | .ok ts => .ok (⟨atomIndices, p, ph, kq / iq⟩ :: ts)
      | _, _ => .error (.typeErr "unsupported operand type for division")
  | _, _, _, _ => .ok []

/-- The terms the spec predicts: one per index of the zipped parallel
sequences, with force constant `k / idivf`. -/
def torsionZip (ai : List Nat) (ps phs : List PyScalar) (kqs iqs : List ℚ) :
    List TorsionTerm :=
  (ps.zip (phs.zip (kqs.zip iqs))).map (fun e => ⟨ai, e.1, e.2.1, e.2.2.1 / e.2.2.2⟩)

theorem properTorsionTerms_ok (ai : List Nat) :
    ∀ (ps phs : List PyScalar) (kqs iqs : List ℚ),
      (∀ q ∈ iqs, q ≠ 0) →
      properTorsionTerms ai ps phs (kqs.map PyScalar.rat) (iqs.map PyScalar.rat) =
        .ok (torsionZip ai ps phs kqs iqs) := by
  intro ps
  induction ps with
  | nil => intro phs kqs iqs _; rfl
  | cons p ps ih =>
    intro phs kqs iqs hnz
    rcases phs with _ | ⟨ph, phs⟩
    · rfl
    rcases kqs with _ | ⟨kq, kqs⟩
    · rfl
    rcases iqs with _ | ⟨iq, iqs⟩
    · rfl
    rw [show (kq :: kqs).map PyScalar.rat = PyScalar.rat kq :: kqs.map PyScalar.rat from rfl,
      show (iq :: iqs).map PyScalar.rat = PyScalar.rat iq :: iqs.map PyScalar.rat from rfl,
      properTorsionTerms]
    rw [if_neg (show ¬ (PyScalar.rat iq = PyScalar.str "auto") from fun h => by cases h)]
    dsimp only [toRatQ]
    rw [if_neg (hnz iq (List.mem_cons_self iq iqs))]
    rw [ih phs kqs iqs (fun q hq => hnz q (List.mem_cons_of_mem iq hq))]
    rfl

theorem properTorsionTerms_auto (ai : List Nat) :
    ∀ (iqs : List ℚ) (ps phs : List PyScalar) (kqs : List ℚ)
      (p' ph' k' : PyScalar) (ps' phs' ks' is'' : List PyScalar),
      ps.length = iqs.length → phs.length = iqs.length → kqs.length = iqs.length →
      (∀ q ∈ iqs, q ≠ 0) →
      properTorsionTerms ai (ps ++ p' :: ps') (phs ++ ph' :: phs')
          (kqs.map PyScalar.rat ++ k' :: ks')
          (iqs.map PyScalar.rat ++ PyScalar.str "auto" :: is'') =
        .error (.notImplErr
          "The OpenForceField toolkit hasn't implemented support for the torsion idivf value of auto") := by
  intro iqs
  induction iqs with
  | nil =>
    intro ps phs kqs p' ph' k' ps' phs' ks' is'' hp hph hk _
    simp only [List.length_nil] at hp hph hk
    rw [List.length_eq_zero] at hp hph hk
    subst hp hph hk
    rw [List.nil_append, List.nil_append, List.map_nil, List.nil_append, List.nil_append,
      properTorsionTerms, if_pos rfl]
  | cons iq iqs ih =>
    intro ps phs kqs p' ph' k' ps' phs' ks' is'' hp hph hk hnz
    rcases ps with _ | ⟨p, ps⟩
    · simp at hp
    rcases phs with _ | ⟨ph, phs⟩
    · simp at hph
    rcases kqs with _ | ⟨kq, kqs⟩
    · simp at hk
    rw [show ((kq :: kqs).map PyScalar.rat ++ k' :: ks') =
        PyScalar.rat kq :: (kqs.map PyScalar.rat ++ k' :: ks') from rfl,
      show ((iq :: iqs).map PyScalar.rat ++ PyScalar.str "auto" :: is'') =
        PyScalar.rat iq :: (iqs.map PyScalar.rat ++ PyScalar.str "auto" :: is'') from rfl,
      List.cons_append, List.cons_append, properTorsionTerms]
    rw [if_neg (show ¬ (PyScalar.rat iq = PyScalar.str "auto") from fun h => by cases h)]
    dsimp only [toRatQ]
    rw [if_neg (hnz iq (List.mem_cons_self iq iqs))]
    rw [ih ps phs kqs p' ph' k' ps' phs' ks' is''
      (by simpa using hp) (by simpa using hph) (by simpa using hk)
      (fun q hq => hnz q (List.mem_cons_of_mem iq hq))]

/-- C5: for every matched proper-torsion quartet, `create_force` emits
exactly one engine torsion term per index of the record's zipped parallel
`(periodicity, phase, k, idivf)` sequences, with force constant `k`
divided by the corresponding `idivf` divisor; and a per-term divisor equal
to the unresolved string `'auto'` raises `NotImplementedError` instead of
substituting a default.  (Record construction guarantees the parallel
sequences have equal lengths, so the zip covers every index.) -/
theorem properTorsion_term_emission_spec :
    (∀ (ai : List Nat) (ps phs : List PyScalar) (kqs iqs : List ℚ),
        (∀ q ∈ iqs, q ≠ 0) →
        properTorsionTerms ai ps phs (kqs.map PyScalar.rat) (iqs.map PyScalar.rat) =
          .ok (torsionZip ai ps phs kqs iqs)) ∧
    (∀ (ai : List Nat) (ps phs : List PyScalar) (kqs iqs : List ℚ),
        ps.length = iqs.length → phs.length = iqs.length → kqs.length = iqs.length →
        (torsionZip ai ps phs kqs iqs).length = iqs.length) ∧
    (∀ (ai : List Nat) (ps phs : List PyScalar) (kqs iqs : List ℚ) (j : Nat)
        (hj : j < iqs.length) (hjp : j < ps.length) (hjph : j < phs.length)
        (hjk : j < kqs.length) (hjt : j < (torsionZip ai ps phs kqs iqs).length),
        (torsionZip ai ps phs kqs iqs).get ⟨j, hjt⟩ =
          ⟨ai, ps.get ⟨j, hjp⟩, phs.get ⟨j, hjph⟩, kqs.get ⟨j, hjk⟩ / iqs.get ⟨j, hj⟩⟩) ∧
    (∀ (ai : List Nat) (iqs : List ℚ) (ps phs : List PyScalar) (kqs : List ℚ)
        (p' ph' k' : PyScalar) (ps' phs' ks' is'' : List PyScalar),
        ps.length = iqs.length → phs.length = iqs.length → kqs.length = iqs.length →
        (∀ q ∈ iqs, q ≠ 0) →
        properTorsionTerms ai (ps ++ p' :: ps') (phs ++ ph' :: phs')
            (kqs.map PyScalar.rat ++ k' :: ks')
            (iqs.map PyScalar.rat ++ PyScalar.str "auto" :: is'') =
          .error (.notImplErr
            "The OpenForceField toolkit hasn't implemented support for the torsion idivf value of auto")) := by
  refine ⟨properTorsionTerms_ok, ?_, ?_, fun ai => properTorsionTerms_auto ai⟩
  · intro ai ps phs kqs iqs hp hph hk
    simp only [torsionZip, List.length_map, List.length_zip, hp, hph, hk]
    omega
  · intro ai ps phs kqs iqs j hj hjp hjph hjk hjt
    simp [torsionZip, List.get_eq_getElem, List.getElem_map, List.getElem_zip]

/-- Witness for C5 at the spec's example record: `periodicity1=2, phase1=0,
k1=1, idivf1=1` and `periodicity2=3, phase2=180, k2=2, idivf2=2` emit
exactly two terms with force constants `1` and `1 = 2/2`; and an `'auto'`
divisor in the second slot raises instead. -/
theorem properTorsion_term_emission_spec_witness :
    properTorsionTerms [0, 1, 2, 3] [PyScalar.int 2, PyScalar.int 3]
        [PyScalar.int 0, PyScalar.int 180]
        (([1, 2] : List ℚ).map PyScalar.rat) (([1, 2] : List ℚ).map PyScalar.rat) =
      .ok (torsionZip [0, 1, 2, 3] [PyScalar.int 2, PyScalar.int 3]
        [PyScalar.int 0, PyScalar.int 180] [1, 2] [1, 2]) ∧
    torsionZip [0, 1, 2, 3] [PyScalar.int 2, PyScalar.int 3]
        [PyScalar.int 0, PyScalar.int 180] [1, 2] [1, 2] =
      [⟨[0, 1, 2, 3], PyScalar.int 2, PyScalar.int 0, 1⟩,
       ⟨[0, 1, 2, 3], PyScalar.int 3, PyScalar.int 180, 1⟩] ∧
    properTorsionTerms [0, 1, 2, 3] ([PyScalar.int 2] ++ PyScalar.int 3 :: [])
        ([PyScalar.int 0] ++ PyScalar.int 180 :: [])
        (([1] : List ℚ).map PyScalar.rat ++ PyScalar.rat 2 :: [])
        (([1] : List ℚ).map PyScalar.rat ++ PyScalar.str "auto" :: []) =
      .error (.notImplErr
        "The OpenForceField toolkit hasn't implemented support for the torsion idivf value of auto") :=
  ⟨properTorsion_term_emission_spec.1 [0, 1, 2, 3] _ _ [1, 2] [1, 2] (by decide),
   by norm_num [torsionZip],
   properTorsion_term_emission_spec.2.2.2 [0, 1, 2, 3] [1] [PyScalar.int 2] [PyScalar.int 0] [1]
     (PyScalar.int 3) (PyScalar.int 180) (PyScalar.rat 2) [] [] [] []
     (by decide) (by decide) (by decide) (by decide)⟩

/-! ## C9/C10: `ImproperTorsionHandler.create_force` -/

/-- An `ImproperTorsionType` record: `smirks`, the parallel indexed
sequences, and `idivf` which defaults to `None`. -/
structure ImproperRec where
  smirks : PyVal
  periodicity : List PyScalar
  phase : List PyScalar
  k : List PyScalar
  idivf : Option (List PyScalar)
  deriving Repr, DecidableEq

/-- The in-place `idivf` preparation at the top of the improper match loop:
`if improper.idivf is None: improper.idivf = [3 for item in improper.k]`.
The assignment mutates the very record object held by the handler's
`ParameterList`. -/
def improperPrepared (r : ImproperRec) : ImproperRec :=
  match r.idivf with
  | none => { r with idivf := some (r.k.map (fun _ => PyScalar.int 3)) }
  | some _ => r

/-- The attribute store of an `ImproperTorsionType` record as seen by the
descriptor framework: the indexed sequences, plus `idivf` only when set. -/
def improperState (r : ImproperRec) : RecState :=
  ⟨[("smirks", r.smirks), ("periodicity", PyVal.list r.periodicity),
    ("phase", PyVal.list r.phase), ("k", PyVal.list r.k)] ++
    (match r.idivf with
     | some xs => [("idivf", PyVal.list xs)]
     | none => []), []⟩

/-- The three paths around the trefoil: the non-central atoms
`[a[0], a[2], a[3]]` cyclically permuted. -/
def trefoilPaths (ai : List Nat) : List (Nat × Nat × Nat) :=
  match ai with
  | [a0, _, a2, a3] => [(a0, a2, a3), (a2, a3, a0), (a3, a0, a2)]
  | _ => []

/-- The zipped emission loop for one matched improper quartet: an `'auto'`
per-term `idivf` is substituted by `3` (with only a logged warning), and
each index emits three torsion terms — one per trefoil path — with force
constant `k / idivf` and the central atom `a[1]` first. -/
def improperTorsionTerms (ai : List Nat) :
    List PyScalar → List PyScalar → List PyScalar → List PyScalar →
      Except PErr (List TorsionTerm)
  | p :: ps, ph :: phs, kk :: ks, i :: is' =>
    match toRatQ kk, toRatQ (if i = PyScalar.str "auto" then PyScalar.int 3 else i) with
    | some kq, some iq =>
      if iq = 0 then .error .zeroDivErr
      else
        match improperTorsionTerms ai ps phs ks is' with
        | .error e => .error e
        | .ok ts =>
          .ok ((trefoilPaths ai).map
            (fun pa => ⟨[ai.getD 1 0, pa.1, pa.2.1, pa.2.2], p, ph, kq / iq⟩) ++ ts)
    | _, _ => .error (.typeErr "unsupported operand type for division")
  | _, _, _, _ => .ok []

/-- The match loop of `ImproperTorsionHandler.create_force`: prepare each
matched record's `idivf` and emit its trefoil terms, in match order. -/
def improperForceTerms : List (List Nat × ImproperRec) → Except PErr (List TorsionTerm)
  | [] => .ok []
  | m :: rest =>
    match improperTorsionTerms m.1 (improperPrepared m.2).periodicity
        (improperPrepared m.2).phase (improperPrepared m.2).k
        ((improperPrepared m.2).idivf.getD []) with
    | .error e => .error e
    | .ok ts =>
      match improperForceTerms rest with
      | .error e => .error e
      | .ok ts' => .ok (ts ++ ts')

/-- `ImproperTorsionHandler.create_force`, emission and audit: the emitted
terms come from the matches alone, and — unlike the bond, angle and
proper-torsion handlers — the method body contains no
`_check_all_valence_terms_assigned` call, so the topology's improper list
(received as an argument) is never audited and the audit component is
always `none`. -/
def improperCreateForce (ms : List (List Nat × ImproperRec))
    (_topologyImpropers : List (List Nat)) :
    Except PErr (List TorsionTerm) × Option ValenceError :=
  (improperForceTerms ms, none)

/-- The audit call closing `BondHandler.create_force`. -/
def bondCreateForceAudit (assignedKeys valenceTerms : List (List Nat)) : Option ValenceError :=
  checkAllValenceTermsAssigned "BondHandler" assignedKeys valenceTerms

/-- The audit call closing `AngleHandler.create_force`. -/
def angleCreateForceAudit (assignedKeys valenceTerms : List (List Nat)) : Option ValenceError :=
  checkAllValenceTermsAssigned "AngleHandler" assignedKeys valenceTerms

/-- The audit call closing `ProperTorsionHandler.create_force`. -/
def properCreateForceAudit (assignedKeys valenceTerms : List (List Nat)) : Option ValenceError :=
  checkAllValenceTermsAssigned "ProperTorsionHandler" assignedKeys valenceTerms

/-- C9: `ImproperTorsionHandler.create_force` never performs the
completeness audit — its result is independent of the topology's improper
list and its audit component is always `none` — whereas the bond, angle and
proper-torsion handlers each end `create_force` with a
`_check_all_valence_terms_assigned` call; on a topology with one improper
quartet and no match the proper-style audit would raise while the improper
handler is silent. -/
theorem improper_create_force_no_audit :
    (∀ (ms : List (List Nat × ImproperRec)) (vt vt' : List (List Nat)),
        (improperCreateForce ms vt).2 = none ∧
        improperCreateForce ms vt = improperCreateForce ms vt') ∧
    (∀ (assigned vt : List (List Nat)),
        bondCreateForceAudit assigned vt =
          checkAllValenceTermsAssigned "BondHandler" assigned vt ∧
        angleCreateForceAudit assigned vt =
          checkAllValenceTermsAssigned "AngleHandler" assigned vt ∧
        properCreateForceAudit assigned vt =
          checkAllValenceTermsAssigned "ProperTorsionHandler" assigned vt) ∧
    (properCreateForceAudit [] [[0, 1, 2, 3]] =
        some ⟨"ProperTorsionHandler", [canonKey [0, 1, 2, 3]], []⟩ ∧
      (improperCreateForce [] [[0, 1, 2, 3]]).2 = none) :=
  ⟨fun ms vt vt' => ⟨rfl, rfl⟩,
   fun assigned vt => ⟨rfl, rfl, rfl⟩,
   by decide, rfl⟩

/-- C10: `ImproperTorsionHandler.create_force` mutates the matched record
itself — a record whose `idivf` is `None` gets `[3, 3, …]` (one `3` per
force constant) assigned to `idivf`, while a record with `idivf` set is
untouched — and the mutated record then serializes differently: its
`to_dict` gains the ascending `idivf1, …` keys that the original
serialization did not contain. -/
theorem improper_idivf_mutation_spec :
    (∀ r : ImproperRec, r.idivf = none →
        improperPrepared r = { r with idivf := some (r.k.map (fun _ => PyScalar.int 3)) }) ∧
    (∀ (r : ImproperRec) (xs : List PyScalar), r.idivf = some xs → improperPrepared r = r) ∧
    (∀ r : ImproperRec, r.idivf = none →
        ∃ D D', toDict properTorsionAttrs (improperState r) false = .ok D ∧
          toDict properTorsionAttrs (improperState (improperPrepared r)) false = .ok D' ∧
          hasKey D ("idivf" ++ natStr 1) = false ∧
          (r.k ≠ [] → hasKey D' ("idivf" ++ natStr 1) = true ∧ D ≠ D')) := by
  refine ⟨?_, ?_, ?_⟩
  · intro r h
    rw [improperPrepared, h]
  · intro r xs h
    rw [improperPrepared, h]
  · intro r hidivf
    have hst : improperState r =
        ⟨[("smirks", r.smirks), ("periodicity", PyVal.list r.periodicity),
          ("phase", PyVal.list r.phase), ("k", PyVal.list r.k)], []⟩ := by
      rw [improperState, hidivf]
      rfl
    have hst' : improperState (improperPrepared r) =
        ⟨[("smirks", r.smirks), ("periodicity", PyVal.list r.periodicity),
          ("phase", PyVal.list r.phase), ("k", PyVal.list r.k),
          ("idivf", PyVal.list (r.k.map (fun _ => PyScalar.int 3)))], []⟩ := by
      rw [improperPrepared, hidivf, improperState]
      rfl
    refine ⟨[("smirks", r.smirks)] ++
        (expansionPairs "periodicity" 1 r.periodicity ++
          (expansionPairs "phase" 1 r.phase ++ (expansionPairs "k" 1 r.k ++ []))),
      [("smirks", r.smirks)] ++
        (expansionPairs "periodicity" 1 r.periodicity ++
          (expansionPairs "phase" 1 r.phase ++
            (expansionPairs "k" 1 r.k ++
              (expansionPairs "idivf" 1 (r.k.map (fun _ => PyScalar.int 3)) ++ [])))),
      ?_, ?_, ?_, ?_⟩
    · rw [hst]
      have hseq : ∀ a ∈ definedAttrs properTorsionAttrs
          ⟨[("smirks", r.smirks), ("periodicity", PyVal.list r.periodicity),
            ("phase", PyVal.list r.phase), ("k", PyVal.list r.k)], []⟩,
          a.indexed = true → isListVal (recGetD
            ⟨[("smirks", r.smirks), ("periodicity", PyVal.list r.periodicity),
              ("phase", PyVal.list r.phase), ("k", PyVal.list r.k)], []⟩ a) = true := by
        intro a ha
        have ha' : a ∈ [(⟨"smirks", none, false, fun v => .ok v⟩ : AttrSpec),
            ⟨"periodicity", none, true, fun v => .ok v⟩,
            ⟨"phase", none, true, fun v => .ok v⟩,
            ⟨"k", none, true, fun v => .ok v⟩] := ha
        fin_cases ha' <;> intro h
        · exact absurd h (by decide)
        · rfl
        · rfl
        · rfl
      have hpairL : List.Pairwise attrKeysApart (definedAttrs properTorsionAttrs
          ⟨[("smirks", r.smirks), ("periodicity", PyVal.list r.periodicity),
            ("phase", PyVal.list r.phase), ("k", PyVal.list r.k)], []⟩) := by
        show List.Pairwise attrKeysApart [(⟨"smirks", none, false, fun v => .ok v⟩ : AttrSpec),
          ⟨"periodicity", none, true, fun v => .ok v⟩,
          ⟨"phase", none, true, fun v => .ok v⟩,
          ⟨"k", none, true, fun v => .ok v⟩]
        decide
      unfold toDict
      rw [toDictLoop_ok _ _ [] hseq (fun a _ => ⟨fun _ i => rfl, fun _ => rfl⟩) hpairL]
      rfl
    · rw [hst']
      have hseq : ∀ a ∈ definedAttrs properTorsionAttrs
          ⟨[("smirks", r.smirks), ("periodicity", PyVal.list r.periodicity),
            ("phase", PyVal.list r.phase), ("k", PyVal.list r.k),
            ("idivf", PyVal.list (r.k.map (fun _ => PyScalar.int 3)))], []⟩,
          a.indexed = true → isListVal (recGetD
            ⟨[("smirks", r.smirks), ("periodicity", PyVal.list r.periodicity),
              ("phase", PyVal.list r.phase), ("k", PyVal.list r.k),
              ("idivf", PyVal.list (r.k.map (fun _ => PyScalar.int 3)))], []⟩ a) = true := by
        intro a ha
        have ha' : a ∈ [(⟨"smirks", none, false, fun v => .ok v⟩ : AttrSpec),
            ⟨"periodicity", none, true, fun v => .ok v⟩,
            ⟨"phase", none, true, fun v => .ok v⟩,
            ⟨"k", none, true, fun v => .ok v⟩,
            ⟨"idivf", some PyVal.noneV, true, fun v => .ok v⟩] := ha
        fin_cases ha' <;> intro h
        · exact absurd h (by decide)
        · rfl
        · rfl
        · rfl
        · rfl
      have hpairL : List.Pairwise attrKeysApart (definedAttrs properTorsionAttrs
          ⟨[("smirks", r.smirks), ("periodicity", PyVal.list r.periodicity),
            ("phase", PyVal.list r.phase), ("k", PyVal.list r.k),
            ("idivf", PyVal.list (r.k.map (fun _ => PyScalar.int 3)))], []⟩) := by
        show List.Pairwise attrKeysApart [(⟨"smirks", none, false, fun v => .ok v⟩ : AttrSpec),
          ⟨"periodicity", none, true, fun v => .ok v⟩,
          ⟨"phase", none, true, fun v => .ok v⟩,
          ⟨"k", none, true, fun v => .ok v⟩,
          ⟨"idivf", some PyVal.noneV, true, fun v => .ok v⟩]
        decide
      unfold toDict
      rw [toDictLoop_ok _ _ [] hseq (fun a _ => ⟨fun _ i => rfl, fun _ => rfl⟩) hpairL]
      rfl
    · rw [hasKey_append, hasKey_append, hasKey_append, hasKey_append,
        expansionPairs_hasKey_other "periodicity" r.periodicity 1 _
          (fun j => append_natStr_ne_of_incomp (by decide) 1 j),
        expansionPairs_hasKey_other "phase" r.phase 1 _
          (fun j => append_natStr_ne_of_incomp (by decide) 1 j),
        expansionPairs_hasKey_other "k" r.k 1 _
          (fun j => append_natStr_ne_of_incomp (by decide) 1 j)]
      rfl
    · intro hk
      rcases hkk : r.k with _ | ⟨x, ks⟩
      · exact absurd hkk hk
      have hidx : hasKey (expansionPairs "idivf" 1 ((x :: ks).map (fun _ => PyScalar.int 3)))
          ("idivf" ++ natStr 1) = true := by
        have h0 := (expansionPairs_getVal "idivf" ((x :: ks).map (fun _ => PyScalar.int 3)) 1 0
          (by simp)).1
        rw [show 1 + 0 = 1 from rfl] at h0
        exact h0
      have hfalse : hasKey ([("smirks", r.smirks)] ++
          (expansionPairs "periodicity" 1 r.periodicity ++
            (expansionPairs "phase" 1 r.phase ++ (expansionPairs "k" 1 (x :: ks) ++ []))))
          ("idivf" ++ natStr 1) = false := by
        rw [hasKey_append, hasKey_append, hasKey_append, hasKey_append,
          expansionPairs_hasKey_other "periodicity" r.periodicity 1 _
            (fun j => append_natStr_ne_of_incomp (by decide) 1 j),
          expansionPairs_hasKey_other "phase" r.phase 1 _
            (fun j => append_natStr_ne_of_incomp (by decide) 1 j),
          expansionPairs_hasKey_other "k" (x :: ks) 1 _
            (fun j => append_natStr_ne_of_incomp (by decide) 1 j)]
        rfl
      have htrue : hasKey ([("smirks", r.smirks)] ++
          (expansionPairs "periodicity" 1 r.periodicity ++
            (expansionPairs "phase" 1 r.phase ++
              (expansionPairs "k" 1 (x :: ks) ++
                (expansionPairs "idivf" 1 ((x :: ks).map (fun _ => PyScalar.int 3)) ++ [])))))
          ("idivf" ++ natStr 1) = true := by
        rw [hasKey_append, hasKey_append, hasKey_append, hasKey_append, hasKey_append,
          expansionPairs_hasKey_other "periodicity" r.periodicity 1 _
            (fun j => append_natStr_ne_of_incomp (by decide) 1 j),
          expansionPairs_hasKey_other "phase" r.phase 1 _
            (fun j => append_natStr_ne_of_incomp (by decide) 1 j),
          expansionPairs_hasKey_other "k" (x :: ks) 1 _
            (fun j => append_natStr_ne_of_incomp (by decide) 1 j),
          hidx]
        rfl
      refine ⟨htrue, ?_⟩
      intro he
      rw [he] at hfalse
      rw [hfalse] at htrue
      exact Bool.false_ne_true htrue

/-- A concrete matched improper record with `idivf` unset. -/
def c10Rec : ImproperRec :=
  ⟨PyVal.str "[*:1]~[*:2](~[*:3])~[*:4]", [PyScalar.int 2], [PyScalar.int 0],
   [PyScalar.rat 1], none⟩

/-- Witness for C10 at a concrete record: the `idivf = None` record is
mutated to `idivf = [3]`, a record with `idivf` set is untouched, and the
serializations before and after differ on the `idivf1` key. -/
theorem improper_idivf_mutation_spec_witness :
    improperPrepared c10Rec =
      { c10Rec with idivf := some (c10Rec.k.map (fun _ => PyScalar.int 3)) } ∧
    improperPrepared { c10Rec with idivf := some [PyScalar.int 1] } =
      { c10Rec with idivf := some [PyScalar.int 1] } ∧
    (∃ D D', toDict properTorsionAttrs (improperState c10Rec) false = .ok D ∧
      toDict properTorsionAttrs (improperState (improperPrepared c10Rec)) false = .ok D' ∧
      hasKey D ("idivf" ++ natStr 1) = false ∧
      (c10Rec.k ≠ [] → hasKey D' ("idivf" ++ natStr 1) = true ∧ D ≠ D')) :=
  ⟨improper_idivf_mutation_spec.1 c10Rec rfl,
   improper_idivf_mutation_spec.2.1 { c10Rec with idivf := some [PyScalar.int 1] }
     [PyScalar.int 1] rfl,
   improper_idivf_mutation_spec.2.2 c10Rec rfl⟩

/-! ## C3: the `to_dict` / construction round trip -/

theorem convertElems_id : ∀ xs : List PyScalar,
    convertElems (fun v => Except.ok v) xs = .ok xs
  | [] => rfl
  | x :: rest => by
    rw [convertElems]
    dsimp only
    rw [convertElems_id rest]

/-- Appending fresh, pairwise-distinct entries by repeated Python dict
assignment is list append. -/
theorem cosFold_append : ∀ (cos d : KVList),
    (∀ kv ∈ cos, hasKey d kv.1 = false) → (cos.map (fun kv => kv.1)).Nodup →
    cos.foldl (fun d kv => setVal d kv.1 kv.2) d = d ++ cos
  | [], d, _, _ => by rw [List.foldl_nil, List.append_nil]
  | kv :: rest, d, hfresh, hnodup => by
    rw [List.foldl_cons, setVal_absent d _ _ (hfresh kv (List.mem_cons_self kv rest)),
      cosFold_append rest (d ++ [(kv.1, kv.2)])
        (by
          intro kv' hm
          rw [hasKey_append, hfresh kv' (List.mem_cons_of_mem kv hm)]
          show (Bool.or false (decide (kv.1 = kv'.1) || false)) = false
          rw [decide_eq_false (by
            intro he
            rw [List.map_cons, List.nodup_cons] at hnodup
            exact hnodup.1 (he ▸ List.mem_map_of_mem (fun e => e.1) hm))]
          rfl)
        (by
          rw [List.map_cons, List.nodup_cons] at hnodup
          exact hnodup.2),
      List.append_assoc]
    rfl

/-- The assignment loop turns a run of undeclared keys into cosmetic
attributes, in order. -/
theorem assignAll_cosmetic_run (attrs : List AttrSpec) :
    ∀ (cos rest : KVList) (st : RecState),
      (∀ kv ∈ cos, (attrs.any (fun a => a.name = kv.1)) = false) →
      assignAll attrs true (cos ++ rest) st =
        assignAll attrs true rest ⟨st.vals, st.cosmetic ++ cos⟩
  | [], rest, st, _ => by rw [List.nil_append, List.append_nil]
  | kv :: cos', rest, st, h => by
    rw [List.cons_append, assignAll]
    rw [if_neg (show ¬ ((attrs.any fun a => a.name = kv.1) = true) from by
      rw [h kv (List.mem_cons_self kv cos')]
      exact Bool.false_ne_true), if_pos rfl]
    rw [assignAll_cosmetic_run attrs cos' rest ⟨st.vals, st.cosmetic ++ [(kv.1, kv.2)]⟩
      (fun kv' hm => h kv' (List.mem_cons_of_mem kv hm))]
    rw [List.append_assoc]
    rfl

/-- Constructing from the serialized form of a two-indexed-attribute record
(`smirks` value, suffix-expanded `phase` and `k` blocks, then cosmetic
entries) rebuilds exactly the original attribute store and cosmetic list. -/
theorem paramInit_twoIdx_blocks (s : PyVal) (p : PyScalar) (ps : List PyScalar)
    (kx : PyScalar) (kxs : List PyScalar) (cos : KVList)
    (hlen : (p :: ps).length = (kx :: kxs).length)
    (hcos : ∀ kv ∈ cos, kv.1 ≠ "smirks" ∧ kv.1 ≠ "phase" ∧ kv.1 ≠ "k" ∧
      ¬ isIdxSuffixKey "phase" kv.1 ∧ ¬ isIdxSuffixKey "k" kv.1) :
    paramInit twoIdxAttrs true
        ([("smirks", s)] ++ (expansionPairs "phase" 1 (p :: ps) ++
          (expansionPairs "k" 1 (kx :: kxs) ++ cos))) =
      .ok ⟨[("smirks", s), ("phase", PyVal.list (p :: ps)),
            ("k", PyVal.list (kx :: kxs))], cos⟩ := by
  have hcosphaseI : ∀ j, hasKey cos ("phase" ++ natStr j) = false := fun j =>
    (hasKey_eq_false_iff _ _).mpr (fun kv hm => ne_of_not_idxSuffixKey (hcos kv hm).2.2.2.1 j)
  have hcoskI : ∀ j, hasKey cos ("k" ++ natStr j) = false := fun j =>
    (hasKey_eq_false_iff _ _).mpr (fun kv hm => ne_of_not_idxSuffixKey (hcos kv hm).2.2.2.2 j)
  have hcossmirks : hasKey cos "smirks" = false :=
    (hasKey_eq_false_iff _ _).mpr (fun kv hm => (hcos kv hm).1)
  have hcosphase : hasKey cos "phase" = false :=
    (hasKey_eq_false_iff _ _).mpr (fun kv hm => (hcos kv hm).2.1)
  have hcosk : hasKey cos "k" = false :=
    (hasKey_eq_false_iff _ _).mpr (fun kv hm => (hcos kv hm).2.2.1)
  have hBkPhaseI : ∀ j, hasKey (expansionPairs "k" 1 (kx :: kxs)) ("phase" ++ natStr j) = false :=
    fun j => expansionPairs_hasKey_other "k" (kx :: kxs) 1 _
      (fun j' => append_natStr_ne_of_incomp (by decide) j j')
  have hBphKI : ∀ j, hasKey (expansionPairs "phase" 1 (p :: ps)) ("k" ++ natStr j) = false :=
    fun j => expansionPairs_hasKey_other "phase" (p :: ps) 1 _
      (fun j' => append_natStr_ne_of_incomp (by decide) j j')
  have hsmirksPhaseI : ∀ j, hasKey [(("smirks" : String), s)] ("phase" ++ natStr j) = false := by
    intro j
    show (decide ("smirks" = "phase" ++ natStr j) || false) = false
    rw [decide_eq_false (ne_of_not_idxSuffixKey (by decide) j)]
    rfl
  have hsmirksKI : ∀ j, hasKey [(("smirks" : String), s)] ("k" ++ natStr j) = false := by
    intro j
    show (decide ("smirks" = "k" ++ natStr j) || false) = false
    rw [decide_eq_false (ne_of_not_idxSuffixKey (by decide) j)]
    rfl
  have hphEntryKI : ∀ j, hasKey [(("phase" : String), PyVal.list (p :: ps))]
      ("k" ++ natStr j) = false := by
    intro j
    show (decide ("phase" = "k" ++ natStr j) || false) = false
    rw [decide_eq_false (ne_of_not_idxSuffixKey (by decide) j)]
    rfl
  -- the first fold: the phase block
  have hfold1 : foldIndexedLoop "phase"
      (([(("smirks" : String), s)] ++ (expansionPairs "phase" 1 (p :: ps) ++
        (expansionPairs "k" 1 (kx :: kxs) ++ cos))).length + 2) 1
      ([(("smirks" : String), s)] ++ (expansionPairs "phase" 1 (p :: ps) ++
        (expansionPairs "k" 1 (kx :: kxs) ++ cos))) =
      .ok (([(("smirks" : String), s)] ++ (expansionPairs "k" 1 (kx :: kxs) ++ cos)) ++
        [("phase", PyVal.list (p :: ps))]) := by
    rw [foldIndexedLoop_fold "phase" p ps _ _
      (by
        rw [hasKey_append, hasKey_append, hasKey_append,
          expansionPairs_hasKey_other "phase" (p :: ps) 1 "phase"
            (fun j => (append_natStr_ne_base "phase" j).symm),
          expansionPairs_hasKey_other "k" (kx :: kxs) 1 "phase"
            (fun j => ne_of_not_idxSuffixKey (by decide) j),
          hcosphase]
        rfl)
      (by
        intro j hj
        have hin := expansionPairs_getVal "phase" (p :: ps) 1 j hj
        rw [show 1 + j = j + 1 by omega] at hin
        constructor
        · rw [hasKey_append, hsmirksPhaseI (j + 1), hasKey_append, hin.1]
          rfl
        · rw [getVal_append_right _ _ _ (hsmirksPhaseI (j + 1)),
            getVal_append_left _ _ _ hin.1, hin.2])
      (by
        rw [hasKey_append, hsmirksPhaseI _, hasKey_append,
          expansionPairs_hasKey_out "phase" (p :: ps) 1 _ (by right; omega),
          hasKey_append, hBkPhaseI _, hcosphaseI _]
        rfl)
      (by
        simp only [List.length_append, expansionPairs_length, List.length_singleton]
        omega)]
    rw [eraseKeysFrom_append_block_mid "phase" (p :: ps) 1 [("smirks", s)]
      (expansionPairs "k" 1 (kx :: kxs) ++ cos) hsmirksPhaseI]
  -- the second fold: the k block
  have hfold2 : foldIndexedLoop "k"
      ((([(("smirks" : String), s)] ++ (expansionPairs "k" 1 (kx :: kxs) ++ cos)) ++
        [("phase", PyVal.list (p :: ps))]).length + 2) 1
      (([(("smirks" : String), s)] ++ (expansionPairs "k" 1 (kx :: kxs) ++ cos)) ++
        [("phase", PyVal.list (p :: ps))]) =
      .ok (([(("smirks" : String), s)] ++ (cos ++ [("phase", PyVal.list (p :: ps))])) ++
        [("k", PyVal.list (kx :: kxs))]) := by
    rw [List.append_assoc, List.append_assoc]
    rw [foldIndexedLoop_fold "k" kx kxs _ _
      (by
        rw [hasKey_append, hasKey_append, hasKey_append,
          expansionPairs_hasKey_other "k" (kx :: kxs) 1 "k"
            (fun j => (append_natStr_ne_base "k" j).symm),
          hcosk]
        show (Bool.or (decide ("smirks" = "k") || false)
          (Bool.or false (Bool.or false (decide ("phase" = "k") || false)))) = false
        rfl)
      (by
        intro j hj
        have hin := expansionPairs_getVal "k" (kx :: kxs) 1 j hj
        rw [show 1 + j = j + 1 by omega] at hin
        constructor
        · rw [hasKey_append, hsmirksKI (j + 1), hasKey_append, hin.1]
          rfl
        · rw [getVal_append_right _ _ _ (hsmirksKI (j + 1)),
            getVal_append_left _ _ _ hin.1, hin.2])
      (by
        rw [hasKey_append, hsmirksKI _, hasKey_append,
          expansionPairs_hasKey_out "k" (kx :: kxs) 1 _ (by right; omega),
          hasKey_append, hcoskI _, hphEntryKI _]
        rfl)
      (by
        simp only [List.length_append, expansionPairs_length, List.length_singleton]
        omega)]
    rw [show expansionPairs "k" 1 (kx :: kxs) ++ (cos ++ [("phase", PyVal.list (p :: ps))]) =
        expansionPairs "k" 1 (kx :: kxs) ++ (cos ++ [("phase", PyVal.list (p :: ps))]) from rfl,
      eraseKeysFrom_append_block_mid "k" (kx :: kxs) 1 [("smirks", s)]
        (cos ++ [("phase", PyVal.list (p :: ps))]) hsmirksKI]
  rw [paramInit]
  rw [show indexedNames twoIdxAttrs = ["phase", "k"] from rfl]
  rw [foldAllIndexed, hfold1]
  dsimp only
  rw [foldAllIndexed, hfold2]
  dsimp only
  rw [foldAllIndexed]
  dsimp only
  -- the recorded lengths
  have hk1 : hasKey ([(("smirks" : String), s)] ++ (expansionPairs "phase" 1 (p :: ps) ++
      (expansionPairs "k" 1 (kx :: kxs) ++ cos))) ("phase" ++ natStr 1) = true := by
    have hin := (expansionPairs_getVal "phase" (p :: ps) 1 0 (by simp)).1
    rw [show 1 + 0 = 1 from rfl] at hin
    rw [hasKey_append, hsmirksPhaseI 1, hasKey_append, hin]
    rfl
  have hk2 : hasKey (([(("smirks" : String), s)] ++ (expansionPairs "k" 1 (kx :: kxs) ++ cos)) ++
      [("phase", PyVal.list (p :: ps))]) ("k" ++ natStr 1) = true := by
    have hin := (expansionPairs_getVal "k" (kx :: kxs) 1 0 (by simp)).1
    rw [show 1 + 0 = 1 from rfl] at hin
    rw [hasKey_append, hasKey_append, hsmirksKI 1, hasKey_append, hin]
    rfl
  rw [hk1, hk2]
  simp only [if_true]
  have hgv1 : getVal (([(("smirks" : String), s)] ++ (expansionPairs "k" 1 (kx :: kxs) ++ cos)) ++
      [("phase", PyVal.list (p :: ps))]) "phase" = PyVal.list (p :: ps) := by
    rw [getVal_append_right _ _ _ (by
      rw [hasKey_append, hasKey_append,
        expansionPairs_hasKey_other "k" (kx :: kxs) 1 "phase"
          (fun j => ne_of_not_idxSuffixKey (by decide) j), hcosphase]
      show (Bool.or (decide ("smirks" = "phase") || false) (Bool.or false false)) = false
      rfl)]
    simp [getVal]
  have hgv2 : getVal (([(("smirks" : String), s)] ++ (cos ++ [("phase", PyVal.list (p :: ps))])) ++
      [("k", PyVal.list (kx :: kxs))]) "k" = PyVal.list (kx :: kxs) := by
    rw [getVal_append_right _ _ _ (by
      rw [hasKey_append, hasKey_append, hcosk]
      show (Bool.or (decide ("smirks" = "k") || false)
        (Bool.or false (decide ("phase" = "k") || false))) = false
      rfl)]
    simp [getVal]
  rw [hgv1, hgv2]
  -- equal lengths: the mismatch guard does not fire
  rw [if_neg (show ¬ (allSameNat (List.map (fun e : String × Nat => e.2)
      ([("phase", pyLen (PyVal.list (p :: ps)))] ++
        ([("k", pyLen (PyVal.list (kx :: kxs)))] ++ []))) = false) from by
    show ¬ (([(kx :: kxs).length].all (fun v => v = (p :: ps).length)) = false)
    simp only [List.all_cons, List.all_nil, Bool.and_true]
    rw [hlen]
    simp)]
  -- all required attributes are present
  have hreq1 : hasKey (([(("smirks" : String), s)] ++ (cos ++ [("phase", PyVal.list (p :: ps))])) ++
      [("k", PyVal.list (kx :: kxs))]) "smirks" = true := rfl
  have hreq2 : hasKey (([(("smirks" : String), s)] ++ (cos ++ [("phase", PyVal.list (p :: ps))])) ++
      [("k", PyVal.list (kx :: kxs))]) "phase" = true := by
    rw [hasKey_append, hasKey_append, hasKey_append, hcosphase]
    rfl
  have hreq3 : hasKey (([(("smirks" : String), s)] ++ (cos ++ [("phase", PyVal.list (p :: ps))])) ++
      [("k", PyVal.list (kx :: kxs))]) "k" = true := by
    rw [hasKey_append, hasKey_append, hasKey_append, hcosk]
    rfl
  rw [show requiredNames twoIdxAttrs = ["smirks", "phase", "k"] from rfl]
  rw [List.filter_cons, hreq1, List.filter_cons, hreq2, List.filter_cons, hreq3]
  rw [if_neg (show ¬ ((!true) = true) from by simp), if_neg (show ¬ ((!true) = true) from by simp),
    if_neg (show ¬ ((!true) = true) from by simp)]
  rw [if_neg (show ¬ ((List.filter (fun n => !(hasKey _ n)) [] ≠ [])) from fun hc => hc rfl)]
  -- the assignment loop
  rw [show (([(("smirks" : String), s)] ++ (cos ++ [("phase", PyVal.list (p :: ps))])) ++
      [("k", PyVal.list (kx :: kxs))]) =
      ("smirks", s) :: (cos ++ [("phase", PyVal.list (p :: ps)), ("k", PyVal.list (kx :: kxs))])
      from by
    rw [List.append_assoc, List.append_assoc]
    rfl]
  have hstep1 : assignAll twoIdxAttrs true
      (("smirks", s) :: (cos ++ [("phase", PyVal.list (p :: ps)), ("k", PyVal.list (kx :: kxs))]))
      ⟨[], []⟩ =
      assignAll twoIdxAttrs true
        (cos ++ [("phase", PyVal.list (p :: ps)), ("k", PyVal.list (kx :: kxs))])
        ⟨[("smirks", s)], []⟩ := rfl
  rw [hstep1]
  rw [assignAll_cosmetic_run twoIdxAttrs cos _ ⟨[("smirks", s)], []⟩
    (by
      intro kv hm
      have h := hcos kv hm
      show (List.any [(⟨"smirks", none, false, fun v => Except.ok v⟩ : AttrSpec),
        ⟨"phase", none, true, fun v => Except.ok v⟩,
        ⟨"k", none, true, fun v => Except.ok v⟩] fun a => a.name = kv.1) = false
      simp only [List.any_cons, List.any_nil, Bool.or_false, Bool.or_eq_false_iff,
        decide_eq_false_iff_not]
      exact ⟨Ne.symm h.1, Ne.symm h.2.1, Ne.symm h.2.2.1⟩)]
  have hph : recSetAttr twoIdxAttrs ⟨[("smirks", s)], [] ++ cos⟩ "phase"
      (PyVal.list (p :: ps)) =
      .ok ⟨[("smirks", s), ("phase", PyVal.list (p :: ps))], [] ++ cos⟩ := by
    show (attrConvert ⟨"phase", none, true, fun v => Except.ok v⟩ (PyVal.list (p :: ps))).map _ = _
    rw [attrConvert]
    rw [if_neg (show ¬ ((⟨"phase", none, true, fun v => Except.ok v⟩ : AttrSpec).dflt =
      some (PyVal.list (p :: ps))) from fun h => Option.noConfusion h)]
    rw [if_pos rfl]
    dsimp only
    rw [convertElems_id]
    rfl
  rw [assignAll, if_pos (show (twoIdxAttrs.any fun a => a.name = "phase") = true from rfl), hph]
  dsimp only
  have hk : recSetAttr twoIdxAttrs ⟨[("smirks", s), ("phase", PyVal.list (p :: ps))], [] ++ cos⟩
      "k" (PyVal.list (kx :: kxs)) =
      .ok ⟨[("smirks", s), ("phase", PyVal.list (p :: ps)), ("k", PyVal.list (kx :: kxs))],
        [] ++ cos⟩ := by
    show (attrConvert ⟨"k", none, true, fun v => Except.ok v⟩ (PyVal.list (kx :: kxs))).map _ = _
    rw [attrConvert]
    rw [if_neg (show ¬ ((⟨"k", none, true, fun v => Except.ok v⟩ : AttrSpec).dflt =
      some (PyVal.list (kx :: kxs))) from fun h => Option.noConfusion h)]
    rw [if_pos rfl]
    dsimp only
    rw [convertElems_id]
    rfl
  rw [assignAll, if_pos (show (twoIdxAttrs.any fun a => a.name = "k") = true from rfl), hk]
  dsimp only
  rw [assignAll]
  rfl

/-- Serializing a two-indexed-attribute record: `smirks`, the ascending
`phase1, …` and `k1, …` expansions, then — unless discarded — the cosmetic
entries. -/
theorem toDict_twoIdx (s : PyVal) (p : PyScalar) (ps : List PyScalar)
    (kx : PyScalar) (kxs : List PyScalar) (cos : KVList) (dc : Bool)
    (hcos : ∀ kv ∈ cos, kv.1 ≠ "smirks" ∧ kv.1 ≠ "phase" ∧ kv.1 ≠ "k" ∧
      ¬ isIdxSuffixKey "phase" kv.1 ∧ ¬ isIdxSuffixKey "k" kv.1)
    (hnodup : (cos.map (fun kv => kv.1)).Nodup) :
    toDict twoIdxAttrs ⟨[("smirks", s), ("phase", PyVal.list (p :: ps)),
        ("k", PyVal.list (kx :: kxs))], cos⟩ dc =
      .ok ([("smirks", s)] ++ (expansionPairs "phase" 1 (p :: ps) ++
        (expansionPairs "k" 1 (kx :: kxs) ++ (if dc = true then [] else cos)))) := by
  have hseq : ∀ a ∈ definedAttrs twoIdxAttrs ⟨[("smirks", s), ("phase", PyVal.list (p :: ps)),
      ("k", PyVal.list (kx :: kxs))], cos⟩,
      a.indexed = true → isListVal (recGetD ⟨[("smirks", s), ("phase", PyVal.list (p :: ps)),
        ("k", PyVal.list (kx :: kxs))], cos⟩ a) = true := by
    intro a ha
    have ha' : a ∈ [(⟨"smirks", none, false, fun v => Except.ok v⟩ : AttrSpec),
      ⟨"phase", none, true, fun v => Except.ok v⟩,
      ⟨"k", none, true, fun v => Except.ok v⟩] := ha
    fin_cases ha' <;> intro h
    · exact absurd h (by decide)
    · rfl
    · rfl
  have hpairL : List.Pairwise attrKeysApart (definedAttrs twoIdxAttrs
      ⟨[("smirks", s), ("phase", PyVal.list (p :: ps)),
        ("k", PyVal.list (kx :: kxs))], cos⟩) := by
    show List.Pairwise attrKeysApart [(⟨"smirks", none, false, fun v => Except.ok v⟩ : AttrSpec),
      ⟨"phase", none, true, fun v => Except.ok v⟩,
      ⟨"k", none, true, fun v => Except.ok v⟩]
    decide
  unfold toDict
  rw [toDictLoop_ok _ _ [] hseq (fun a _ => ⟨fun _ i => rfl, fun _ => rfl⟩) hpairL]
  dsimp only
  cases dc
  · rw [if_neg Bool.false_ne_true, if_neg Bool.false_ne_true]
    rw [show ([] : KVList) ++ segsList ⟨[("smirks", s), ("phase", PyVal.list (p :: ps)),
        ("k", PyVal.list (kx :: kxs))], cos⟩
        (definedAttrs twoIdxAttrs ⟨[("smirks", s), ("phase", PyVal.list (p :: ps)),
          ("k", PyVal.list (kx :: kxs))], cos⟩) =
        [("smirks", s)] ++ (expansionPairs "phase" 1 (p :: ps) ++
          (expansionPairs "k" 1 (kx :: kxs) ++ [])) from rfl]
    rw [cosFold_append cos _
      (by
        intro kv hm
        have h := hcos kv hm
        rw [hasKey_append, hasKey_append, hasKey_append,
          expansionPairs_hasKey_other "phase" (p :: ps) 1 _
            (fun j => ne_of_not_idxSuffixKey h.2.2.2.1 j),
          expansionPairs_hasKey_other "k" (kx :: kxs) 1 _
            (fun j => ne_of_not_idxSuffixKey h.2.2.2.2 j)]
        show (Bool.or (decide ("smirks" = kv.1) || false)
          (Bool.or false (Bool.or false false))) = false
        rw [decide_eq_false (Ne.symm h.1)]
        rfl)
      hnodup]
    simp [List.append_assoc]
  · rw [if_pos rfl, if_pos rfl]
    rfl

theorem str_append_left_cancel {c a b : String} (h : c ++ a = c ++ b) : a = b := by
  have hd : c.data ++ a.data = c.data ++ b.data := congrArg String.data h
  have hab := List.append_cancel_left hd
  cases a
  cases b
  exact congrArg String.mk hab

/-- Reading back a `_`-prefixed stored cosmetic value. -/
theorem getVal_prefixed_mem (attrsFront : KVList) : ∀ (S : KVList),
    (∀ kv ∈ S, hasKey attrsFront ("_" ++ kv.1) = false) →
    ((S.map fun kv => kv.1).Nodup) →
    ∀ kv ∈ S, getVal (attrsFront ++ S.map (fun kv => ("_" ++ kv.1, kv.2))) ("_" ++ kv.1) = kv.2
  | [], _, _, kv, hm => absurd hm (List.not_mem_nil kv)
  | x :: rest, hfresh, hnodup, kv, hm => by
    rcases List.mem_cons.mp hm with rfl | hmem
    · rw [getVal_append_right _ _ _ (hfresh kv (List.mem_cons_self kv rest))]
      simp [getVal]
    · rw [List.map_cons, List.append_cons]
      have hnodup' := hnodup
      rw [List.map_cons, List.nodup_cons] at hnodup'
      have hres := getVal_prefixed_mem (attrsFront ++ [("_" ++ x.1, x.2)]) rest
        (by
          intro kv' hm'
          rw [hasKey_append, hfresh kv' (List.mem_cons_of_mem x hm')]
          show (Bool.or false (decide ("_" ++ x.1 = "_" ++ kv'.1) || false)) = false
          rw [decide_eq_false (fun he => hnodup'.1 (by
            rw [str_append_left_cancel he]
            exact List.mem_map_of_mem (fun e => e.1) hm'))]
          rfl)
        hnodup'.2 kv hmem
      exact hres

/-- Folding pairwise-distinct fresh names with a function that restores each
entry's value appends the entries. -/
theorem namesFold_restore (g : String → PyVal) : ∀ (cs d : KVList),
    (∀ kv ∈ cs, hasKey d kv.1 = false) →
    (cs.map (fun kv => kv.1)).Nodup →
    (∀ kv ∈ cs, g kv.1 = kv.2) →
    (cs.map (fun kv => kv.1)).foldl (fun d k => setVal d k (g k)) d = d ++ cs
  | [], d, _, _, _ => by rw [List.map_nil, List.foldl_nil, List.append_nil]
  | kv :: rest, d, hfresh, hnodup, hg => by
    have hnodup' := hnodup
    rw [List.map_cons, List.nodup_cons] at hnodup'
    rw [List.map_cons, List.foldl_cons, hg kv (List.mem_cons_self kv rest),
      setVal_absent d _ _ (hfresh kv (List.mem_cons_self kv rest)),
      namesFold_restore g rest (d ++ [(kv.1, kv.2)])
        (by
          intro kv' hm
          rw [hasKey_append, hfresh kv' (List.mem_cons_of_mem kv hm)]
          show (Bool.or false (decide (kv.1 = kv'.1) || false)) = false
          rw [decide_eq_false (fun he => hnodup'.1 (by
            rw [he]
            exact List.mem_map_of_mem (fun e => e.1) hm))]
          rfl)
        hnodup'.2
        (fun kv' hm => hg kv' (List.mem_cons_of_mem kv hm)),
      List.append_assoc]
    rfl

/-- The assignment loop of `__init__` turns a run of non-header keys into
cosmetic attributes stored under `_`-prefixed names, in order. -/
theorem handlerAssign_cosmetic (cls : HandlerClass) : ∀ (cs : KVList) (st : HandlerState),
    (∀ kv ∈ cs, ¬ (some kv.1 = cls.elementName) ∧
      ¬ (kv.1 ∈ cls.requiredSpecAttribs ∨ hasKey cls.defaultSpecAttribs kv.1 = true ∨
        kv.1 ∈ cls.optionalSpecAttribs)) →
    (∀ kv ∈ cs, hasKey st.attrs ("_" ++ kv.1) = false) →
    (cs.map (fun kv => kv.1)).Nodup →
    handlerAssign cls true cs st =
      .ok ⟨st.attrs ++ cs.map (fun kv => ("_" ++ kv.1, kv.2)),
           st.cosmetic ++ cs.map (fun kv => kv.1)⟩
  | [], st, _, _, _ => by
    rw [List.map_nil, List.map_nil, List.append_nil, List.append_nil]
    rfl
  | kv :: rest, st, hcond, hfresh, hnodup => by
    have hnodup' := hnodup
    rw [List.map_cons, List.nodup_cons] at hnodup'
    have hc := hcond kv (List.mem_cons_self kv rest)
    rw [handlerAssign, if_neg hc.1, if_neg hc.2, if_pos rfl,
      setVal_absent _ _ _ (hfresh kv (List.mem_cons_self kv rest)),
      handlerAssign_cosmetic cls rest ⟨st.attrs ++ [("_" ++ kv.1, kv.2)], st.cosmetic ++ [kv.1]⟩
        (fun kv' hm => hcond kv' (List.mem_cons_of_mem kv hm))
        (by
          intro kv' hm
          rw [hasKey_append, hfresh kv' (List.mem_cons_of_mem kv hm)]
          show (Bool.or false (decide ("_" ++ kv.1 = "_" ++ kv'.1) || false)) = false
          rw [decide_eq_false (fun he => hnodup'.1 (by
            rw [str_append_left_cancel he]
            exact List.mem_map_of_mem (fun e => e.1) hm))]
          rfl)
        hnodup'.2]
    rw [List.map_cons, List.map_cons, List.append_assoc, List.append_assoc]
    rfl

/-- Serializing a constructed `BondHandler` and re-running `__init__` on the
result reproduces exactly the original instance attributes and cosmetic
list (the parameter-list entry under the element name is skipped by the
reconstruction without reading its value). -/
theorem handler_roundtrip (v pot m i velem : PyVal) (cs : KVList) (svc : Bool)
    (hv : bondHandlerCls.versionCompatible v = true)
    (hcs : ∀ kv ∈ cs, kv.1 ≠ "Bond" ∧ kv.1 ≠ "version" ∧ kv.1 ≠ "potential" ∧
      kv.1 ≠ "fractional_bondorder_method" ∧ kv.1 ≠ "fractional_bondorder_interpolation" ∧
      ¬ isIdxSuffixKey "k" kv.1)
    (hnodup : (cs.map (fun kv => kv.1)).Nodup) :
    handlerToDict bondHandlerCls
        ⟨[("_version", v), ("_potential", pot), ("_fractional_bondorder_method", m),
          ("_fractional_bondorder_interpolation", i)] ++
          cs.map (fun kv => ("_" ++ kv.1, kv.2)),
         cs.map (fun kv => kv.1)⟩ velem false =
      [("Bond", velem), ("version", v), ("potential", pot),
       ("fractional_bondorder_method", m), ("fractional_bondorder_interpolation", i)] ++ cs ∧
    handlerInit bondHandlerCls true svc
        ([("Bond", velem), ("version", v), ("potential", pot),
          ("fractional_bondorder_method", m), ("fractional_bondorder_interpolation", i)] ++ cs) =
      .ok ⟨[("_version", v), ("_potential", pot), ("_fractional_bondorder_method", m),
            ("_fractional_bondorder_interpolation", i)] ++
            cs.map (fun kv => ("_" ++ kv.1, kv.2)),
           cs.map (fun kv => kv.1)⟩ := by
  have hfresh4 : ∀ kv ∈ cs, hasKey [(("_version" : String), v), ("_potential", pot),
      ("_fractional_bondorder_method", m), ("_fractional_bondorder_interpolation", i)]
      ("_" ++ kv.1) = false := by
    intro kv hm
    have h := hcs kv hm
    refine (hasKey_eq_false_iff _ _).mpr ?_
    intro e he
    rcases List.mem_cons.mp he with rfl | he
    · exact fun hee => h.2.1
        (str_append_left_cancel (show "_" ++ "version" = "_" ++ kv.1 from hee)).symm
    rcases List.mem_cons.mp he with rfl | he
    · exact fun hee => h.2.2.1
        (str_append_left_cancel (show "_" ++ "potential" = "_" ++ kv.1 from hee)).symm
    rcases List.mem_cons.mp he with rfl | he
    · exact fun hee => h.2.2.2.1
        (str_append_left_cancel
          (show "_" ++ "fractional_bondorder_method" = "_" ++ kv.1 from hee)).symm
    rcases List.mem_cons.mp he with rfl | he
    · exact fun hee => h.2.2.2.2.1
        (str_append_left_cancel
          (show "_" ++ "fractional_bondorder_interpolation" = "_" ++ kv.1 from hee)).symm
    exact absurd he (List.not_mem_nil e)
  constructor
  · show (cs.map (fun kv => kv.1)).foldl
        (fun d k => setVal d k (getVal
          ([("_version", v), ("_potential", pot), ("_fractional_bondorder_method", m),
            ("_fractional_bondorder_interpolation", i)] ++
            cs.map (fun kv => ("_" ++ kv.1, kv.2))) ("_" ++ k)))
        [("Bond", velem), ("version", v), ("potential", pot),
         ("fractional_bondorder_method", m), ("fractional_bondorder_interpolation", i)] =
      [("Bond", velem), ("version", v), ("potential", pot),
       ("fractional_bondorder_method", m), ("fractional_bondorder_interpolation", i)] ++ cs
    rw [namesFold_restore _ cs _
      (by
        intro kv hm
        have h := hcs kv hm
        refine (hasKey_eq_false_iff _ _).mpr ?_
        intro e he
        rcases List.mem_cons.mp he with rfl | he
        · exact Ne.symm h.1
        rcases List.mem_cons.mp he with rfl | he
        · exact Ne.symm h.2.1
        rcases List.mem_cons.mp he with rfl | he
        · exact Ne.symm h.2.2.1
        rcases List.mem_cons.mp he with rfl | he
        · exact Ne.symm h.2.2.2.1
        rcases List.mem_cons.mp he with rfl | he
        · exact Ne.symm h.2.2.2.2.1
        exact absurd he (List.not_mem_nil e))
      hnodup
      (getVal_prefixed_mem _ cs hfresh4 hnodup)]
  · have hstep : handlerVersionStep bondHandlerCls svc
        ([("Bond", velem), ("version", v), ("potential", pot),
          ("fractional_bondorder_method", m), ("fractional_bondorder_interpolation", i)] ++ cs) =
        .ok ([("Bond", velem), ("version", v), ("potential", pot),
          ("fractional_bondorder_method", m), ("fractional_bondorder_interpolation", i)] ++ cs) := by
      unfold handlerVersionStep
      rw [if_pos (show "version" ∈ bondHandlerCls.requiredSpecAttribs from by decide)]
      rw [if_pos (show hasKey ([("Bond", velem), ("version", v), ("potential", pot),
        ("fractional_bondorder_method", m), ("fractional_bondorder_interpolation", i)] ++ cs)
        "version" = true from rfl)]
      have hv' : bondHandlerCls.versionCompatible (getVal
          ([("Bond", velem), ("version", v), ("potential", pot),
            ("fractional_bondorder_method", m),
            ("fractional_bondorder_interpolation", i)] ++ cs) "version") = true := hv
      rw [if_pos hv']
    have hk1cs : hasKey cs ("k" ++ natStr 1) = false :=
      (hasKey_eq_false_iff _ _).mpr
        (fun kv hm => ne_of_not_idxSuffixKey (hcs kv hm).2.2.2.2.2 1)
    have hk1 : hasKey ([("Bond", velem), ("version", v), ("potential", pot),
        ("fractional_bondorder_method", m), ("fractional_bondorder_interpolation", i)] ++ cs)
        ("k" ++ natStr 1) = false := by
      rw [hasKey_append, hk1cs]
      rfl
    have hany : (bondHandlerCls.indexedAttribs.any fun b =>
        hasKey ([("Bond", velem), ("version", v), ("potential", pot),
          ("fractional_bondorder_method", m), ("fractional_bondorder_interpolation", i)] ++ cs)
          (b ++ natStr 1)) = false := by
      show (hasKey ([("Bond", velem), ("version", v), ("potential", pot),
        ("fractional_bondorder_method", m), ("fractional_bondorder_interpolation", i)] ++ cs)
        ("k" ++ natStr 1) || false) = false
      rw [hk1]
      rfl
    have hanycs : List.any cs (fun kv => decide (kv.1 ∈ bondHandlerCls.requireUnits) &&
        !(bondHandlerCls.unitsCompatible kv.1 kv.2)) = false := by
      rw [List.any_eq_false]
      intro kv _
      exact fun hx => Bool.false_ne_true hx
    have hunits : (List.any (handlerApplyDefaults bondHandlerCls (handlerApplyCasts bondHandlerCls
        ([("Bond", velem), ("version", v), ("potential", pot),
          ("fractional_bondorder_method", m), ("fractional_bondorder_interpolation", i)] ++ cs)))
        (fun kv => decide (kv.1 ∈ bondHandlerCls.requireUnits) &&
          !(bondHandlerCls.unitsCompatible kv.1 kv.2))) = false := by
      show (List.any ([("Bond", velem), ("version", v), ("potential", pot),
        ("fractional_bondorder_method", m), ("fractional_bondorder_interpolation", i)] ++ cs)
        (fun kv => decide (kv.1 ∈ bondHandlerCls.requireUnits) &&
          !(bondHandlerCls.unitsCompatible kv.1 kv.2))) = false
      rw [List.any_append, hanycs]
      rfl
    unfold handlerInit
    rw [hstep]
    dsimp only
    rw [if_neg (show ¬ ((bondHandlerCls.requiredSpecAttribs.filter (fun r =>
      !(hasKey ([("Bond", velem), ("version", v), ("potential", pot),
        ("fractional_bondorder_method", m), ("fractional_bondorder_interpolation", i)] ++ cs)
        r))) ≠ []) from fun hc => hc rfl)]
    rw [if_neg (fun hx => Bool.false_ne_true (hany ▸ hx))]
    rw [if_neg (fun hx => Bool.false_ne_true (hunits ▸ hx))]
    show handlerAssign bondHandlerCls true
      (("Bond", velem) :: ("version", v) :: ("potential", pot) ::
        ("fractional_bondorder_method", m) :: ("fractional_bondorder_interpolation", i) :: cs)
      ⟨[], []⟩ = _
    rw [show handlerAssign bondHandlerCls true
        (("Bond", velem) :: ("version", v) :: ("potential", pot) ::
          ("fractional_bondorder_method", m) :: ("fractional_bondorder_interpolation", i) :: cs)
        ⟨[], []⟩ =
        handlerAssign bondHandlerCls true cs
          ⟨[("_version", v), ("_potential", pot), ("_fractional_bondorder_method", m),
            ("_fractional_bondorder_interpolation", i)], []⟩ from rfl]
    rw [handlerAssign_cosmetic bondHandlerCls cs _
      (by
        intro kv hm
        have h := hcs kv hm
        constructor
        · exact fun he => h.1 (Option.some.inj (show some kv.1 = some "Bond" from he))
        · rintro (h1 | h2 | h3)
          · exact h.2.1 (List.mem_singleton.mp h1)
          · have hfalse : hasKey bondHandlerCls.defaultSpecAttribs kv.1 = false := by
              refine (hasKey_eq_false_iff _ _).mpr ?_
              intro e he
              rcases List.mem_cons.mp he with rfl | he
              · exact Ne.symm h.2.2.1
              rcases List.mem_cons.mp he with rfl | he
              · exact Ne.symm h.2.2.2.1
              rcases List.mem_cons.mp he with rfl | he
              · exact Ne.symm h.2.2.2.2.1
              exact absurd he (List.not_mem_nil e)
            exact Bool.false_ne_true (hfalse ▸ h2)
          · exact absurd h3 (List.not_mem_nil kv.1))
      hfresh4 hnodup]
    rfl

/-- C3 counterexample: a cosmetic attribute named `k2` round-trips into the
suffix-numbered form of the indexed attribute `k`.  The record constructs
fine (the fold probes `k1`, which is absent), `to_dict` emits
`smirks, phase1, k1` and then the cosmetic `k2` — and reconstruction from
that dict folds `k1, k2` into `k = [1, 9]` while `phase` has length 1, so
it fails with the unequal-lengths `TypeError` instead of reproducing the
record. -/
theorem record_roundtrip_counterexample :
    paramInit twoIdxAttrs true
        [("smirks", PyVal.str "[*:1]~[*:2]"), ("phase", PyVal.list [PyScalar.int 0]),
         ("k", PyVal.list [PyScalar.int 1]), ("k2", PyVal.int 9)] =
      .ok ⟨[("smirks", PyVal.str "[*:1]~[*:2]"), ("phase", PyVal.list [PyScalar.int 0]),
            ("k", PyVal.list [PyScalar.int 1])], [("k2", PyVal.int 9)]⟩ ∧
    toDict twoIdxAttrs
        ⟨[("smirks", PyVal.str "[*:1]~[*:2]"), ("phase", PyVal.list [PyScalar.int 0]),
          ("k", PyVal.list [PyScalar.int 1])], [("k2", PyVal.int 9)]⟩ false =
      .ok [("smirks", PyVal.str "[*:1]~[*:2]"), ("phase1", PyVal.base (PyScalar.int 0)),
           ("k1", PyVal.base (PyScalar.int 1)), ("k2", PyVal.int 9)] ∧
    paramInit twoIdxAttrs true
        [("smirks", PyVal.str "[*:1]~[*:2]"), ("phase1", PyVal.base (PyScalar.int 0)),
         ("k1", PyVal.base (PyScalar.int 1)), ("k2", PyVal.int 9)] =
      .error (.typeErr "The following indexed attributes have different lengths") :=
  ⟨by decide, by decide, by decide⟩

/-- C3 (amended): reconstruction from `to_dict` output reproduces the
original record or handler exactly — schema attributes and, unless
discarding was requested, cosmetic attributes — provided the cosmetic
attribute names are pairwise distinct and collide neither with a schema
attribute name nor with any suffix-numbered form `base1, base2, …` of an
indexed attribute (without that proviso the round trip can fail outright).
Shown on the representative layouts: a two-indexed-attribute parameter
type with sequences of equal length, and the `BondHandler` header. -/
theorem from_to_dict_roundtrip_spec :
    (∀ (s : PyVal) (p : PyScalar) (ps : List PyScalar) (kx : PyScalar) (kxs : List PyScalar)
        (cos : KVList),
        (p :: ps).length = (kx :: kxs).length →
        (∀ kv ∈ cos, kv.1 ≠ "smirks" ∧ kv.1 ≠ "phase" ∧ kv.1 ≠ "k" ∧
          ¬ isIdxSuffixKey "phase" kv.1 ∧ ¬ isIdxSuffixKey "k" kv.1) →
        (cos.map (fun kv => kv.1)).Nodup →
        toDict twoIdxAttrs ⟨[("smirks", s), ("phase", PyVal.list (p :: ps)),
            ("k", PyVal.list (kx :: kxs))], cos⟩ false =
          .ok ([("smirks", s)] ++ (expansionPairs "phase" 1 (p :: ps) ++
            (expansionPairs "k" 1 (kx :: kxs) ++ cos))) ∧
        paramInit twoIdxAttrs true
            ([("smirks", s)] ++ (expansionPairs "phase" 1 (p :: ps) ++
              (expansionPairs "k" 1 (kx :: kxs) ++ cos))) =
          .ok ⟨[("smirks", s), ("phase", PyVal.list (p :: ps)),
                ("k", PyVal.list (kx :: kxs))], cos⟩) ∧
    (∀ (s : PyVal) (p : PyScalar) (ps : List PyScalar) (kx : PyScalar) (kxs : List PyScalar)
        (cos : KVList),
        (p :: ps).length = (kx :: kxs).length →
        (∀ kv ∈ cos, kv.1 ≠ "smirks" ∧ kv.1 ≠ "phase" ∧ kv.1 ≠ "k" ∧
          ¬ isIdxSuffixKey "phase" kv.1 ∧ ¬ isIdxSuffixKey "k" kv.1) →
        (cos.map (fun kv => kv.1)).Nodup →
        toDict twoIdxAttrs ⟨[("smirks", s), ("phase", PyVal.list (p :: ps)),
            ("k", PyVal.list (kx :: kxs))], cos⟩ true =
          .ok ([("smirks", s)] ++ (expansionPairs "phase" 1 (p :: ps) ++
            (expansionPairs "k" 1 (kx :: kxs) ++ []))) ∧
        paramInit twoIdxAttrs true
            ([("smirks", s)] ++ (expansionPairs "phase" 1 (p :: ps) ++
              (expansionPairs "k" 1 (kx :: kxs) ++ []))) =
          .ok ⟨[("smirks", s), ("phase", PyVal.list (p :: ps)),
                ("k", PyVal.list (kx :: kxs))], []⟩) ∧
    (∀ (v pot m i velem : PyVal) (cs : KVList) (svc : Bool),
        bondHandlerCls.versionCompatible v = true →
        (∀ kv ∈ cs, kv.1 ≠ "Bond" ∧ kv.1 ≠ "version" ∧ kv.1 ≠ "potential" ∧
          kv.1 ≠ "fractional_bondorder_method" ∧
          kv.1 ≠ "fractional_bondorder_interpolation" ∧ ¬ isIdxSuffixKey "k" kv.1) →
        (cs.map (fun kv => kv.1)).Nodup →
        handlerToDict bondHandlerCls
            ⟨[("_version", v), ("_potential", pot), ("_fractional_bondorder_method", m),
              ("_fractional_bondorder_interpolation", i)] ++
              cs.map (fun kv => ("_" ++ kv.1, kv.2)),
             cs.map (fun kv => kv.1)⟩ velem false =
          [("Bond", velem), ("version", v), ("potential", pot),
           ("fractional_bondorder_method", m),
           ("fractional_bondorder_interpolation", i)] ++ cs ∧
        handlerInit bondHandlerCls true svc
            ([("Bond", velem), ("version", v), ("potential", pot),
              ("fractional_bondorder_method", m),
              ("fractional_bondorder_interpolation", i)] ++ cs) =
          .ok ⟨[("_version", v), ("_potential", pot), ("_fractional_bondorder_method", m),
                ("_fractional_bondorder_interpolation", i)] ++
                cs.map (fun kv => ("_" ++ kv.1, kv.2)),
               cs.map (fun kv => kv.1)⟩) := by
  refine ⟨?_, ?_, ?_⟩
  · intro s p ps kx kxs cos hlen hcos hnodup
    exact ⟨toDict_twoIdx s p ps kx kxs cos false hcos hnodup,
      paramInit_twoIdx_blocks s p ps kx kxs cos hlen hcos⟩
  · intro s p ps kx kxs cos hlen hcos hnodup
    exact ⟨toDict_twoIdx s p ps kx kxs cos true hcos hnodup,
      paramInit_twoIdx_blocks s p ps kx kxs [] hlen
        (fun kv hm => absurd hm (List.not_mem_nil kv))⟩
  · intro v pot m i velem cs svc hv hcs hnodup
    exact handler_roundtrip v pot m i velem cs svc hv hcs hnodup

/-- Witness for C3: a concrete record with one cosmetic attribute
round-trips exactly (cosmetic kept, or dropped under discarding), and a
concrete `BondHandler` round-trips exactly. -/
theorem from_to_dict_roundtrip_spec_witness :
    (toDict twoIdxAttrs ⟨[("smirks", PyVal.str "[*:1]~[*:2]"),
          ("phase", PyVal.list [PyScalar.int 0]), ("k", PyVal.list [PyScalar.int 1])],
        [("pairs", PyVal.str "x")]⟩ false =
      .ok ([("smirks", PyVal.str "[*:1]~[*:2]")] ++
        (expansionPairs "phase" 1 [PyScalar.int 0] ++
          (expansionPairs "k" 1 [PyScalar.int 1] ++ [("pairs", PyVal.str "x")]))) ∧
    paramInit twoIdxAttrs true
        ([("smirks", PyVal.str "[*:1]~[*:2]")] ++
          (expansionPairs "phase" 1 [PyScalar.int 0] ++
            (expansionPairs "k" 1 [PyScalar.int 1] ++ [("pairs", PyVal.str "x")]))) =
      .ok ⟨[("smirks", PyVal.str "[*:1]~[*:2]"), ("phase", PyVal.list [PyScalar.int 0]),
            ("k", PyVal.list [PyScalar.int 1])], [("pairs", PyVal.str "x")]⟩) ∧
    (toDict twoIdxAttrs ⟨[("smirks", PyVal.str "[*:1]~[*:2]"),
          ("phase", PyVal.list [PyScalar.int 0]), ("k", PyVal.list [PyScalar.int 1])],
        [("pairs", PyVal.str "x")]⟩ true =
      .ok ([("smirks", PyVal.str "[*:1]~[*:2]")] ++
        (expansionPairs "phase" 1 [PyScalar.int 0] ++
          (expansionPairs "k" 1 [PyScalar.int 1] ++ []))) ∧
    paramInit twoIdxAttrs true
        ([("smirks", PyVal.str "[*:1]~[*:2]")] ++
          (expansionPairs "phase" 1 [PyScalar.int 0] ++
            (expansionPairs "k" 1 [PyScalar.int 1] ++ []))) =
      .ok ⟨[("smirks", PyVal.str "[*:1]~[*:2]"), ("phase", PyVal.list [PyScalar.int 0]),
            ("k", PyVal.list [PyScalar.int 1])], []⟩) ∧
    (handlerToDict bondHandlerCls
        ⟨[("_version", PyVal.str "0.3"), ("_potential", PyVal.str "harmonic"),
          ("_fractional_bondorder_method", PyVal.noneV),
          ("_fractional_bondorder_interpolation", PyVal.str "linear")] ++
          ([(("note" : String), PyVal.str "x")]).map (fun kv => ("_" ++ kv.1, kv.2)),
         ([(("note" : String), PyVal.str "x")]).map (fun kv => kv.1)⟩ PyVal.noneV false =
      [("Bond", PyVal.noneV), ("version", PyVal.str "0.3"), ("potential", PyVal.str "harmonic"),
       ("fractional_bondorder_method", PyVal.noneV),
       ("fractional_bondorder_interpolation", PyVal.str "linear")] ++
        [(("note" : String), PyVal.str "x")] ∧
    handlerInit bondHandlerCls true false
        ([("Bond", PyVal.noneV), ("version", PyVal.str "0.3"),
          ("potential", PyVal.str "harmonic"), ("fractional_bondorder_method", PyVal.noneV),
          ("fractional_bondorder_interpolation", PyVal.str "linear")] ++
          [(("note" : String), PyVal.str "x")]) =
      .ok ⟨[("_version", PyVal.str "0.3"), ("_potential", PyVal.str "harmonic"),
            ("_fractional_bondorder_method", PyVal.noneV),
            ("_fractional_bondorder_interpolation", PyVal.str "linear")] ++
            ([(("note" : String), PyVal.str "x")]).map (fun kv => ("_" ++ kv.1, kv.2)),
           ([(("note" : String), PyVal.str "x")]).map (fun kv => kv.1)⟩) :=
  ⟨from_to_dict_roundtrip_spec.1 (PyVal.str "[*:1]~[*:2]") (PyScalar.int 0) []
      (PyScalar.int 1) [] [("pairs", PyVal.str "x")] (by decide) (by decide) (by decide),
   from_to_dict_roundtrip_spec.2.1 (PyVal.str "[*:1]~[*:2]") (PyScalar.int 0) []
      (PyScalar.int 1) [] [("pairs", PyVal.str "x")] (by decide) (by decide) (by decide),
   from_to_dict_roundtrip_spec.2.2 (PyVal.str "0.3") (PyVal.str "harmonic") PyVal.noneV
      (PyVal.str "linear") PyVal.noneV [("note", PyVal.str "x")] false
      (by decide) (by decide) (by decide)⟩
